import Mathlib


/-!
tiny-rv32ima: the PSRAM cache, the control-register bridge and the VM lifecycle

A shallow embedding of `src/cache/cache.c`, `src/psram/psram.c` and
`src/emulator/emulator.c`.  Machine integers are natural numbers with the
C truncations written out (`% 256` for `uint8_t`, `% 65536` for `uint16_t`,
`% 4294967296` for `uint32_t`).  Memories are functions from addresses to bytes.
-/

namespace TinyRv32

/-! ## Configuration -/

/-- Modelled from the spec: `vm_config.h` is absent.  The spec lists the constants
`OFFSET_BITS` and `INDEX_BITS` with `CACHE_LINE_SIZE = 1 << OFFSET_BITS` and
`CACHE_SET_SIZE = 1 << INDEX_BITS`; the two bit counts are parameters. -/
structure Config where
  OFFSET_BITS : Nat
  INDEX_BITS : Nat
deriving DecidableEq, Repr

/-- Modelled from the spec: `CACHE_LINE_SIZE = 1 << OFFSET_BITS`. -/
def CACHE_LINE_SIZE (c : Config) : Nat := 1 <<< c.OFFSET_BITS

/-- Modelled from the spec: `CACHE_SET_SIZE = 1 << INDEX_BITS`. -/
def CACHE_SET_SIZE (c : Config) : Nat := 1 <<< c.INDEX_BITS

/-- The configurations the C types of `cache.c` can hold: the offset fits the `uint8_t`
local, the index fits the `uint16_t` local, and the tag of every 24-bit address fits
the `uint16_t` tag field. -/
def Config.Valid (c : Config) : Prop :=
  c.OFFSET_BITS ≤ 8 ∧ c.INDEX_BITS ≤ 16 ∧ 8 ≤ c.OFFSET_BITS + c.INDEX_BITS

instance (c : Config) : Decidable c.Valid := by
  unfold Config.Valid; infer_instance

/-- The parameters of scenario S2 of the spec. -/
def cfg67 : Config := ⟨6, 7⟩

/-! ## Address macros of `cache.c` -/

/-- `#define ADDR_BITS 24` -/
def ADDR_BITS : Nat := 24

/-- `#define OFFSET(addr) (addr & (CACHE_LINE_SIZE - 1))` -/
def OFFSET (c : Config) (addr : Nat) : Nat := addr &&& (CACHE_LINE_SIZE c - 1)

/-- `#define INDEX(addr) ((addr >> OFFSET_BITS) & (CACHE_SET_SIZE - 1))` -/
def INDEX (c : Config) (addr : Nat) : Nat :=
  (addr >>> c.OFFSET_BITS) &&& (CACHE_SET_SIZE c - 1)

/-- `#define TAG(addr) (addr >> (OFFSET_BITS + INDEX_BITS))` -/
def TAG (c : Config) (addr : Nat) : Nat := addr >>> (c.OFFSET_BITS + c.INDEX_BITS)

/-- `#define BASE(addr) (addr & (~(uint32_t)(CACHE_LINE_SIZE - 1)))`; the complement
of a `uint32_t` `x` is `4294967295 - x`. -/
def BASE (c : Config) (addr : Nat) : Nat :=
  addr &&& (4294967295 - (CACHE_LINE_SIZE c - 1) % 4294967296)

/-! ## Cache lines -/

/-- `struct Cacheline { uint16_t tag; uint8_t data[CACHE_LINE_SIZE]; uint8_t status; }`.
The data array is a function from the array index to the byte stored there. -/
structure Cacheline where
  tag : Nat
  data : Nat → Nat
  status : Nat

/-- `#define IS_VALID(line) (line->status & 0b01)` -/
def IS_VALID (line : Cacheline) : Bool := line.status &&& 1 != 0

/-- `#define IS_DIRTY(line) (line->status & 0b10)` -/
def IS_DIRTY (line : Cacheline) : Bool := line.status &&& 2 != 0

/-- `#define IS_LRU(line) (line->status & 0b100)` -/
def IS_LRU (line : Cacheline) : Bool := line.status &&& 4 != 0

/-- `#define SET_VALID(line) line->status = 1` -/
def SET_VALID (line : Cacheline) : Cacheline := { line with status := 1 }

/-- `#define SET_DIRTY(line) line->status |= 0b10;` -/
def SET_DIRTY (line : Cacheline) : Cacheline := { line with status := line.status ||| 2 }

/-- `#define SET_LRU(line) line->status |= 0b100;` -/
def SET_LRU (line : Cacheline) : Cacheline := { line with status := line.status ||| 4 }

/-- `#define CLEAR_LRU(line) line->status &= ~0b100;` (the mask, cut to the
`uint8_t` status, is `0xFB`). -/
def CLEAR_LRU (line : Cacheline) : Cacheline := { line with status := line.status &&& 251 }

/-! ## The PSRAM chip and `psram_access` -/

/-- The external memory: a byte at every address. -/
abbrev Mem := Nat → Nat

/-- Modelled from the spec: the SPI layer (`hal_psram.h`) and the chip are absent.
The chip receives the 24-bit address most significant byte first. -/
def chip_addr (b1 b2 b3 : Nat) : Nat := b1 * 65536 + b2 * 256 + b3

/-- Modelled from the spec: the chip stores `size` bytes of `buf` from address `a` on. -/
def chip_write (chip : Mem) (a : Nat) (buf : Nat → Nat) (size : Nat) : Mem :=
  fun x => if a ≤ x ∧ x < a + size then buf (x - a) else chip x

/-- Modelled from the spec: the chip streams `size` bytes from address `a` on into `buf`. -/
def chip_read (chip : Mem) (a : Nat) (buf : Nat → Nat) (size : Nat) : Nat → Nat :=
  fun i => if i < size then chip (a + i) else buf i

/-- `psram_access(addr, size, write, bufP)`: the three address bytes of the command are
`addr >> 16`, `addr >> 8` and `addr`, each cut to a `uint8_t`.  Returns the chip and
the buffer after the transfer. -/
def psram_access (chip : Mem) (addr size : Nat) (write : Bool) (bufP : Nat → Nat) :
    Mem × (Nat → Nat) :=
  let cmdAddr1 := (addr >>> 16) % 256
  let cmdAddr2 := (addr >>> 8) % 256
  let cmdAddr3 := addr % 256
  let a := chip_addr cmdAddr1 cmdAddr2 cmdAddr3
  if write then (chip_write chip a bufP size, bufP)
  else (chip, chip_read chip a bufP size)

/-- `#define psram_write(ofs, p, sz) psram_access(ofs, sz, true, p)` -/
def psram_write (chip : Mem) (ofs : Nat) (p : Nat → Nat) (sz : Nat) : Mem :=
  (psram_access chip ofs sz true p).1

/-- `#define psram_read(ofs, p, sz) psram_access(ofs, sz, false, p)` -/
def psram_read (chip : Mem) (ofs : Nat) (p : Nat → Nat) (sz : Nat) : Nat → Nat :=
  (psram_access chip ofs sz false p).2

/-! ## The cache -/

/-- The array `cacheline_t cache[CACHE_SET_SIZE][2]` together with the PSRAM behind it. -/
structure MemSys where
  cache : Nat → Nat → Cacheline
  psram : Mem

/-- Store both ways of set `index`. -/
def MemSys.setWays (m : MemSys) (index : Nat) (way1 way2 : Cacheline) (psram : Mem) :
    MemSys :=
  { cache := fun i w => if i = index then (if w = 0 then way1 else if w = 1 then way2
                                            else m.cache i w) else m.cache i w
    psram := psram }

/-- `cache_reset`: `memset(cache, 0, sizeof(cache))`. -/
def cache_reset (m : MemSys) : MemSys :=
  { m with cache := fun _ _ => { tag := 0, data := fun _ => 0, status := 0 } }

/-- The write-back address, as computed in `flush_line` and in both miss branches:
`(index << OFFSET_BITS) | ((uint32_t)(LINE_TAG(line)) << (INDEX_BITS + OFFSET_BITS))`. -/
def flush_base (c : Config) (line : Cacheline) (index : Nat) : Nat :=
  ((index <<< c.OFFSET_BITS) |||
    ((line.tag <<< (c.INDEX_BITS + c.OFFSET_BITS)) % 4294967296)) % 4294967296

/-- `flush_line(line, index)`: write the line back if its dirty bit is set. -/
def flush_line (c : Config) (psram : Mem) (line : Cacheline) (index : Nat) : Mem :=
  if IS_DIRTY line then
    psram_write psram (flush_base c line (index % 65536)) line.data (CACHE_LINE_SIZE c)
  else psram

/-- The loop of `cache_flush`, run for the sets `0 .. n-1`. -/
def cache_flush_upto (c : Config) (m : MemSys) : Nat → Mem
  | 0 => m.psram
  | index + 1 =>
    let p0 := cache_flush_upto c m index
    let p1 := flush_line c p0 (m.cache index 0) index
    flush_line c p1 (m.cache index 1) index

/-- `cache_flush`: for every set, `flush_line` way 0 and then way 1. -/
def cache_flush (c : Config) (m : MemSys) : MemSys :=
  { m with psram := cache_flush_upto c m (CACHE_SET_SIZE c) }

/-- The miss branch for a chosen victim `line` (already with its LRU bit cleared):
write it back if dirty, read the new line from PSRAM, set the tag, mark it valid. -/
def refill (c : Config) (psram : Mem) (line : Cacheline) (index tag addr : Nat) :
    Cacheline × Mem :=
  let psram1 :=
    if IS_DIRTY line then
      psram_write psram (flush_base c line index) line.data (CACHE_LINE_SIZE c)
    else psram
  let base := BASE c addr
  let data := psram_read psram1 base line.data (CACHE_LINE_SIZE c)
  (SET_VALID { line with data := data, tag := tag }, psram1)

/-- The lookup and miss handling that open both `cache_read` and `cache_write`
(the two functions hold the same text).  Returns the state and the way (0 for
`cache[index][0]`, 1 for `cache[index][1]`) that `line` points to. -/
def locate (c : Config) (m : MemSys) (addr : Nat) : MemSys × Nat :=
  let index := INDEX c addr % 65536
  let tag := TAG c addr % 65536
  let way1 := m.cache index 0
  let way2 := m.cache index 1
  if tag == way1.tag && IS_VALID way1 then
    (m.setWays index (CLEAR_LRU way1) (SET_LRU way2) m.psram, 0)
  else if tag == way2.tag && IS_VALID way2 then
    (m.setWays index (SET_LRU way1) (CLEAR_LRU way2) m.psram, 1)
  else if IS_LRU way1 then
    let r := refill c m.psram (CLEAR_LRU way1) index tag addr
    (m.setWays index r.1 (SET_LRU way2) r.2, 0)
  else
    let r := refill c m.psram (CLEAR_LRU way2) index tag addr
    (m.setWays index (SET_LRU way1) r.1 r.2, 1)

/-- `while (size--) *(uint8_t *)(ptr++) = line->data[offset++];` with the `uint8_t`
offset wrapping at 256. -/
def read_bytes (data : Nat → Nat) : Nat → Nat → List Nat
  | 0, _ => []
  | size + 1, offset => data offset :: read_bytes data size ((offset + 1) % 256)

/-- `while (size--) line->data[offset++] = *(uint8_t *)(ptr++);` -/
def write_bytes : Nat → (Nat → Nat) → Nat → List Nat → (Nat → Nat)
  | 0, data, _, _ => data
  | size + 1, data, offset, ptr =>
    write_bytes size (Function.update data offset (ptr.headD 0)) ((offset + 1) % 256) ptr.tail

/-- Replace way `w` of set `index`. -/
def MemSys.setLine (m : MemSys) (index w : Nat) (line : Cacheline) : MemSys :=
  { m with cache := fun i w' => if i = index ∧ w' = w then line else m.cache i w' }

/-- `cache_read(addr, ptr, size)`: returns the state and the `size` bytes stored to `ptr`. -/
def cache_read (c : Config) (m : MemSys) (addr size : Nat) : MemSys × List Nat :=
  let index := INDEX c addr % 65536
  let offset := OFFSET c addr % 256
  let r := locate c m addr
  let line := r.1.cache index r.2
  (r.1, read_bytes line.data (size % 256) offset)

/-- `cache_write(addr, ptr, size)`: `ptr` holds the bytes to store. -/
def cache_write (c : Config) (m : MemSys) (addr : Nat) (ptr : List Nat) (size : Nat) :
    MemSys :=
  let index := INDEX c addr % 65536
  let offset := OFFSET c addr % 256
  let r := locate c m addr
  let line := r.1.cache index r.2
  let line1 := { line with data := write_bytes (size % 256) line.data offset ptr }
  r.1.setLine index r.2 (SET_DIRTY line1)

end TinyRv32


namespace TinyRv32

/-! ## Sequences of cache calls and the flat memory they are compared with -/

/-- A call into the cache: `cache_read(addr, _, size)`, `cache_write(addr, ptr, size)`
or `cache_flush()`. -/
inductive Op where
  | read (addr size : Nat)
  | write (addr : Nat) (ptr : List Nat) (size : Nat)
  | flush
deriving DecidableEq, Repr

/-- The precondition the cache states for its callers: size 1, 2 or 4, address below
`2^24`, the access inside one line; a write brings `size` bytes. -/
def Op.ok (c : Config) : Op → Prop
  | .read addr size =>
      (size = 1 ∨ size = 2 ∨ size = 4) ∧ addr < 2 ^ ADDR_BITS ∧
        OFFSET c addr + size ≤ CACHE_LINE_SIZE c
  | .write addr ptr size =>
      (size = 1 ∨ size = 2 ∨ size = 4) ∧ addr < 2 ^ ADDR_BITS ∧
        OFFSET c addr + size ≤ CACHE_LINE_SIZE c ∧ ptr.length = size
  | .flush => True

instance (c : Config) (op : Op) : Decidable (op.ok c) := by
  cases op <;> unfold Op.ok <;> infer_instance

/-- One call on the cache; the bytes a read stores to its buffer are the output. -/
def cache_step (c : Config) (m : MemSys) : Op → MemSys × List Nat
  | .read addr size => cache_read c m addr size
  | .write addr ptr size => (cache_write c m addr ptr size, [])
  | .flush => (cache_flush c m, [])

/-- A sequence of calls on the cache, with the outputs of all calls in order. -/
def cache_run (c : Config) (m : MemSys) : List Op → MemSys × List (List Nat)
  | [] => (m, [])
  | op :: ops =>
    let r := cache_step c m op
    let rs := cache_run c r.1 ops
    (rs.1, r.2 :: rs.2)

/-- Specification side of the refinement: reading `size` bytes of a flat byte array. -/
def flat_read (mem : Mem) (addr size : Nat) : List Nat :=
  (List.range size).map (fun i => mem (addr + i))

/-- Specification side of the refinement: storing `size` bytes into a flat byte array. -/
def flat_write (mem : Mem) (addr : Nat) (ptr : List Nat) (size : Nat) : Mem :=
  fun a => if addr ≤ a ∧ a < addr + size then ptr.getD (a - addr) 0 else mem a

/-- Specification side of the refinement: one call on the flat memory (a flush does
nothing to it). -/
def flat_step (mem : Mem) : Op → Mem × List Nat
  | .read addr size => (mem, flat_read mem addr size)
  | .write addr ptr size => (flat_write mem addr ptr size, [])
  | .flush => (mem, [])

/-- Specification side of the refinement: a sequence of calls on the flat memory. -/
def flat_run (mem : Mem) : List Op → Mem × List (List Nat)
  | [] => (mem, [])
  | op :: ops =>
    let r := flat_step mem op
    let rs := flat_run r.1 ops
    (rs.1, r.2 :: rs.2)

/-- The states the cache can be in: those a sequence of well-formed calls produces
from `cache_reset` over some backing store. -/
def Reachable (c : Config) (m : MemSys) : Prop :=
  ∃ (m0 : MemSys) (ops : List Op), (∀ op ∈ ops, op.ok c) ∧
    m = (cache_run c (cache_reset m0) ops).1

/-- The byte the guest sees at address `a`: the byte of the line that a lookup of `a`
hits (way 0 is tested first), or the PSRAM byte when the lookup misses. -/
def view (c : Config) (m : MemSys) (a : Nat) : Nat :=
  let way1 := m.cache (INDEX c a) 0
  let way2 := m.cache (INDEX c a) 1
  if TAG c a == way1.tag && IS_VALID way1 then way1.data (OFFSET c a)
  else if TAG c a == way2.tag && IS_VALID way2 then way2.data (OFFSET c a)
  else m.psram a

/-- The number of the memory line that a cache line with tag `tag` in set `idx` holds
(the line covers the addresses `lineNo * CACHE_LINE_SIZE ..`). -/
def lineNo (c : Config) (tag idx : Nat) : Nat := 2 ^ c.INDEX_BITS * tag + idx

/-- The consistency invariant of the cache over its backing store. -/
structure Inv (c : Config) (m : MemSys) : Prop where
  dirty_valid : ∀ idx w, IS_DIRTY (m.cache idx w) = true → IS_VALID (m.cache idx w) = true
  bound : ∀ idx w, IS_VALID (m.cache idx w) = true →
    idx < 2 ^ c.INDEX_BITS ∧
      (m.cache idx w).tag < 2 ^ (ADDR_BITS - c.OFFSET_BITS - c.INDEX_BITS)
  nodup : ∀ idx, IS_VALID (m.cache idx 0) = true → IS_VALID (m.cache idx 1) = true →
    (m.cache idx 0).tag ≠ (m.cache idx 1).tag
  clean : ∀ idx w, w < 2 → IS_VALID (m.cache idx w) = true →
    IS_DIRTY (m.cache idx w) = false →
    ∀ j, j < 2 ^ c.OFFSET_BITS →
      (m.cache idx w).data j =
        m.psram (2 ^ c.OFFSET_BITS * lineNo c (m.cache idx w).tag idx + j)

end TinyRv32


namespace TinyRv32

/-! ## Vocabulary for statements about single calls -/

/-- The call is a `cache_read` or a `cache_write` at address `a`. -/
def Op.accessAt (a : Nat) : Op → Prop
  | .read addr _ => addr = a
  | .write addr _ _ => addr = a
  | .flush => False

instance (a : Nat) (op : Op) : Decidable (op.accessAt a) := by
  cases op <;> unfold Op.accessAt <;> infer_instance

/-- The call does not look up set `idx`: it is a flush, or an access to another set. -/
def Op.avoidsSet (c : Config) (idx : Nat) : Op → Prop
  | .read addr _ => INDEX c addr ≠ idx
  | .write addr _ _ => INDEX c addr ≠ idx
  | .flush => True

instance (c : Config) (idx : Nat) (op : Op) : Decidable (op.avoidsSet c idx) := by
  cases op <;> unfold Op.avoidsSet <;> infer_instance

/-- The call stores nothing into the bytes `A .. A+S-1`. -/
def Op.leaves (A S : Nat) : Op → Prop
  | .read _ _ => True
  | .write addr _ size => addr + size ≤ A ∨ A + S ≤ addr
  | .flush => True

instance (A S : Nat) (op : Op) : Decidable (op.leaves A S) := by
  cases op <;> unfold Op.leaves <;> infer_instance

/-- A backing store and cache contents used in the worked scenarios: the byte at
address `a` is `a % 251`, the cache array holds arbitrary old contents. -/
def demoSys : MemSys :=
  { cache := fun _ _ => { tag := 7, data := fun _ => 9, status := 7 }
    psram := fun a => a % 251 }

/-- Scenario S1 of the spec followed by two evictions of the line of address 0. -/
def demoOps : List Op :=
  [Op.write 0 [0xEF, 0xBE, 0xAD, 0xDE] 4, Op.read 0x2000 4, Op.write 0x4001 [7] 1,
   Op.read 0 4]

/-- The alternating writes of the write-back-before-refill property: addresses `0`,
`0x2000` and `0x4000` share set 0 under `cfg67` and have the tags 0, 1 and 2. -/
def alternatingOps : List Op :=
  [Op.write 0 [1] 1, Op.write 0x2000 [2] 1, Op.write 0x4000 [3] 1, Op.write 0 [4] 1,
   Op.write 0x2001 [5] 1, Op.write 0x4000 [6] 1, Op.write 1 [8] 1]

/-- Scenario S2 of the spec after its first write, `write(0x00000000, 0x11, size=1)`. -/
def s2First : MemSys := (cache_step cfg67 (cache_reset demoSys) (Op.write 0 [0x11] 1)).1

/-- Scenario S2 of the spec after its second write, `write(0x00002000, 0x22, size=1)`. -/
def s2Second : MemSys :=
  (cache_run cfg67 (cache_step cfg67 s2First (Op.write 0x2000 [0x22] 1)).1 []).1

end TinyRv32


namespace TinyRv32

/-! ## Little-endian words

The host is little-endian: a `uint32_t` in memory is its four bytes, least significant
first. -/

/-- The `n` bytes of the value `v` in memory order (least significant first). -/
def le_bytes (n v : Nat) : List Nat := (List.range n).map (fun k => (v >>> (8 * k)) % 256)

/-- The value of an unsigned integer whose bytes, in memory order, are `bs` (each byte
is a `uint8_t`, hence taken modulo 256). -/
def le_value : List Nat → Nat
  | [] => 0
  | b :: bs => b % 256 + 256 * le_value bs

/-- The bytes `ofs .. ofs+n-1` of a buffer. -/
def buf_bytes (buf : Nat → Nat) (ofs n : Nat) : List Nat :=
  (List.range n).map (fun i => buf (ofs + i))

/-- Store the bytes `bs` into a buffer from index `ofs` on. -/
def buf_store (buf : Nat → Nat) (ofs : Nat) (bs : List Nat) : Nat → Nat :=
  fun i => if ofs ≤ i ∧ i < ofs + bs.length then bs.getD (i - ofs) 0 else buf i

/-! ## The storage façade (Petit FatFs) -/

/-- Modelled from the spec: the file names of `vm_config.h` (absent) and the power-state
registry `"STAT"`; the names are taken to be distinct. -/
inductive FileName where
  | STAT
  | KERNEL_FILENAME
  | DTB_FILENAME
  | BLK_FILENAME
  | SNAPSHOT_FILENAME
deriving DecidableEq, Repr

/-- A request to the storage façade. -/
inductive StorageOp where
  | open (name : FileName)
  | lseek (ofs : Nat)
  | read (btr : Nat)
  | write (bytes : List Nat)
deriving DecidableEq, Repr

/-- Modelled from the spec: `pff.h` / `pff.c` are absent.  The façade exposes seek,
read, write and open-by-name on one implicit file handle; files are byte sequences.
`results` holds the `FRESULT` codes the device returns for the coming requests, one
per request (`FR_OK = 0` once the list is used up); `log` records the requests. -/
structure Storage where
  files : FileName → List Nat
  cur : FileName
  pos : Nat
  results : List Nat
  log : List StorageOp

/-- The result code of the next request, and the storage with the request logged. -/
def Storage.request (s : Storage) (op : StorageOp) : Nat × Storage :=
  (s.results.headD 0, { s with results := s.results.tail, log := s.log ++ [op] })

/-- Modelled from the spec: `pf_open(name)` selects the file and rewinds. -/
def pf_open (s : Storage) (name : FileName) : Nat × Storage :=
  let r := s.request (.open name)
  if r.1 = 0 then (0, { r.2 with cur := name, pos := 0 }) else r

/-- Modelled from the spec: `pf_lseek(ofs)` moves the read/write position. -/
def pf_lseek (s : Storage) (ofs : Nat) : Nat × Storage :=
  let r := s.request (.lseek ofs)
  if r.1 = 0 then (0, { r.2 with pos := ofs }) else r

/-- Modelled from the spec: `pf_read(buf, btr, &br)` returns the result code, the bytes
read (at most `btr`, fewer at the end of the file; `br` is their number). -/
def pf_read (s : Storage) (btr : Nat) : Nat × List Nat × Storage :=
  let r := s.request (.read btr)
  if r.1 = 0 then
    let bytes := ((r.2.files r.2.cur).drop r.2.pos).take btr
    (0, bytes, { r.2 with pos := r.2.pos + bytes.length })
  else (r.1, [], r.2)

/-- Modelled from the spec: `pf_write(buf, btw, &bw)` stores the bytes at the position
and advances it; a call with no bytes (`pf_write(0, 0, &bw)`) finalizes the write. -/
def pf_write (s : Storage) (bytes : List Nat) : Nat × Storage :=
  let r := s.request (.write bytes)
  if r.1 = 0 then
    let f := r.2.files r.2.cur
    let f1 := f.take r.2.pos ++ bytes ++ f.drop (r.2.pos + bytes.length)
    (0, { r.2 with
            files := fun n => if n = r.2.cur then f1 else r.2.files n
            pos := r.2.pos + bytes.length })
  else r

/-! ## The emulator state -/

/-- Modelled from the spec: `mini-rv32ima.h` is absent.  The interpreter state is a
fixed-size record (registers, PC, cycle counter split into low and high halves,
extra-flags, ...) that is serialized byte for byte; it is kept as its byte image, and
the offsets of the fields `emulator.c` touches are parameters. -/
structure CoreLayout where
  size : Nat
  regs : Nat
  pc : Nat
  cyclel : Nat
  extraflags : Nat
deriving DecidableEq, Repr

/-- The layout of the upstream `struct MiniRV32IMAState`: `regs[32]`, `pc`, `mstatus`,
`cyclel`, `cycleh`, ..., `extraflags`, 48 words in all. -/
def upstreamLayout : CoreLayout :=
  { size := 192, regs := 0, pc := 128, cyclel := 136, extraflags := 188 }

/-- Modelled from the spec: the constants of `vm_config.h` (absent) that `emulator.c`
uses, the initial values of its configuration globals, and
`MINIRV32_RAM_IMAGE_OFFSET` of the absent `mini-rv32ima.h` (`0x80000000`). -/
structure VmConfig where
  cache : Config
  EMULATOR_RAM_MB : Nat
  DTB_SIZE : Nat
  time_divisor : Nat
  fixed_update : Bool
  do_sleep : Bool
  single_step : Bool
  kernel_cmdline : List Nat
  layout : CoreLayout
  MINIRV32_RAM_IMAGE_OFFSET : Nat

/-- `uint32_t ram_amt = EMULATOR_RAM_MB * 1024 * 1024;` -/
def ram_amt (cfg : VmConfig) : Nat := (cfg.EMULATOR_RAM_MB * 1024 * 1024) % 4294967296

/-- `enum emulatorCode` -/
def EMU_POWEROFF : Nat := 0
/-- `enum emulatorCode` -/
def EMU_HIBERNATE : Nat := 1
/-- `enum emulatorCode` -/
def EMU_REBOOT : Nat := 2
/-- `enum emulatorCode` -/
def EMU_GET_SD : Nat := 3
/-- `enum emulatorCode` -/
def EMU_RUNNING : Nat := 4
/-- `enum emulatorCode` -/
def EMU_UNKNOWN : Nat := 5

/-- The globals of `emulator.c` and the devices behind them.  `blk_buf` is the 512-byte
buffer `uint32_t blk_buf[512 / 4]` as bytes; `core` is the byte image of
`struct MiniRV32IMAState core`; `micros` is the reading of `timing_micros()`;
`console_out` and `console_in` are the console; `csr_log` records the calls of the
platform hook `custom_csr_write`. -/
structure VM where
  mem : MemSys
  sto : Storage
  core : List Nat
  blk_buf : Nat → Nat
  blk_transfer_size : Nat
  blk_offs : Nat
  blk_ram_ptr : Nat
  blk_err : Nat
  hibernate_request : Nat
  micros : Nat
  console_out : List Nat
  console_in : List Nat
  csr_log : List (Nat × Nat)

/-- `unsigned long blk_size = 67108864;` -/
def blk_size : Nat := 67108864

/-! ## The memory bus adapter -/

/-- `MINIRV32_LOAD4(ofs)`: `cache_read(ofs, &val, 4)` and the value of `val`. -/
def MINIRV32_LOAD4 (c : Config) (m : MemSys) (ofs : Nat) : MemSys × Nat :=
  let r := cache_read c m (ofs % 4294967296) 4
  (r.1, le_value r.2)

/-- `MINIRV32_STORE4(ofs, val)`: `cache_write(ofs, &val, 4)`. -/
def MINIRV32_STORE4 (c : Config) (m : MemSys) (ofs val : Nat) : MemSys :=
  cache_write c m (ofs % 4294967296) (le_bytes 4 val) 4

/-- `MINIRV32_STORE1(ofs, val)`: `cache_write(ofs, &val, 1)`. -/
def MINIRV32_STORE1 (c : Config) (m : MemSys) (ofs val : Nat) : MemSys :=
  cache_write c m (ofs % 4294967296) (le_bytes 1 val) 1

/-! ## The control-register bridge -/

/-- The loop `for (i = 0; i < 512 / 4; i++) { blk_buf[i] = MINIRV32_LOAD4(blk_ram_ptr);
blk_ram_ptr += 4; }` run for the words `i .. i+n-1`; `unsigned long` has 32 bits on
the target. -/
def blk_fill (c : Config) : Nat → Nat → VM → VM
  | 0, _, vm => vm
  | n + 1, i, vm =>
    let r := MINIRV32_LOAD4 c vm.mem vm.blk_ram_ptr
    blk_fill c n (i + 1)
      { vm with mem := r.1
                blk_buf := buf_store vm.blk_buf (4 * i) (le_bytes 4 r.2)
                blk_ram_ptr := (vm.blk_ram_ptr + 4) % 4294967296 }

/-- The loop `for (i = 0; i < 512 / 4; i++) { MINIRV32_STORE4(blk_ram_ptr, blk_buf[i]);
blk_ram_ptr += 4; }` run for the words `i .. i+n-1`. -/
def blk_drain (c : Config) : Nat → Nat → VM → VM
  | 0, _, vm => vm
  | n + 1, i, vm =>
    let m1 := MINIRV32_STORE4 c vm.mem vm.blk_ram_ptr (le_value (buf_bytes vm.blk_buf (4 * i) 4))
    blk_drain c n (i + 1)
      { vm with mem := m1, blk_ram_ptr := (vm.blk_ram_ptr + 4) % 4294967296 }

/-- The loop `while (nblocks--)` of the `csrno == 0x154` branch. -/
def blk_transfer (c : Config) (value : Nat) : Nat → VM → VM
  | 0, vm => vm
  | nblocks + 1, vm =>
    if value ≠ 0 then
      let vm1 := blk_fill c 128 0 vm
      let r := pf_write vm1.sto (buf_bytes vm1.blk_buf 0 512)
      blk_transfer c value nblocks { vm1 with sto := r.2, blk_err := r.1 }
    else
      let r := pf_read vm.sto 512
      let vm1 := { vm with sto := r.2.2, blk_err := r.1
                           blk_buf := buf_store vm.blk_buf 0 r.2.1 }
      blk_transfer c value nblocks (blk_drain c 128 0 vm1)

/-- `HandleOtherCSRWrite(csrno, value)`. -/
def HandleOtherCSRWrite (cfg : VmConfig) (vm : VM) (csrno value : Nat) : VM :=
  let csrno := csrno % 65536
  let value := value % 4294967296
  if csrno = 0x139 then { vm with console_out := vm.console_out ++ [value % 256] }
  else if csrno = 0x151 then
    { vm with blk_ram_ptr :=
        (value + 4294967296 - cfg.MINIRV32_RAM_IMAGE_OFFSET % 4294967296) % 4294967296 }
  else if csrno = 0x152 then
    let r := pf_lseek vm.sto value
    { vm with blk_offs := value, blk_err := r.1, sto := r.2 }
  else if csrno = 0x153 then { vm with blk_transfer_size := value }
  else if csrno = 0x154 then
    let nblocks := (vm.blk_transfer_size >>> 9) % 4294967296
    blk_transfer cfg.cache value nblocks vm
  else if csrno = 0x170 then { vm with hibernate_request := 1 }
  else { vm with csr_log := vm.csr_log ++ [(csrno, value)] }

/-- `HandleOtherCSRRead(csrno)`; `custom_csr_read` is the platform hook (absent), a
parameter.  Returns the value and the state (a console read consumes a byte). -/
def HandleOtherCSRRead (custom_csr_read : Nat → Nat) (vm : VM) (csrno : Nat) : Nat × VM :=
  let csrno := csrno % 65536
  if csrno = 0x140 then
    match vm.console_in with
    | ch :: rest => (ch % 4294967296, { vm with console_in := rest })
    | [] => (4294967295, vm)
  else if csrno = 0x150 then (blk_size % 4294967296, vm)
  else if csrno = 0x155 then (vm.blk_err % 4294967296, vm)
  else (custom_csr_read csrno % 4294967296, vm)

end TinyRv32


namespace TinyRv32

/-- The four CSR writes of a block transfer: `0x151 = ptr`, `0x152 = offs`,
`0x153 = size`, `0x154 = go`. -/
def blk_request (cfg : VmConfig) (vm : VM) (ptr offs size go : Nat) : VM :=
  HandleOtherCSRWrite cfg
    (HandleOtherCSRWrite cfg
      (HandleOtherCSRWrite cfg (HandleOtherCSRWrite cfg vm 0x151 ptr) 0x152 offs) 0x153 size)
    0x154 go

/-- A configuration for the worked scenarios: the cache of scenario S2, 16 MB of RAM,
a 2 KB device tree. -/
def demoCfg : VmConfig :=
  { cache := cfg67
    EMULATOR_RAM_MB := 16
    DTB_SIZE := 2048
    time_divisor := 1
    fixed_update := false
    do_sleep := true
    single_step := false
    kernel_cmdline := [0x63, 0x6f, 0x6e, 0x73, 0x6f, 0x6c, 0x65, 0x3d, 0x68, 0x76, 0x63, 0x30]
    layout := upstreamLayout
    MINIRV32_RAM_IMAGE_OFFSET := 0x80000000 }

/-- An empty storage device on which every request succeeds. -/
def demoStorage : Storage :=
  { files := fun _ => [], cur := FileName.BLK_FILENAME, pos := 0, results := [], log := [] }

/-- A machine right after `cache_reset`, with the backing store of `demoSys`. -/
def demoVM : VM :=
  { mem := cache_reset demoSys
    sto := demoStorage
    core := List.replicate 192 0
    blk_buf := fun _ => 0
    blk_transfer_size := 0
    blk_offs := 0
    blk_ram_ptr := 0
    blk_err := 0
    hibernate_request := 0
    micros := 0
    console_out := []
    console_in := []
    csr_log := [] }

/-- A machine with a latched transfer of two sectors whose storage device fails the
first coming request with code 1 (`FR_DISK_ERR`) and accepts the second. -/
def failVM : VM :=
  { demoVM with
    blk_transfer_size := 1024
    sto := { demoStorage with results := [1, 0] } }

end TinyRv32


namespace TinyRv32

/-! ## The VM lifecycle (`start_vm`)

The host's diagnostic messages (`console_puts`), the progress spinner and the initial
busy-wait on the power button do not change the state the claims are about and are
left out.  `console_panic` halts the host: the outcome `panic`. -/

/-- How `start_vm` ends.  `noReturn`: control reaches the closing brace of the function
without a `return` statement.  `running`: the fuel of the model ran out while the
execution loop was still running. -/
inductive Outcome where
  | returned (code : Nat)
  | noReturn
  | panic
  | running
deriving DecidableEq, Repr

/-- Read an `n`-byte unsigned field at offset `ofs` of the interpreter state. -/
def core_load (core : List Nat) (ofs n : Nat) : Nat := le_value ((core.drop ofs).take n)

/-- Write an `n`-byte unsigned field at offset `ofs` of the interpreter state. -/
def core_store (core : List Nat) (ofs n v : Nat) : List Nat :=
  core.take ofs ++ le_bytes n v ++ core.drop (ofs + n)

/-- `vm_get_powerstate()`. -/
def vm_get_powerstate (s : Storage) : Nat × Storage :=
  let r := pf_open s FileName.STAT
  if r.1 ≠ 0 then (EMU_UNKNOWN, r.2)
  else
    let rd := pf_read r.2 1
    if rd.1 ≠ 0 ∨ rd.2.1.length = 0 then (EMU_UNKNOWN, rd.2.2)
    else (rd.2.1.headD 0 % 256, rd.2.2)

/-- `vm_save_powerstate(state)`; returns the result code. -/
def vm_save_powerstate (s : Storage) (state : Nat) : Nat × Storage :=
  let r := pf_open s FileName.STAT
  if r.1 ≠ 0 then (r.1 % 256, r.2)
  else
    let s1 := (pf_lseek r.2 0).2
    let w := pf_write s1 [state % 256]
    if w.1 ≠ 0 then (w.1 % 256, w.2)
    else
      let w2 := pf_write w.2 []
      (w2.1 % 256, w2.2)

/-- The loop of `psram_load_file(addr)`, with `n` chunks left: read up to 512 bytes of
the open file into `blk_buf` and copy them to the PSRAM.  `none`: `console_panic`. -/
def psram_load_loop : Nat → VM → Nat → Option VM
  | 0, vm, _ => some vm
  | n + 1, vm, addr =>
    let r := pf_read vm.sto 512
    let br := r.2.1.length
    let vm1 := { vm with sto := r.2.2, blk_buf := buf_store vm.blk_buf 0 r.2.1 }
    if r.1 ≠ 0 then none
    else if br = 0 then some vm1
    else
      let p := (psram_access vm1.mem.psram addr br true vm1.blk_buf).1
      psram_load_loop n { vm1 with mem := { vm1.mem with psram := p } }
        ((addr + br) % 4294967296)

/-- `psram_load_file(addr)`: `chunks = ram_amt / sizeof(blk_buf)`. -/
def psram_load_file (cfg : VmConfig) (vm : VM) (addr : Nat) : Option VM :=
  psram_load_loop (ram_amt cfg / 512) vm addr

/-- The value stored over the sentinel: `(validram >> 24) | (((validram >> 16) & 0xff)
<< 8) | (((validram >> 8) & 0xff) << 16) | ((validram & 0xff) << 24)` on `uint32_t`. -/
def dtb_be (validram : Nat) : Nat :=
  ((validram >>> 24) ||| (((validram >>> 16) &&& 0xff) <<< 8) |||
    (((validram >>> 8) &&& 0xff) <<< 16) ||| ((validram &&& 0xff) <<< 24)) % 4294967296

/-- The loop `for (int i = dtb_ptr; i < ram_amt; i += 4)` that patches the RAM size
sentinel.  The fuel counts the iterations left; `start_vm` passes the number of words
from `dtb_ptr` to `ram_amt`, which the loop cannot exceed. -/
def dtb_patch_ram (c : Config) (ram_amt dtb_ptr : Nat) : Nat → MemSys → Nat → MemSys
  | 0, m, _ => m
  | fuel + 1, m, i =>
    if i < ram_amt then
      let r := MINIRV32_LOAD4 c m i
      if r.2 = 0x00c0ff03 then MINIRV32_STORE4 c r.1 i (dtb_be dtb_ptr)
      else dtb_patch_ram c ram_amt dtb_ptr fuel r.1 ((i + 4) % 4294967296)
    else m

/-- The loop `while (MINIRV32_LOAD4(++ptr) != 0x64636261 && ptr < ram_amt);`.  Returns
the memory and the final `ptr`. -/
def cmdline_scan (c : Config) (ram_amt : Nat) : Nat → MemSys → Nat → MemSys × Nat
  | 0, m, ptr => (m, ptr)
  | fuel + 1, m, ptr =>
    let ptr1 := (ptr + 1) % 4294967296
    let r := MINIRV32_LOAD4 c m ptr1
    if r.2 ≠ 0x64636261 ∧ ptr1 < ram_amt then cmdline_scan c ram_amt fuel r.1 ptr1
    else (r.1, ptr1)

/-- The loop `do MINIRV32_STORE1(ptr++, *(c++)); while (*(c - 1));` over the characters
of the command line and its terminating NUL. -/
def cmdline_store (c : Config) : List Nat → MemSys → Nat → MemSys
  | [], m, _ => m
  | ch :: rest, m, ptr =>
    cmdline_store c rest (MINIRV32_STORE1 c m ptr ch) ((ptr + 1) % 4294967296)

/-- The cold-boot branch `if (!LOAD_SNAPSHOT) { ... }` of `start_vm`. -/
def cold_boot (cfg : VmConfig) (vm : VM) : Option VM :=
  let dtb_ptr := (ram_amt cfg + 4294967296 - cfg.DTB_SIZE % 4294967296) % 4294967296
  let o := pf_open vm.sto FileName.DTB_FILENAME
  if o.1 ≠ 0 then none
  else
    match psram_load_file cfg { vm with sto := o.2 } dtb_ptr with
    | none => none
    | some vm1 =>
      let m1 := dtb_patch_ram cfg.cache (ram_amt cfg) dtb_ptr
        ((ram_amt cfg - dtb_ptr + 3) / 4) vm1.mem dtb_ptr
      let sc := cmdline_scan cfg.cache (ram_amt cfg) (ram_amt cfg - dtb_ptr + 1) m1 dtb_ptr
      let m2 := cmdline_store cfg.cache
        (cfg.kernel_cmdline.takeWhile (fun ch => ch ≠ 0) ++ [0]) sc.1 sc.2
      let core1 := core_store vm1.core (cfg.layout.regs + 4 * 10) 4 0
      let core2 := core_store core1 (cfg.layout.regs + 4 * 11) 4
        (if dtb_ptr ≠ 0 then (dtb_ptr + cfg.MINIRV32_RAM_IMAGE_OFFSET) % 4294967296 else 0)
      let core3 := core_store core2 cfg.layout.extraflags 4
        (core_load core2 cfg.layout.extraflags 4 ||| 3)
      let core4 := core_store core3 cfg.layout.pc 4 (cfg.MINIRV32_RAM_IMAGE_OFFSET % 4294967296)
      some { vm1 with mem := m2, core := core4 }

/-- The part of `start_vm` from `cache_reset()` to the `pf_open(BLK_FILENAME)` before
the execution loop.  `none`: `console_panic`. -/
def start_vm_boot (cfg : VmConfig) (vm : VM) (prev_power_state : Nat) : Option VM :=
  let vm0 := { vm with mem := cache_reset vm.mem }
  let g := if prev_power_state = EMU_GET_SD then vm_get_powerstate vm0.sto
           else (prev_power_state, vm0.sto)
  let prev := g.1
  let vm1 := { vm0 with sto := g.2, hibernate_request := 0 }
  let LOAD_SNAPSHOT := decide (prev = EMU_HIBERNATE)
  let o := pf_open vm1.sto
    (if LOAD_SNAPSHOT then FileName.SNAPSHOT_FILENAME else FileName.KERNEL_FILENAME)
  if o.1 ≠ 0 then none
  else
    match psram_load_file cfg { vm1 with sto := o.2 } 0 with
    | none => none
    | some vm2 =>
      let loaded : Option VM :=
        if LOAD_SNAPSHOT then
          let rd := pf_read vm2.sto cfg.layout.size
          if rd.2.1.length ≠ cfg.layout.size then none
          else if rd.1 ≠ 0 then none
          else some { vm2 with sto := rd.2.2, core := rd.2.1 }
        else cold_boot cfg vm2
      match loaded with
      | none => none
      | some vm3 =>
        let sv := vm_save_powerstate vm3.sto EMU_RUNNING
        let ob := pf_open sv.2 FileName.BLK_FILENAME
        if ob.1 ≠ 0 then none else some { vm3 with sto := ob.2 }

/-- The loop of the hibernate path that streams the PSRAM to the snapshot file, with
`n` chunks left.  `none`: `console_panic`. -/
def snapshot_loop : Nat → VM → Nat → Option VM
  | 0, vm, _ => some vm
  | n + 1, vm, addr =>
    let buf := (psram_access vm.mem.psram addr 512 false vm.blk_buf).2
    let w := pf_write vm.sto (buf_bytes buf 0 512)
    if w.1 ≠ 0 then none
    else snapshot_loop n { vm with blk_buf := buf, sto := w.2 } ((addr + 512) % 4294967296)

/-- The branch `if (hibernate_request) { ... return EMU_HIBERNATE; }` of the loop. -/
def hibernate (cfg : VmConfig) (vm : VM) : Outcome × VM :=
  let sv := vm_save_powerstate vm.sto EMU_HIBERNATE
  let vm1 := { vm with sto := sv.2, mem := cache_flush cfg.cache vm.mem }
  let o := pf_open vm1.sto FileName.SNAPSHOT_FILENAME
  if o.1 ≠ 0 then (Outcome.panic, { vm1 with sto := o.2 })
  else
    let s1 := (pf_lseek o.2 0).2
    match snapshot_loop (ram_amt cfg / 512) { vm1 with sto := s1 } 0 with
    | none => (Outcome.panic, vm1)
    | some vm2 =>
      let w := pf_write vm2.sto vm2.core
      if w.1 ≠ 0 then (Outcome.panic, { vm2 with sto := w.2 })
      else
        let w2 := pf_write w.2 []
        if w2.1 ≠ 0 then (Outcome.panic, { vm2 with sto := w2.2 })
        else (Outcome.returned EMU_HIBERNATE, { vm2 with sto := w2.2 })

/-- `int instrs_per_flip = single_step ? 1 : 4096;` -/
def instrs_per_flip (cfg : VmConfig) : Nat := if cfg.single_step then 1 else 4096

/-- The loop condition `rt < instct + 1 || instct < 0`, with `rt` a `uint64_t` and
`instct` a `long long` (the sum is converted to `uint64_t` for the comparison). -/
def loop_cond (rt : Nat) (instct : Int) : Prop :=
  (rt : Int) < (instct + 1) % 18446744073709551616 ∨ instct < 0

instance (rt : Nat) (instct : Int) : Decidable (loop_cond rt instct) := by
  unfold loop_cond; infer_instance

/-- The `uint32_t elapsedUs` computed at the head of the loop body: `*this_ccount /
time_divisor - lastTime` in fixed-update mode, `timing_micros() / time_divisor -
lastTime` otherwise. -/
def loop_elapsed (cfg : VmConfig) (vm : VM) (lastTime : Nat) : Nat :=
  let now := if cfg.fixed_update then core_load vm.core cfg.layout.cyclel 8 / cfg.time_divisor
             else vm.micros / cfg.time_divisor
  (now % 18446744073709551616 + 18446744073709551616 - lastTime) % 18446744073709551616
    % 4294967296

/-- `case 1:` of the switch: `if (do_sleep) timing_delay_ms(1); *this_ccount +=
instrs_per_flip;` where `this_ccount` is `(uint64_t *)&core.cyclel`. -/
def wfi_case (cfg : VmConfig) (vm : VM) : VM :=
  { vm with
    micros := if cfg.do_sleep then vm.micros + 1000 else vm.micros
    core := core_store vm.core cfg.layout.cyclel 8
      ((core_load vm.core cfg.layout.cyclel 8 + instrs_per_flip cfg)
        % 18446744073709551616) }

/-- The execution loop `for (rt = 0; rt < instct + 1 || instct < 0; rt += instrs_per_flip)`
of `start_vm`.  `step` is the interpreter `MiniRV32IMAStep` (absent, a parameter): from
the state, `elapsedUs` and the batch size it gives the state after the batch and the
return code.  One unit of fuel is one batch. -/
def vm_loop (cfg : VmConfig) (step : VM → Nat → Nat → VM × Int) :
    Nat → VM → Nat → Int → Nat → Outcome × VM
  | 0, vm, _, _, _ => (Outcome.running, vm)
  | fuel + 1, vm, rt, instct, lastTime =>
    if ¬ loop_cond rt instct then (Outcome.noReturn, vm)
    else
      let elapsedUs := loop_elapsed cfg vm lastTime
      let lastTime1 := (lastTime + elapsedUs) % 18446744073709551616
      let r := step vm elapsedUs (instrs_per_flip cfg)
      let vm1 := r.1
      let ret := r.2
      let next (v : VM) (ic : Int) : Outcome × VM :=
        if v.hibernate_request ≠ 0 then hibernate cfg v
        else vm_loop cfg step fuel v ((rt + instrs_per_flip cfg) % 18446744073709551616) ic
          lastTime1
      if ret = 0 then next vm1 instct
      else if ret = 1 then next (wfi_case cfg vm1) instct
      else if ret = 3 then next vm1 0
      else if ret = 0x7777 then
        (Outcome.returned EMU_REBOOT,
          { vm1 with sto := (vm_save_powerstate vm1.sto EMU_REBOOT).2 })
      else if ret = 0x5555 then
        (Outcome.returned EMU_POWEROFF,
          { vm1 with sto := (vm_save_powerstate vm1.sto EMU_POWEROFF).2 })
      else
        (Outcome.returned EMU_UNKNOWN,
          { vm1 with sto := (vm_save_powerstate vm1.sto EMU_UNKNOWN).2 })

/-- `start_vm(prev_power_state)`, with fuel for the execution loop. -/
def start_vm (cfg : VmConfig) (step : VM → Nat → Nat → VM × Int) (fuel : Nat) (vm : VM)
    (prev_power_state : Nat) : Outcome × VM :=
  match start_vm_boot cfg vm prev_power_state with
  | none => (Outcome.panic, vm)
  | some vm1 =>
    let lastTime := if cfg.fixed_update then 0
                    else (vm1.micros / cfg.time_divisor) % 18446744073709551616
    vm_loop cfg step fuel vm1 0 (-1) lastTime

/-- A freshly reset cache over a backing store that holds the sentinel word
`0x00C0FF03` (bytes `03 FF C0 00`) at `0xFFF808`, the third word of the device-tree
region of `demoCfg`, and zeros elsewhere. -/
def dtbSys : MemSys :=
  cache_reset
    { demoSys with
      psram := fun a => if a = 0xFFF808 then 0x03 else if a = 0xFFF809 then 0xFF
                        else if a = 0xFFF80A then 0xC0 else 0 }

/-- An interpreter whose every batch ends with the fatal-fault code 3 and changes
nothing. -/
def faultStep : VM → Nat → Nat → VM × Int := fun vm _ _ => (vm, 3)

/-- An interpreter whose every batch ends normally (code 0) after the guest has written
CSR `0x170`, the hibernate request. -/
def hibernateStep (cfg : VmConfig) : VM → Nat → Nat → VM × Int :=
  fun vm _ _ => (HandleOtherCSRWrite cfg vm 0x170 0, 0)

/-- An interpreter whose every batch ends with the reboot code `0x7777`. -/
def rebootStep : VM → Nat → Nat → VM × Int := fun vm _ _ => (vm, 0x7777)

/-- The machine that boots after the hibernation of `demoVM`: everything is as in
`demoVM` except that the storage device holds the files that hibernation left. -/
def resumedVM (cfg : VmConfig) : VM :=
  { demoVM with sto := { demoStorage with files := (hibernate cfg demoVM).2.sto.files } }

end TinyRv32


namespace TinyRv32

/-! ## The array bound of the line data -/

/-- The indexes of `line->data` that the copy loop of `cache_read` and of `cache_write`
touches: `while (size--) ... line->data[offset++] ...`, with `offset` a `uint8_t`. -/
def copy_indexes : Nat → Nat → List Nat
  | 0, _ => []
  | size + 1, offset => offset :: copy_indexes size ((offset + 1) % 256)

/-- The indexes of `line->data` that a call touches (`offset` and `size` are the
`uint8_t` locals of `cache_read` / `cache_write`). -/
def Op.indexes (c : Config) : Op → List Nat
  | .read addr size => copy_indexes (size % 256) (OFFSET c addr % 256)
  | .write addr _ size => copy_indexes (size % 256) (OFFSET c addr % 256)
  | .flush => []

/-- The call does not cross a line boundary: `offset + size <= CACHE_LINE_SIZE`, where
`offset` is the address modulo `CACHE_LINE_SIZE`.  Beyond it the copy loop leaves the
array `data[CACHE_LINE_SIZE]`. -/
def Op.inLine (c : Config) : Op → Prop
  | .read addr size => OFFSET c addr + size ≤ CACHE_LINE_SIZE c
  | .write addr _ size => OFFSET c addr + size ≤ CACHE_LINE_SIZE c
  | .flush => True

instance (c : Config) (op : Op) : Decidable (op.inLine c) := by
  cases op <;> unfold Op.inLine <;> infer_instance

/-- The address of the call is below `n` (a flush has no address). -/
def Op.below (n : Nat) : Op → Prop
  | .read addr _ => addr < n
  | .write addr _ _ => addr < n
  | .flush => True

instance (n : Nat) (op : Op) : Decidable (op.below n) := by
  cases op <;> unfold Op.below <;> infer_instance

/-- The states that calls which stay inside their line produce from `cache_reset` over
some backing store. -/
def ReachableInLine (c : Config) (m : MemSys) : Prop :=
  ∃ (m0 : MemSys) (ops : List Op), (∀ op ∈ ops, op.inLine c) ∧
    m = (cache_run c (cache_reset m0) ops).1

/-- The states that calls which stay inside their line, with addresses below `2^24`,
produce from `cache_reset` over some backing store. -/
def ReachableBelow (c : Config) (m : MemSys) : Prop :=
  ∃ (m0 : MemSys) (ops : List Op), (∀ op ∈ ops, op.inLine c ∧ op.below (2 ^ ADDR_BITS)) ∧
    m = (cache_run c (cache_reset m0) ops).1

/-! ## Flags and tags of the reachable states -/

/-- The facts about the status flags and tags of a cache state that every call keeps. -/
structure Shape (m : MemSys) : Prop where
  dirty_valid : ∀ idx w, IS_DIRTY (m.cache idx w) = true → IS_VALID (m.cache idx w) = true
  nodup : ∀ idx, ¬ (IS_VALID (m.cache idx 0) = true ∧ IS_VALID (m.cache idx 1) = true ∧
    (m.cache idx 0).tag = (m.cache idx 1).tag)
  one_lru : ∀ idx, ¬ (IS_LRU (m.cache idx 0) = true ∧ IS_LRU (m.cache idx 1) = true)

/-- Every valid line lies in a set of the array and holds the tag of an address below
`2^24`. -/
def Bounded (c : Config) (m : MemSys) : Prop :=
  ∀ idx w, IS_VALID (m.cache idx w) = true →
    idx < 2 ^ c.INDEX_BITS ∧ (m.cache idx w).tag < 2 ^ (ADDR_BITS - c.OFFSET_BITS - c.INDEX_BITS)

/-- Specification side of the lookup-order statement: the lookup and miss handling of
`cache_read` / `cache_write` with the two hit tests in the other order
(`cache[index][1]` is tested before `cache[index][0]`). -/
def locate_way1_first (c : Config) (m : MemSys) (addr : Nat) : MemSys × Nat :=
  let index := INDEX c addr % 65536
  let tag := TAG c addr % 65536
  let way1 := m.cache index 0
  let way2 := m.cache index 1
  if tag == way2.tag && IS_VALID way2 then
    (m.setWays index (SET_LRU way1) (CLEAR_LRU way2) m.psram, 1)
  else if tag == way1.tag && IS_VALID way1 then
    (m.setWays index (CLEAR_LRU way1) (SET_LRU way2) m.psram, 0)
  else if IS_LRU way1 then
    let r := refill c m.psram (CLEAR_LRU way1) index tag addr
    (m.setWays index r.1 (SET_LRU way2) r.2, 0)
  else
    let r := refill c m.psram (CLEAR_LRU way2) index tag addr
    (m.setWays index (SET_LRU way1) r.1 r.2, 1)

/-! ## The write commands of `cache_flush` -/

/-- A call `psram_write(ofs, p, sz)`: the address and the `sz` bytes at `p`. -/
structure PsramWrite where
  ofs : Nat
  bytes : List Nat
deriving DecidableEq, Repr

/-- The calls of `psram_write` that `flush_line(line, index)` issues. -/
def flush_line_writes (c : Config) (line : Cacheline) (index : Nat) : List PsramWrite :=
  if IS_DIRTY line then
    [⟨flush_base c line (index % 65536), buf_bytes line.data 0 (CACHE_LINE_SIZE c)⟩]
  else []

/-- The calls of `psram_write` that the loop of `cache_flush` issues for the sets
`0 .. n-1`, in order. -/
def cache_flush_writes_upto (c : Config) (m : MemSys) : Nat → List PsramWrite
  | 0 => []
  | index + 1 =>
    cache_flush_writes_upto c m index ++ flush_line_writes c (m.cache index 0) index ++
      flush_line_writes c (m.cache index 1) index

/-- The calls of `psram_write` that `cache_flush` issues, in order. -/
def cache_flush_writes (c : Config) (m : MemSys) : List PsramWrite :=
  cache_flush_writes_upto c m (CACHE_SET_SIZE c)

/-- The PSRAM after a list of `psram_write` calls. -/
def psram_replay (psram : Mem) : List PsramWrite → Mem
  | [] => psram
  | w :: ws =>
    psram_replay (psram_write psram w.ofs (fun i => w.bytes.getD i 0) w.bytes.length) ws

/-- Specification side of the flush statement: the write-back address of a line,
`(tag << (OFFSET_BITS + INDEX_BITS)) | (index << OFFSET_BITS)`. -/
def writeback_addr (c : Config) (tag index : Nat) : Nat :=
  (tag <<< (c.OFFSET_BITS + c.INDEX_BITS)) ||| (index <<< c.OFFSET_BITS)

/-- Specification side of the flush statement: one write of `CACHE_LINE_SIZE` bytes at
the write-back address for each line that is both valid and dirty, none for any other
line (sets in ascending order, way 0 before way 1). -/
def dirty_valid_writes (c : Config) (m : MemSys) : List PsramWrite :=
  (List.range (CACHE_SET_SIZE c)).flatMap fun idx =>
    [0, 1].flatMap fun w =>
      if IS_VALID (m.cache idx w) && IS_DIRTY (m.cache idx w) then
        [⟨writeback_addr c (m.cache idx w).tag idx,
          buf_bytes (m.cache idx w).data 0 (CACHE_LINE_SIZE c)⟩]
      else []

/-! ## The cache calls of the cold-boot DTB patching -/

/-- The calls of `cache_read` / `cache_write` that the loop of `dtb_patch_ram` issues,
in order (`MINIRV32_LOAD4(i)` is `cache_read(i, &val, 4)`, `MINIRV32_STORE4(i, dtbram)`
is `cache_write(i, &dtbram, 4)`). -/
def dtb_patch_ram_calls (c : Config) (ram_amt dtb_ptr : Nat) : Nat → MemSys → Nat → List Op
  | 0, _, _ => []
  | fuel + 1, m, i =>
    if i < ram_amt then
      let r := MINIRV32_LOAD4 c m i
      Op.read (i % 4294967296) 4 ::
        (if r.2 = 0x00c0ff03 then
          [Op.write (i % 4294967296) (le_bytes 4 (dtb_be dtb_ptr)) 4]
         else dtb_patch_ram_calls c ram_amt dtb_ptr fuel r.1 ((i + 4) % 4294967296))
    else []

/-- The calls of `cache_read` that the loop `while (MINIRV32_LOAD4(++ptr) != 0x64636261
&& ptr < ram_amt);` of `cmdline_scan` issues, in order. -/
def cmdline_scan_calls (c : Config) (ram_amt : Nat) : Nat → MemSys → Nat → List Op
  | 0, _, _ => []
  | fuel + 1, m, ptr =>
    let ptr1 := (ptr + 1) % 4294967296
    let r := MINIRV32_LOAD4 c m ptr1
    Op.read (ptr1 % 4294967296) 4 ::
      (if r.2 ≠ 0x64636261 ∧ ptr1 < ram_amt then cmdline_scan_calls c ram_amt fuel r.1 ptr1
       else [])

/-- The calls of `cache_write` that the loop of `cmdline_store` issues, in order
(`MINIRV32_STORE1(ptr++, *(c++))` is `cache_write(ptr, c, 1)`). -/
def cmdline_store_calls : List Nat → Nat → List Op
  | [], _ => []
  | ch :: rest, ptr =>
    Op.write (ptr % 4294967296) (le_bytes 1 ch) 1 ::
      cmdline_store_calls rest ((ptr + 1) % 4294967296)

/-- The cache calls of the DTB patching of `cold_boot` (the scan for the sentinel, the
scan for the placeholder, the stores of the command line), issued on the memory `m`
that `psram_load_file(dtb_ptr)` left. -/
def cold_boot_calls (cfg : VmConfig) (m : MemSys) : List Op :=
  let dtb_ptr := (ram_amt cfg + 4294967296 - cfg.DTB_SIZE % 4294967296) % 4294967296
  let m1 := dtb_patch_ram cfg.cache (ram_amt cfg) dtb_ptr
    ((ram_amt cfg - dtb_ptr + 3) / 4) m dtb_ptr
  let sc := cmdline_scan cfg.cache (ram_amt cfg) (ram_amt cfg - dtb_ptr + 1) m1 dtb_ptr
  dtb_patch_ram_calls cfg.cache (ram_amt cfg) dtb_ptr
      ((ram_amt cfg - dtb_ptr + 3) / 4) m dtb_ptr ++
    cmdline_scan_calls cfg.cache (ram_amt cfg) (ram_amt cfg - dtb_ptr + 1) m1 dtb_ptr ++
    cmdline_store_calls (cfg.kernel_cmdline.takeWhile (fun ch => ch ≠ 0) ++ [0]) sc.2

end TinyRv32


namespace TinyRv32

/-! ## Machines for the worked scenarios of the lifecycle -/

/-- A machine at the moment of a hibernation: the cache holds dirty lines (the state
after `alternatingOps`), the state record is not all zero, and the guest has latched a
block transfer of one sector (`0x151`: pointer 4096, `0x152`: offset 512, `0x153`:
size 512) without yet writing the go register `0x154`. -/
def latchVM : VM :=
  { demoVM with
    mem := (cache_run cfg67 (cache_reset demoSys) alternatingOps).1
    core := (List.range 192).map (fun i => (i + 1) % 256)
    blk_ram_ptr := 4096
    blk_offs := 512
    blk_transfer_size := 512 }

/-- The machine that starts after the hibernation of `latchVM` and a power cycle: the
globals of `emulator.c` have their initial values (`blk_transfer_size`, `blk_offs`,
`blk_ram_ptr` and `blk_err` are zero), the storage device holds the files that the
hibernation left. -/
def rebootedVM (cfg : VmConfig) : VM :=
  { demoVM with sto := { demoStorage with files := (hibernate cfg latchVM).2.sto.files } }

/-- A machine whose power-state registry holds RUNNING and whose storage device
rejects the coming request with code 1 (`FR_DISK_ERR`). -/
def rejectVM : VM :=
  { demoVM with
    sto := { demoStorage with
             files := fun n => if n = FileName.STAT then [EMU_RUNNING] else []
             results := [1] } }

end TinyRv32

namespace TinyRv32
theorem and_pow_ne_zero (x k : Nat) : (x &&& 2 ^ k != 0) = x.testBit k := by
  rw [Nat.and_two_pow]
  cases h : x.testBit k <;> simp

theorem IS_VALID_eq (l : Cacheline) : IS_VALID l = l.status.testBit 0 := by
  unfold IS_VALID; exact and_pow_ne_zero l.status 0

theorem IS_DIRTY_eq (l : Cacheline) : IS_DIRTY l = l.status.testBit 1 := by
  unfold IS_DIRTY; exact and_pow_ne_zero l.status 1

theorem IS_LRU_eq (l : Cacheline) : IS_LRU l = l.status.testBit 2 := by
  unfold IS_LRU; exact and_pow_ne_zero l.status 2

theorem tb_4 (i : Nat) : Nat.testBit 4 i = decide (i = 2) := by
  have : (4 : Nat) = 2 ^ 2 := rfl
  rw [this, Nat.testBit_two_pow]
  simp [eq_comm]

theorem tb_251_0 : Nat.testBit 251 0 = true := by decide
theorem tb_251_1 : Nat.testBit 251 1 = true := by decide
theorem tb_251_2 : Nat.testBit 251 2 = false := by decide
theorem tb_4_0 : Nat.testBit 4 0 = false := by decide
theorem tb_4_1 : Nat.testBit 4 1 = false := by decide
theorem tb_4_2 : Nat.testBit 4 2 = true := by decide
theorem tb_2_0 : Nat.testBit 2 0 = false := by decide
theorem tb_2_1 : Nat.testBit 2 1 = true := by decide
theorem tb_2_2 : Nat.testBit 2 2 = false := by decide

@[simp] theorem valid_SET_LRU (l : Cacheline) : IS_VALID (SET_LRU l) = IS_VALID l := by
  simp [IS_VALID_eq, SET_LRU, Nat.testBit_or, tb_4_0]
@[simp] theorem dirty_SET_LRU (l : Cacheline) : IS_DIRTY (SET_LRU l) = IS_DIRTY l := by
  simp [IS_DIRTY_eq, SET_LRU, Nat.testBit_or, tb_4_1]
@[simp] theorem lru_SET_LRU (l : Cacheline) : IS_LRU (SET_LRU l) = true := by
  simp [IS_LRU_eq, SET_LRU, Nat.testBit_or, tb_4_2]
@[simp] theorem valid_CLEAR_LRU (l : Cacheline) : IS_VALID (CLEAR_LRU l) = IS_VALID l := by
  simp [IS_VALID_eq, CLEAR_LRU, Nat.testBit_and, tb_251_0]
@[simp] theorem dirty_CLEAR_LRU (l : Cacheline) : IS_DIRTY (CLEAR_LRU l) = IS_DIRTY l := by
  simp [IS_DIRTY_eq, CLEAR_LRU, Nat.testBit_and, tb_251_1]
@[simp] theorem lru_CLEAR_LRU (l : Cacheline) : IS_LRU (CLEAR_LRU l) = false := by
  simp [IS_LRU_eq, CLEAR_LRU, Nat.testBit_and, tb_251_2]
@[simp] theorem valid_SET_DIRTY (l : Cacheline) : IS_VALID (SET_DIRTY l) = IS_VALID l := by
  simp [IS_VALID_eq, SET_DIRTY, Nat.testBit_or, tb_2_0]
@[simp] theorem dirty_SET_DIRTY (l : Cacheline) : IS_DIRTY (SET_DIRTY l) = true := by
  simp [IS_DIRTY_eq, SET_DIRTY, Nat.testBit_or, tb_2_1]
@[simp] theorem lru_SET_DIRTY (l : Cacheline) : IS_LRU (SET_DIRTY l) = IS_LRU l := by
  simp [IS_LRU_eq, SET_DIRTY, Nat.testBit_or, tb_2_2]
@[simp] theorem valid_SET_VALID (l : Cacheline) : IS_VALID (SET_VALID l) = true := by
  simp [IS_VALID, SET_VALID]
@[simp] theorem dirty_SET_VALID (l : Cacheline) : IS_DIRTY (SET_VALID l) = false := by
  simp [IS_DIRTY, SET_VALID]
@[simp] theorem lru_SET_VALID (l : Cacheline) : IS_LRU (SET_VALID l) = false := by
  simp [IS_LRU, SET_VALID]

theorem CACHE_LINE_SIZE_eq (c : Config) : CACHE_LINE_SIZE c = 2 ^ c.OFFSET_BITS := by
  simp [CACHE_LINE_SIZE, Nat.one_shiftLeft]
theorem CACHE_SET_SIZE_eq (c : Config) : CACHE_SET_SIZE c = 2 ^ c.INDEX_BITS := by
  simp [CACHE_SET_SIZE, Nat.one_shiftLeft]
theorem OFFSET_eq (c : Config) (a : Nat) : OFFSET c a = a % 2 ^ c.OFFSET_BITS := by
  simp [OFFSET, CACHE_LINE_SIZE_eq, Nat.and_pow_two_sub_one_eq_mod]
theorem INDEX_eq (c : Config) (a : Nat) :
    INDEX c a = a / 2 ^ c.OFFSET_BITS % 2 ^ c.INDEX_BITS := by
  simp [INDEX, CACHE_SET_SIZE_eq, Nat.and_pow_two_sub_one_eq_mod, Nat.shiftRight_eq_div_pow]
theorem TAG_eq (c : Config) (a : Nat) :
    TAG c a = a / 2 ^ (c.OFFSET_BITS + c.INDEX_BITS) := by
  simp [TAG, Nat.shiftRight_eq_div_pow]

theorem and_high_mask (a k : Nat) (hk : k ≤ 32) (ha : a < 2 ^ 32) :
    a &&& (4294967295 - (2 ^ k - 1) % 4294967296) = 2 ^ k * (a / 2 ^ k) := by
  have h1 : (2:Nat) ^ k ≤ 2 ^ 32 := Nat.pow_le_pow_right (by norm_num) hk
  have hpos : 0 < (2:Nat) ^ k := Nat.two_pow_pos _
  have h2 : (2 ^ k - 1) % 4294967296 = 2 ^ k - 1 := Nat.mod_eq_of_lt (by
    have : (2:Nat)^32 = 4294967296 := by norm_num
    omega)
  have h3 : 4294967295 - (2 ^ k - 1) = 2 ^ k * (2 ^ (32 - k) - 1) := by
    have : (2:Nat) ^ k * 2 ^ (32 - k) = 2 ^ 32 := by
      rw [← pow_add]; congr 1; omega
    rw [Nat.mul_sub, this]; norm_num; omega
  rw [h2, h3]
  apply Nat.eq_of_testBit_eq
  intro j
  rw [Nat.testBit_and, Nat.testBit_mul_pow_two, Nat.testBit_mul_pow_two,
    Nat.testBit_two_pow_sub_one, ← Nat.shiftRight_eq_div_pow, Nat.testBit_shiftRight]
  by_cases hj : k ≤ j
  · have e : k + (j - k) = j := by omega
    simp only [ge_iff_le, hj, decide_True, Bool.true_and, e]
    by_cases hj2 : j < 32
    · have : j - k < 32 - k := by omega
      simp [this]
    · have : a.testBit j = false := by
        apply Nat.testBit_lt_two_pow
        exact lt_of_lt_of_le ha (Nat.pow_le_pow_right (by norm_num) (by omega))
      simp [this]
  · simp [hj]

theorem BASE_eq (c : Config) (a : Nat) (hk : c.OFFSET_BITS ≤ 32) (ha : a < 2 ^ 32) :
    BASE c a = 2 ^ c.OFFSET_BITS * (a / 2 ^ c.OFFSET_BITS) := by
  unfold BASE
  rw [CACHE_LINE_SIZE_eq]
  exact and_high_mask a _ hk ha

theorem flush_base_eq (c : Config) (l : Cacheline) (idx : Nat)
    (hidx : idx < 2 ^ c.INDEX_BITS)
    (hb : 2 ^ (c.INDEX_BITS + c.OFFSET_BITS) * l.tag + idx * 2 ^ c.OFFSET_BITS < 2 ^ 32) :
    flush_base c l idx =
      2 ^ (c.INDEX_BITS + c.OFFSET_BITS) * l.tag + idx * 2 ^ c.OFFSET_BITS := by
  unfold flush_base
  have h32 : (2:Nat) ^ 32 = 4294967296 := by norm_num
  have hlt : idx * 2 ^ c.OFFSET_BITS < 2 ^ (c.INDEX_BITS + c.OFFSET_BITS) := by
    rw [pow_add]
    exact Nat.mul_lt_mul_of_pos_right hidx (Nat.two_pow_pos _)
  rw [Nat.shiftLeft_eq, Nat.shiftLeft_eq, Nat.mul_comm l.tag]
  have h1 : 2 ^ (c.INDEX_BITS + c.OFFSET_BITS) * l.tag % 4294967296
      = 2 ^ (c.INDEX_BITS + c.OFFSET_BITS) * l.tag := Nat.mod_eq_of_lt (by omega)
  rw [h1, Nat.or_comm, ← Nat.mul_add_lt_is_or hlt]
  exact Nat.mod_eq_of_lt (by omega)

theorem chip_addr_eq (x : Nat) :
    chip_addr ((x >>> 16) % 256) ((x >>> 8) % 256) (x % 256) = x % 16777216 := by
  unfold chip_addr
  rw [Nat.shiftRight_eq_div_pow, Nat.shiftRight_eq_div_pow]
  norm_num
  omega

theorem psram_write_eq (chip : Mem) (ofs : Nat) (p : Nat → Nat) (sz : Nat) :
    psram_write chip ofs p sz = chip_write chip (ofs % 16777216) p sz := by
  simp [psram_write, psram_access, chip_addr_eq]

theorem psram_read_eq (chip : Mem) (ofs : Nat) (p : Nat → Nat) (sz : Nat) :
    psram_read chip ofs p sz = chip_read chip (ofs % 16777216) p sz := by
  simp [psram_read, psram_access, chip_addr_eq]

end TinyRv32


namespace TinyRv32

/-! ## Address arithmetic -/

theorem div_line (c : Config) (a : Nat) :
    a / 2 ^ c.OFFSET_BITS = lineNo c (TAG c a) (INDEX c a) := by
  unfold lineNo
  rw [TAG_eq, INDEX_eq, pow_add, ← Nat.div_div_eq_div_mul]
  exact (Nat.div_add_mod _ _).symm

theorem INDEX_lt (c : Config) (a : Nat) : INDEX c a < 2 ^ c.INDEX_BITS := by
  rw [INDEX_eq]; exact Nat.mod_lt _ (Nat.two_pow_pos _)

theorem OFFSET_lt (c : Config) (a : Nat) : OFFSET c a < 2 ^ c.OFFSET_BITS := by
  rw [OFFSET_eq]; exact Nat.mod_lt _ (Nat.two_pow_pos _)

theorem pow_split (c : Config) (hv : c.Valid) :
    2 ^ (c.OFFSET_BITS + c.INDEX_BITS) * 2 ^ (ADDR_BITS - c.OFFSET_BITS - c.INDEX_BITS)
      = 2 ^ 24 := by
  obtain ⟨h1, h2, _⟩ := hv
  rw [← pow_add]; congr 1; unfold ADDR_BITS; omega

theorem TAG_lt (c : Config) (hv : c.Valid) (a : Nat) (ha : a < 2 ^ 24) :
    TAG c a < 2 ^ (ADDR_BITS - c.OFFSET_BITS - c.INDEX_BITS) := by
  rw [TAG_eq, Nat.div_lt_iff_lt_mul (Nat.two_pow_pos _), Nat.mul_comm, pow_split c hv]
  exact ha

theorem tag_bound_16 (c : Config) (hv : c.Valid) :
    2 ^ (ADDR_BITS - c.OFFSET_BITS - c.INDEX_BITS) ≤ 65536 := by
  have : (65536 : Nat) = 2 ^ 16 := by norm_num
  rw [this]
  apply Nat.pow_le_pow_right (by norm_num)
  obtain ⟨h1, h2, h3⟩ := hv
  unfold ADDR_BITS; omega

theorem idx_bound_16 (c : Config) (hv : c.Valid) : 2 ^ c.INDEX_BITS ≤ 65536 := by
  have : (65536 : Nat) = 2 ^ 16 := by norm_num
  rw [this]
  exact Nat.pow_le_pow_right (by norm_num) hv.2.1

theorem off_bound_8 (c : Config) (hv : c.Valid) : 2 ^ c.OFFSET_BITS ≤ 256 := by
  have : (256 : Nat) = 2 ^ 8 := by norm_num
  rw [this]
  exact Nat.pow_le_pow_right (by norm_num) hv.1

theorem lineNo_inj (c : Config) {t i t' i' : Nat} (hi : i < 2 ^ c.INDEX_BITS)
    (hi' : i' < 2 ^ c.INDEX_BITS) (h : lineNo c t i = lineNo c t' i') : t = t' ∧ i = i' := by
  unfold lineNo at h
  have h1 : (2 ^ c.INDEX_BITS * t + i) / 2 ^ c.INDEX_BITS = t := by
    rw [Nat.mul_add_div (Nat.two_pow_pos _), Nat.div_eq_of_lt hi]; rfl
  have h2 : (2 ^ c.INDEX_BITS * t' + i') / 2 ^ c.INDEX_BITS = t' := by
    rw [Nat.mul_add_div (Nat.two_pow_pos _), Nat.div_eq_of_lt hi']; rfl
  have ht : t = t' := by rw [← h1, ← h2, h]
  subst ht
  exact ⟨rfl, by omega⟩

theorem lineNo_lt (c : Config) (hv : c.Valid) {t i : Nat} (hi : i < 2 ^ c.INDEX_BITS)
    (ht : t < 2 ^ (ADDR_BITS - c.OFFSET_BITS - c.INDEX_BITS)) :
    2 ^ c.OFFSET_BITS * lineNo c t i + 2 ^ c.OFFSET_BITS ≤ 2 ^ 24 := by
  have hs := pow_split c hv
  rw [pow_add, Nat.mul_assoc] at hs
  unfold lineNo
  have h1 : 2 ^ c.INDEX_BITS * t + i + 1 ≤
      2 ^ c.INDEX_BITS * 2 ^ (ADDR_BITS - c.OFFSET_BITS - c.INDEX_BITS) := by
    have : 2 ^ c.INDEX_BITS * (t + 1) ≤
        2 ^ c.INDEX_BITS * 2 ^ (ADDR_BITS - c.OFFSET_BITS - c.INDEX_BITS) :=
      Nat.mul_le_mul_left _ ht
    rw [Nat.mul_add] at this
    omega
  calc 2 ^ c.OFFSET_BITS * (2 ^ c.INDEX_BITS * t + i) + 2 ^ c.OFFSET_BITS
      = 2 ^ c.OFFSET_BITS * (2 ^ c.INDEX_BITS * t + i + 1) := by ring
    _ ≤ 2 ^ c.OFFSET_BITS *
          (2 ^ c.INDEX_BITS * 2 ^ (ADDR_BITS - c.OFFSET_BITS - c.INDEX_BITS)) :=
        Nat.mul_le_mul_left _ h1
    _ = 2 ^ 24 := hs

theorem in_line_iff (L n x : Nat) (hL : 0 < L) :
    (L * n ≤ x ∧ x < L * n + L) ↔ x / L = n := by
  constructor
  · rintro ⟨h1, h2⟩
    apply Nat.div_eq_of_lt_le
    · rw [Nat.mul_comm]; exact h1
    · rw [Nat.succ_mul, Nat.mul_comm]; exact h2
  · rintro rfl
    have := Nat.div_add_mod x L
    have := Nat.mod_lt x hL
    constructor <;> omega

theorem chip_write_line (chip : Mem) (L n : Nat) (hL : 0 < L) (data : Nat → Nat) (x : Nat) :
    chip_write chip (L * n) data L x = if x / L = n then data (x % L) else chip x := by
  unfold chip_write
  by_cases h : x / L = n
  · have h' := (in_line_iff L n x hL).2 h
    rw [if_pos h', if_pos h]
    congr 1
    have := Nat.div_add_mod x L
    rw [h] at this
    omega
  · have h' : ¬ (L * n ≤ x ∧ x < L * n + L) := fun hh => h ((in_line_iff L n x hL).1 hh)
    rw [if_neg h', if_neg h]

theorem addr_split (L x : Nat) : L * (x / L) + x % L = x := Nat.div_add_mod x L

end TinyRv32


namespace TinyRv32

/-! ## The guest view of a consistent cache -/

theorem view_hit (c : Config) (m : MemSys) (x w : Nat) (hw : w < 2)
    (hnd : IS_VALID (m.cache (INDEX c x) 0) = true → IS_VALID (m.cache (INDEX c x) 1) = true →
      (m.cache (INDEX c x) 0).tag ≠ (m.cache (INDEX c x) 1).tag)
    (hval : IS_VALID (m.cache (INDEX c x) w) = true)
    (htag : (m.cache (INDEX c x) w).tag = TAG c x) :
    view c m x = (m.cache (INDEX c x) w).data (OFFSET c x) := by
  unfold view
  have hw' : w = 0 ∨ w = 1 := by omega
  rcases hw' with rfl | rfl
  · simp [hval, htag]
  · by_cases h0 : (TAG c x == (m.cache (INDEX c x) 0).tag && IS_VALID (m.cache (INDEX c x) 0)) = true
    · simp only [Bool.and_eq_true, beq_iff_eq] at h0
      exact absurd (h0.1.symm.trans htag.symm) (hnd h0.2 hval)
    · simp only [h0, hval, htag]
      simp

theorem view_miss (c : Config) (m : MemSys) (x : Nat)
    (h : ∀ w, w < 2 → ¬ (IS_VALID (m.cache (INDEX c x) w) = true ∧
      (m.cache (INDEX c x) w).tag = TAG c x)) :
    view c m x = m.psram x := by
  unfold view
  have h0 := h 0 (by norm_num)
  have h1 := h 1 (by norm_num)
  have e0 : (TAG c x == (m.cache (INDEX c x) 0).tag && IS_VALID (m.cache (INDEX c x) 0)) = false := by
    rw [Bool.eq_false_iff]; intro hh
    simp only [Bool.and_eq_true, beq_iff_eq] at hh
    exact h0 ⟨hh.2, hh.1.symm⟩
  have e1 : (TAG c x == (m.cache (INDEX c x) 1).tag && IS_VALID (m.cache (INDEX c x) 1)) = false := by
    rw [Bool.eq_false_iff]; intro hh
    simp only [Bool.and_eq_true, beq_iff_eq] at hh
    exact h1 ⟨hh.2, hh.1.symm⟩
  simp only [e0, e1]
  simp

/-- Two states whose lines agree in tag, data, valid and dirty bit (the LRU bits may
differ) and whose PSRAM is the same have the same invariant and the same view. -/
theorem inv_view_of_same (c : Config) (m m' : MemSys)
    (hp : m'.psram = m.psram)
    (ht : ∀ i w, (m'.cache i w).tag = (m.cache i w).tag)
    (hd : ∀ i w, (m'.cache i w).data = (m.cache i w).data)
    (hv : ∀ i w, IS_VALID (m'.cache i w) = IS_VALID (m.cache i w))
    (hdt : ∀ i w, IS_DIRTY (m'.cache i w) = IS_DIRTY (m.cache i w)) :
    (Inv c m → Inv c m') ∧ ∀ x, view c m' x = view c m x := by
  constructor
  · intro h
    constructor
    · intro idx w; rw [hdt, hv]; exact h.dirty_valid idx w
    · intro idx w; rw [hv, ht]; exact h.bound idx w
    · intro idx; rw [hv, hv, ht, ht]; exact h.nodup idx
    · intro idx w hw; rw [hv, hdt, hd, ht, hp]; exact h.clean idx w hw
  · intro x
    unfold view
    simp only [ht, hd, hv, hp]

end TinyRv32


namespace TinyRv32

theorem ways_ne_tag (c : Config) (m : MemSys) (hinv : Inv c m) (idx v w : Nat)
    (hv : v < 2) (hw : w < 2) (hne : w ≠ v)
    (h1 : IS_VALID (m.cache idx w) = true) (h2 : IS_VALID (m.cache idx v) = true) :
    (m.cache idx w).tag ≠ (m.cache idx v).tag := by
  have hv' : v = 0 ∨ v = 1 := by omega
  have hw' : w = 0 ∨ w = 1 := by omega
  rcases hv' with rfl | rfl <;> rcases hw' with rfl | rfl
  · exact absurd rfl hne
  · exact fun h => hinv.nodup idx h2 h1 h.symm
  · exact hinv.nodup idx h1 h2
  · exact absurd rfl hne

/-- Replacing way `v` of set `idx` by a freshly read line for tag `t`, after writing the
old line back when it is dirty, keeps the invariant and the guest view. -/
theorem inv_view_of_refill (c : Config) (m m' : MemSys) (idx v t : Nat)
    (hinv : Inv c m) (hidx : idx < 2 ^ c.INDEX_BITS) (hv : v < 2)
    (ht : t < 2 ^ (ADDR_BITS - c.OFFSET_BITS - c.INDEX_BITS))
    (hmiss : ∀ w, w < 2 → ¬ (IS_VALID (m.cache idx w) = true ∧ (m.cache idx w).tag = t))
    (h1t : ∀ i w, ¬ (i = idx ∧ w = v) → (m'.cache i w).tag = (m.cache i w).tag)
    (h1d : ∀ i w, ¬ (i = idx ∧ w = v) → (m'.cache i w).data = (m.cache i w).data)
    (h1v : ∀ i w, ¬ (i = idx ∧ w = v) → IS_VALID (m'.cache i w) = IS_VALID (m.cache i w))
    (h1dt : ∀ i w, ¬ (i = idx ∧ w = v) → IS_DIRTY (m'.cache i w) = IS_DIRTY (m.cache i w))
    (h2v : IS_VALID (m'.cache idx v) = true) (h2d : IS_DIRTY (m'.cache idx v) = false)
    (h2t : (m'.cache idx v).tag = t)
    (h2data : ∀ j, j < 2 ^ c.OFFSET_BITS →
      (m'.cache idx v).data j = m'.psram (2 ^ c.OFFSET_BITS * lineNo c t idx + j))
    (h3 : ∀ x, m'.psram x =
      if IS_DIRTY (m.cache idx v) = true ∧
          x / 2 ^ c.OFFSET_BITS = lineNo c (m.cache idx v).tag idx
      then (m.cache idx v).data (x % 2 ^ c.OFFSET_BITS) else m.psram x) :
    Inv c m' ∧ ∀ x, view c m' x = view c m x := by
  have hL : 0 < 2 ^ c.OFFSET_BITS := Nat.two_pow_pos _
  -- the victim, when dirty, is valid and holds another tag
  have hold : IS_DIRTY (m.cache idx v) = true →
      IS_VALID (m.cache idx v) = true ∧ (m.cache idx v).tag ≠ t := by
    intro hd
    have hval := hinv.dirty_valid idx v hd
    exact ⟨hval, fun h => hmiss v hv ⟨hval, h⟩⟩
  -- PSRAM bytes outside the written-back line are untouched
  have hps : ∀ x, ¬ (IS_DIRTY (m.cache idx v) = true ∧
      x / 2 ^ c.OFFSET_BITS = lineNo c (m.cache idx v).tag idx) → m'.psram x = m.psram x := by
    intro x hx; rw [h3, if_neg hx]
  -- PSRAM bytes of any other valid line are untouched
  have hother : ∀ i w, w < 2 → ¬ (i = idx ∧ w = v) → IS_VALID (m.cache i w) = true →
      ∀ j, j < 2 ^ c.OFFSET_BITS →
        m'.psram (2 ^ c.OFFSET_BITS * lineNo c (m.cache i w).tag i + j) =
          m.psram (2 ^ c.OFFSET_BITS * lineNo c (m.cache i w).tag i + j) := by
    intro i w hw hne hval j hj
    apply hps
    rintro ⟨hd, hx⟩
    have hdiv : (2 ^ c.OFFSET_BITS * lineNo c (m.cache i w).tag i + j) / 2 ^ c.OFFSET_BITS
        = lineNo c (m.cache i w).tag i := by
      rw [Nat.mul_add_div hL, Nat.div_eq_of_lt hj]; rfl
    rw [hdiv] at hx
    obtain ⟨e1, e2⟩ := lineNo_inj c (hinv.bound i w hval).1 hidx hx
    subst e2
    have hwv : w ≠ v := fun h => hne ⟨rfl, h⟩
    exact ways_ne_tag c m hinv i v w hv hw hwv hval (hold hd).1 e1
  have hinv' : Inv c m' := by
    constructor
    · intro i w hd
      by_cases h : i = idx ∧ w = v
      · obtain ⟨rfl, rfl⟩ := h; exact h2v
      · rw [h1v i w h]; rw [h1dt i w h] at hd; exact hinv.dirty_valid i w hd
    · intro i w hval
      by_cases h : i = idx ∧ w = v
      · obtain ⟨rfl, rfl⟩ := h; rw [h2t]; exact ⟨hidx, ht⟩
      · rw [h1t i w h]; rw [h1v i w h] at hval; exact hinv.bound i w hval
    · intro i hv0 hv1
      by_cases hi : i = idx
      · subst hi
        have hv' : v = 0 ∨ v = 1 := by omega
        rcases hv' with rfl | rfl
        · have n1 : ¬ (i = i ∧ 1 = 0) := by simp
          rw [h2t, h1t i 1 n1]
          rw [h1v i 1 n1] at hv1
          exact fun h => hmiss 1 (by norm_num) ⟨hv1, h.symm⟩
        · have n0 : ¬ (i = i ∧ 0 = 1) := by simp
          rw [h2t, h1t i 0 n0]
          rw [h1v i 0 n0] at hv0
          exact fun h => hmiss 0 (by norm_num) ⟨hv0, h⟩
      · have n0 : ¬ (i = idx ∧ 0 = v) := fun h => hi h.1
        have n1 : ¬ (i = idx ∧ 1 = v) := fun h => hi h.1
        rw [h1t i 0 n0, h1t i 1 n1]
        rw [h1v i 0 n0] at hv0; rw [h1v i 1 n1] at hv1
        exact hinv.nodup i hv0 hv1
    · intro i w hw hval hnd j hj
      by_cases h : i = idx ∧ w = v
      · obtain ⟨rfl, rfl⟩ := h; rw [h2t]; exact h2data j hj
      · rw [h1v i w h] at hval; rw [h1dt i w h] at hnd
        rw [h1d i w h, h1t i w h, hother i w hw h hval j hj]
        exact hinv.clean i w hw hval hnd j hj
  refine ⟨hinv', ?_⟩
  intro x
  have hxdiv : x / 2 ^ c.OFFSET_BITS = lineNo c (TAG c x) (INDEX c x) := div_line c x
  have hxoff : x % 2 ^ c.OFFSET_BITS = OFFSET c x := (OFFSET_eq c x).symm
  have hxsplit : 2 ^ c.OFFSET_BITS * lineNo c (TAG c x) (INDEX c x) + OFFSET c x = x := by
    rw [← hxdiv, ← hxoff]; exact addr_split _ x
  -- is there a way of the old state that holds the line of x?
  by_cases hhit : ∃ w, w < 2 ∧ IS_VALID (m.cache (INDEX c x) w) = true ∧
      (m.cache (INDEX c x) w).tag = TAG c x
  · obtain ⟨w, hw, hval, htag⟩ := hhit
    rw [view_hit c m x w hw (hinv.nodup _) hval htag]
    by_cases h : INDEX c x = idx ∧ w = v
    · -- the line of x is the victim: it is now in PSRAM
      obtain ⟨hi, rfl⟩ := h
      have hmiss' : ∀ w', w' < 2 → ¬ (IS_VALID (m'.cache (INDEX c x) w') = true ∧
          (m'.cache (INDEX c x) w').tag = TAG c x) := by
        intro w' hw' ⟨hval', htag'⟩
        by_cases hww : w' = w
        · subst hww
          rw [hi, h2t] at htag'
          rw [hi] at hval htag
          exact hmiss w' hw ⟨hval, htag.trans htag'.symm⟩
        · have n : ¬ (INDEX c x = idx ∧ w' = w) := fun h => hww h.2
          rw [h1v _ _ n] at hval'; rw [h1t _ _ n] at htag'
          exact ways_ne_tag c m hinv (INDEX c x) w w' hw hw' hww hval' hval
            (htag'.trans htag.symm)
      rw [view_miss c m' x hmiss', h3]
      rw [hi] at hval htag
      by_cases hd : IS_DIRTY (m.cache idx w) = true
      · rw [if_pos ⟨hd, by rw [hxdiv, htag, hi]⟩, hxoff, hi]
      · have hd' : IS_DIRTY (m.cache idx w) = false := by simpa using hd
        rw [if_neg (fun h => hd h.1), hi]
        rw [hinv.clean idx w hw hval hd' (OFFSET c x) (OFFSET_lt c x), htag, ← hi, hxsplit]
    · -- another line: unchanged
      have hval' : IS_VALID (m'.cache (INDEX c x) w) = true := by rw [h1v _ _ h]; exact hval
      have htag' : (m'.cache (INDEX c x) w).tag = TAG c x := by rw [h1t _ _ h]; exact htag
      rw [view_hit c m' x w hw (hinv'.nodup _) hval' htag', h1d _ _ h]
  · have hmissx : ∀ w, w < 2 → ¬ (IS_VALID (m.cache (INDEX c x) w) = true ∧
        (m.cache (INDEX c x) w).tag = TAG c x) := fun w hw h => hhit ⟨w, hw, h.1, h.2⟩
    rw [view_miss c m x hmissx]
    -- the PSRAM byte of x is not touched by the write-back
    have hpx : m'.psram x = m.psram x := by
      apply hps
      rintro ⟨hd, hx⟩
      rw [hxdiv] at hx
      obtain ⟨e1, e2⟩ := lineNo_inj c (INDEX_lt c x) hidx hx
      exact hmissx v hv ⟨by rw [e2]; exact (hold hd).1, by rw [e2]; exact e1.symm⟩
    by_cases hnew : INDEX c x = idx ∧ TAG c x = t
    · obtain ⟨hi, htx⟩ := hnew
      have hval' : IS_VALID (m'.cache (INDEX c x) v) = true := by rw [hi]; exact h2v
      have htag' : (m'.cache (INDEX c x) v).tag = TAG c x := by rw [hi, h2t, htx]
      rw [view_hit c m' x v hv (hinv'.nodup _) hval' htag', hi,
        h2data _ (OFFSET_lt c x), ← htx, ← hi, hxsplit, hpx]
    · have hmiss' : ∀ w', w' < 2 → ¬ (IS_VALID (m'.cache (INDEX c x) w') = true ∧
          (m'.cache (INDEX c x) w').tag = TAG c x) := by
        intro w' hw' ⟨hval', htag'⟩
        by_cases hww : INDEX c x = idx ∧ w' = v
        · obtain ⟨hi, rfl⟩ := hww
          rw [hi, h2t] at htag'
          exact hnew ⟨hi, htag'.symm⟩
        · rw [h1v _ _ hww] at hval'; rw [h1t _ _ hww] at htag'
          exact hmissx w' hw' ⟨hval', htag'⟩
      rw [view_miss c m' x hmiss', hpx]

end TinyRv32


namespace TinyRv32

/-! ## The lookup keeps the invariant and the view -/

theorem flush_base_line (c : Config) (hc : c.Valid) (l : Cacheline) (idx : Nat)
    (hidx : idx < 2 ^ c.INDEX_BITS)
    (ht : l.tag < 2 ^ (ADDR_BITS - c.OFFSET_BITS - c.INDEX_BITS)) :
    flush_base c l idx = 2 ^ c.OFFSET_BITS * lineNo c l.tag idx ∧
      flush_base c l idx % 16777216 = 2 ^ c.OFFSET_BITS * lineNo c l.tag idx := by
  have hb := lineNo_lt c hc hidx ht
  have hL : 0 < 2 ^ c.OFFSET_BITS := Nat.two_pow_pos _
  have e : 2 ^ (c.INDEX_BITS + c.OFFSET_BITS) * l.tag + idx * 2 ^ c.OFFSET_BITS
      = 2 ^ c.OFFSET_BITS * lineNo c l.tag idx := by
    unfold lineNo; rw [pow_add]; ring
  have h24 : (2:Nat) ^ 24 = 16777216 := by norm_num
  have h32 : (2:Nat) ^ 32 = 4294967296 := by norm_num
  have h1 : flush_base c l idx = 2 ^ c.OFFSET_BITS * lineNo c l.tag idx := by
    rw [flush_base_eq c l idx hidx (by rw [e]; omega), e]
  exact ⟨h1, by rw [h1]; exact Nat.mod_eq_of_lt (by omega)⟩

theorem BASE_line (c : Config) (hc : c.Valid) (a : Nat) (ha : a < 2 ^ 24) :
    BASE c a = 2 ^ c.OFFSET_BITS * (a / 2 ^ c.OFFSET_BITS) ∧
      BASE c a % 16777216 = 2 ^ c.OFFSET_BITS * (a / 2 ^ c.OFFSET_BITS) := by
  have h1 : BASE c a = 2 ^ c.OFFSET_BITS * (a / 2 ^ c.OFFSET_BITS) :=
    BASE_eq c a (le_trans hc.1 (by norm_num)) (lt_trans ha (by norm_num))
  refine ⟨h1, ?_⟩
  rw [h1]
  apply Nat.mod_eq_of_lt
  have := Nat.mul_div_le a (2 ^ c.OFFSET_BITS)
  have h24 : (2:Nat) ^ 24 = 16777216 := by norm_num
  omega

theorem refill_spec (c : Config) (hc : c.Valid) (psram : Mem) (line : Cacheline)
    (idx tag a : Nat) (ha : a < 2 ^ 24) (hidx : idx < 2 ^ c.INDEX_BITS)
    (hb : IS_DIRTY line = true →
      line.tag < 2 ^ (ADDR_BITS - c.OFFSET_BITS - c.INDEX_BITS)) :
    IS_VALID (refill c psram line idx tag a).1 = true ∧
    IS_DIRTY (refill c psram line idx tag a).1 = false ∧
    IS_LRU (refill c psram line idx tag a).1 = false ∧
    (refill c psram line idx tag a).1.tag = tag ∧
    (∀ j, j < 2 ^ c.OFFSET_BITS → (refill c psram line idx tag a).1.data j =
      (refill c psram line idx tag a).2 (2 ^ c.OFFSET_BITS * (a / 2 ^ c.OFFSET_BITS) + j)) ∧
    (∀ x, (refill c psram line idx tag a).2 x =
      if IS_DIRTY line = true ∧ x / 2 ^ c.OFFSET_BITS = lineNo c line.tag idx
      then line.data (x % 2 ^ c.OFFSET_BITS) else psram x) := by
  have hL : 0 < 2 ^ c.OFFSET_BITS := Nat.two_pow_pos _
  refine ⟨by simp [refill], by simp [refill], by simp [refill], by simp [refill, SET_VALID],
    ?_, ?_⟩
  · intro j hj
    simp only [refill, SET_VALID, psram_read_eq, (BASE_line c hc a ha).2, chip_read,
      CACHE_LINE_SIZE_eq, if_pos hj]
  · intro x
    simp only [refill]
    by_cases hd : IS_DIRTY line = true
    · rw [if_pos hd, psram_write_eq, (flush_base_line c hc line idx hidx (hb hd)).2,
        CACHE_LINE_SIZE_eq, chip_write_line _ _ _ hL]
      simp [hd]
    · rw [if_neg hd, if_neg (fun h => hd h.1)]

theorem setWays_cache (m : MemSys) (idx : Nat) (w1 w2 : Cacheline) (p : Mem) (i w : Nat) :
    (m.setWays idx w1 w2 p).cache i w =
      if i = idx ∧ w = 0 then w1 else if i = idx ∧ w = 1 then w2 else m.cache i w := by
  unfold MemSys.setWays
  by_cases hi : i = idx <;> by_cases h0 : w = 0 <;> by_cases h1 : w = 1 <;> simp [hi, h0, h1]

theorem locate_spec (c : Config) (hc : c.Valid) (m : MemSys) (hinv : Inv c m)
    (a : Nat) (ha : a < 2 ^ 24) :
    Inv c (locate c m a).1 ∧ (∀ x, view c (locate c m a).1 x = view c m x) ∧
      (locate c m a).2 < 2 ∧
      IS_VALID ((locate c m a).1.cache (INDEX c a) (locate c m a).2) = true ∧
      ((locate c m a).1.cache (INDEX c a) (locate c m a).2).tag = TAG c a := by
  have hi : INDEX c a % 65536 = INDEX c a :=
    Nat.mod_eq_of_lt (lt_of_lt_of_le (INDEX_lt c a) (idx_bound_16 c hc))
  have htl := TAG_lt c hc a ha
  have ht : TAG c a % 65536 = TAG c a :=
    Nat.mod_eq_of_lt (lt_of_lt_of_le htl (tag_bound_16 c hc))
  have hidx := INDEX_lt c a
  unfold locate
  simp only [hi, ht]
  by_cases h0 : (TAG c a == (m.cache (INDEX c a) 0).tag && IS_VALID (m.cache (INDEX c a) 0)) = true
  · -- hit in way 0
    rw [if_pos h0]
    simp only [Bool.and_eq_true, beq_iff_eq] at h0
    have hs := inv_view_of_same c m
      (m.setWays (INDEX c a) (CLEAR_LRU (m.cache (INDEX c a) 0))
        (SET_LRU (m.cache (INDEX c a) 1)) m.psram) rfl
      (by intro i w; rw [setWays_cache]; split_ifs with h1 h2
          · rw [h1.1, h1.2]; rfl
          · rw [h2.1, h2.2]; rfl
          · rfl)
      (by intro i w; rw [setWays_cache]; split_ifs with h1 h2
          · rw [h1.1, h1.2]; rfl
          · rw [h2.1, h2.2]; rfl
          · rfl)
      (by intro i w; rw [setWays_cache]; split_ifs with h1 h2
          · rw [h1.1, h1.2]; simp
          · rw [h2.1, h2.2]; simp
          · rfl)
      (by intro i w; rw [setWays_cache]; split_ifs with h1 h2
          · rw [h1.1, h1.2]; simp
          · rw [h2.1, h2.2]; simp
          · rfl)
    refine ⟨hs.1 hinv, hs.2, by norm_num, ?_, ?_⟩
    · simp [setWays_cache, h0.2]
    · simp [setWays_cache, CLEAR_LRU, h0.1]
  · rw [if_neg h0]
    by_cases h1 : (TAG c a == (m.cache (INDEX c a) 1).tag && IS_VALID (m.cache (INDEX c a) 1)) = true
    · -- hit in way 1
      rw [if_pos h1]
      simp only [Bool.and_eq_true, beq_iff_eq] at h1
      have hs := inv_view_of_same c m
        (m.setWays (INDEX c a) (SET_LRU (m.cache (INDEX c a) 0))
          (CLEAR_LRU (m.cache (INDEX c a) 1)) m.psram) rfl
        (by intro i w; rw [setWays_cache]; split_ifs with h1 h2
            · rw [h1.1, h1.2]; rfl
            · rw [h2.1, h2.2]; rfl
            · rfl)
        (by intro i w; rw [setWays_cache]; split_ifs with h1 h2
            · rw [h1.1, h1.2]; rfl
            · rw [h2.1, h2.2]; rfl
            · rfl)
        (by intro i w; rw [setWays_cache]; split_ifs with h1 h2
            · rw [h1.1, h1.2]; simp
            · rw [h2.1, h2.2]; simp
            · rfl)
        (by intro i w; rw [setWays_cache]; split_ifs with h1 h2
            · rw [h1.1, h1.2]; simp
            · rw [h2.1, h2.2]; simp
            · rfl)
      refine ⟨hs.1 hinv, hs.2, by norm_num, ?_, ?_⟩
      · simp [setWays_cache, h1.2]
      · simp [setWays_cache, CLEAR_LRU, h1.1]
    · rw [if_neg h1]
      simp only [Bool.and_eq_true, beq_iff_eq, not_and] at h0 h1
      have hmiss : ∀ w, w < 2 → ¬ (IS_VALID (m.cache (INDEX c a) w) = true ∧
          (m.cache (INDEX c a) w).tag = TAG c a) := by
        intro w hw ⟨hv, htg⟩
        have hw' : w = 0 ∨ w = 1 := by omega
        rcases hw' with rfl | rfl
        · exact h0 htg.symm hv
        · exact h1 htg.symm hv
      by_cases hl : IS_LRU (m.cache (INDEX c a) 0) = true
      · -- miss, victim is way 0
        rw [if_pos hl]
        have hr := refill_spec c hc m.psram (CLEAR_LRU (m.cache (INDEX c a) 0)) (INDEX c a)
          (TAG c a) a ha hidx (by
            intro hd
            rw [dirty_CLEAR_LRU] at hd
            exact (hinv.bound _ _ (hinv.dirty_valid _ _ hd)).2)
        obtain ⟨r1, r2, _, r4, r5, r6⟩ := hr
        have hs := inv_view_of_refill c m
          (m.setWays (INDEX c a)
            (refill c m.psram (CLEAR_LRU (m.cache (INDEX c a) 0)) (INDEX c a) (TAG c a) a).1
            (SET_LRU (m.cache (INDEX c a) 1))
            (refill c m.psram (CLEAR_LRU (m.cache (INDEX c a) 0)) (INDEX c a) (TAG c a) a).2)
          (INDEX c a) 0 (TAG c a) hinv hidx (by norm_num) htl hmiss
          (by intro i w hne; rw [setWays_cache, if_neg hne]; split_ifs with h2
              · rw [h2.1, h2.2]; rfl
              · rfl)
          (by intro i w hne; rw [setWays_cache, if_neg hne]; split_ifs with h2
              · rw [h2.1, h2.2]; rfl
              · rfl)
          (by intro i w hne; rw [setWays_cache, if_neg hne]; split_ifs with h2
              · rw [h2.1, h2.2]; simp
              · rfl)
          (by intro i w hne; rw [setWays_cache, if_neg hne]; split_ifs with h2
              · rw [h2.1, h2.2]; simp
              · rfl)
          (by simpa [setWays_cache] using r1)
          (by simpa [setWays_cache] using r2)
          (by simpa [setWays_cache] using r4)
          (by intro j hj
              simp only [setWays_cache, true_and, if_true]
              rw [r5 j hj, div_line]; rfl)
          (by intro x
              show (refill c m.psram (CLEAR_LRU (m.cache (INDEX c a) 0)) (INDEX c a)
                (TAG c a) a).2 x = _
              rw [r6 x, dirty_CLEAR_LRU]; rfl)
        refine ⟨hs.1, hs.2, by norm_num, ?_, ?_⟩
        · simpa [setWays_cache] using r1
        · simpa [setWays_cache] using r4
      · -- miss, victim is way 1
        rw [if_neg hl]
        have hr := refill_spec c hc m.psram (CLEAR_LRU (m.cache (INDEX c a) 1)) (INDEX c a)
          (TAG c a) a ha hidx (by
            intro hd
            rw [dirty_CLEAR_LRU] at hd
            exact (hinv.bound _ _ (hinv.dirty_valid _ _ hd)).2)
        obtain ⟨r1, r2, _, r4, r5, r6⟩ := hr
        have hs := inv_view_of_refill c m
          (m.setWays (INDEX c a) (SET_LRU (m.cache (INDEX c a) 0))
            (refill c m.psram (CLEAR_LRU (m.cache (INDEX c a) 1)) (INDEX c a) (TAG c a) a).1
            (refill c m.psram (CLEAR_LRU (m.cache (INDEX c a) 1)) (INDEX c a) (TAG c a) a).2)
          (INDEX c a) 1 (TAG c a) hinv hidx (by norm_num) htl hmiss
          (by intro i w hne; rw [setWays_cache]; split_ifs with h2
              · rw [h2.1, h2.2]; rfl
              · rfl)
          (by intro i w hne; rw [setWays_cache]; split_ifs with h2
              · rw [h2.1, h2.2]; rfl
              · rfl)
          (by intro i w hne; rw [setWays_cache]; split_ifs with h2
              · rw [h2.1, h2.2]; simp
              · rfl)
          (by intro i w hne; rw [setWays_cache]; split_ifs with h2
              · rw [h2.1, h2.2]; simp
              · rfl)
          (by simpa [setWays_cache] using r1)
          (by simpa [setWays_cache] using r2)
          (by simpa [setWays_cache] using r4)
          (by intro j hj
              have e : (m.setWays (INDEX c a) (SET_LRU (m.cache (INDEX c a) 0))
                  (refill c m.psram (CLEAR_LRU (m.cache (INDEX c a) 1)) (INDEX c a)
                    (TAG c a) a).1
                  (refill c m.psram (CLEAR_LRU (m.cache (INDEX c a) 1)) (INDEX c a)
                    (TAG c a) a).2).cache (INDEX c a) 1 =
                  (refill c m.psram (CLEAR_LRU (m.cache (INDEX c a) 1)) (INDEX c a)
                    (TAG c a) a).1 := by simp [setWays_cache]
              rw [e, r5 j hj, div_line]; rfl)
          (by intro x
              show (refill c m.psram (CLEAR_LRU (m.cache (INDEX c a) 1)) (INDEX c a)
                (TAG c a) a).2 x = _
              rw [r6 x, dirty_CLEAR_LRU]; rfl)
        refine ⟨hs.1, hs.2, by norm_num, ?_, ?_⟩
        · simpa [setWays_cache] using r1
        · simpa [setWays_cache] using r4

end TinyRv32


namespace TinyRv32

/-! ## The copy loops -/

theorem read_bytes_eq (data : Nat → Nat) (size off : Nat) (h : off + size ≤ 256) :
    read_bytes data size off = (List.range size).map (fun i => data (off + i)) := by
  induction size generalizing off with
  | zero => simp [read_bytes]
  | succ n ih =>
    rw [read_bytes, List.range_succ_eq_map, List.map_cons, List.map_map]
    congr 1
    rcases Nat.eq_zero_or_pos n with rfl | hn
    · simp [read_bytes]
    · have e : (off + 1) % 256 = off + 1 := Nat.mod_eq_of_lt (by omega)
      rw [e, ih (off + 1) (by omega)]
      apply List.map_congr_left
      intro i _
      simp only [Function.comp, Nat.succ_eq_add_one]
      congr 1; omega

theorem write_bytes_eq (size : Nat) (data : Nat → Nat) (off : Nat) (ptr : List Nat)
    (h : off + size ≤ 256) (j : Nat) :
    write_bytes size data off ptr j =
      if off ≤ j ∧ j < off + size then ptr.getD (j - off) 0 else data j := by
  induction size generalizing data off ptr with
  | zero =>
    have : ¬ (off ≤ j ∧ j < off + 0) := by omega
    rw [write_bytes, if_neg this]
  | succ n ih =>
    rw [write_bytes]
    rcases Nat.eq_zero_or_pos n with rfl | hn
    · rw [write_bytes]
      by_cases hj : j = off
      · subst hj
        have : j ≤ j ∧ j < j + (0 + 1) := by omega
        rw [if_pos this]
        cases ptr <;> simp
      · have : ¬ (off ≤ j ∧ j < off + (0 + 1)) := by omega
        rw [if_neg this, Function.update_noteq hj]
    · have e : (off + 1) % 256 = off + 1 := Nat.mod_eq_of_lt (by omega)
      rw [e, ih _ (off + 1) _ (by omega)]
      by_cases h1 : off + 1 ≤ j ∧ j < off + 1 + n
      · have h2 : off ≤ j ∧ j < off + (n + 1) := by omega
        rw [if_pos h1, if_pos h2]
        have e2 : j - off = (j - (off + 1)) + 1 := by omega
        rw [e2]
        cases ptr <;> simp
      · rw [if_neg h1]
        by_cases hj : j = off
        · subst hj
          have : j ≤ j ∧ j < j + (n + 1) := by omega
          rw [if_pos this]
          cases ptr <;> simp
        · have : ¬ (off ≤ j ∧ j < off + (n + 1)) := by omega
          rw [if_neg this, Function.update_noteq hj]

/-! ## Addresses inside one line -/

theorem same_line_fields (c : Config) (a x : Nat)
    (h : x / 2 ^ c.OFFSET_BITS = a / 2 ^ c.OFFSET_BITS) :
    INDEX c x = INDEX c a ∧ TAG c x = TAG c a := by
  rw [div_line, div_line] at h
  obtain ⟨h1, h2⟩ := lineNo_inj c (INDEX_lt c x) (INDEX_lt c a) h
  exact ⟨h2, h1⟩

theorem same_line_iff (c : Config) (a x : Nat) :
    (INDEX c x = INDEX c a ∧ TAG c x = TAG c a) ↔
      x / 2 ^ c.OFFSET_BITS = a / 2 ^ c.OFFSET_BITS := by
  constructor
  · rintro ⟨h1, h2⟩
    rw [div_line, div_line, h1, h2]
  · exact same_line_fields c a x

theorem add_in_line (L a i : Nat) (hL : 0 < L) (h : a % L + i < L) :
    (a + i) / L = a / L ∧ (a + i) % L = a % L + i := by
  have h1 := Nat.div_add_mod a L
  have h2 : a + i = L * (a / L) + (a % L + i) := by omega
  constructor
  · rw [h2, Nat.mul_add_div hL, Nat.div_eq_of_lt h]; rfl
  · rw [h2, Nat.mul_add_mod, Nat.mod_eq_of_lt h]

theorem range_in_line (L a size x : Nat) (hL : 0 < L) (h : a % L + size ≤ L) :
    (x / L = a / L ∧ a % L ≤ x % L ∧ x % L < a % L + size) ↔ (a ≤ x ∧ x < a + size) := by
  have h1 := Nat.div_add_mod a L
  have h2 := Nat.div_add_mod x L
  constructor
  · rintro ⟨e, h3, h4⟩
    rw [e] at h2
    constructor <;> omega
  · rintro ⟨h3, h4⟩
    have hlt : a % L + (x - a) < L := by omega
    obtain ⟨e1, e2⟩ := add_in_line L a (x - a) hL hlt
    have : a + (x - a) = x := by omega
    rw [this] at e1 e2
    refine ⟨e1, ?_, ?_⟩ <;> omega

end TinyRv32


namespace TinyRv32

/-! ## `cache_read`, `cache_write` and `cache_flush` against the view -/

theorem setLine_cache (m : MemSys) (idx w : Nat) (l : Cacheline) (i w' : Nat) :
    (m.setLine idx w l).cache i w' = if i = idx ∧ w' = w then l else m.cache i w' := rfl

theorem index_mod (c : Config) (hc : c.Valid) (a : Nat) : INDEX c a % 65536 = INDEX c a :=
  Nat.mod_eq_of_lt (lt_of_lt_of_le (INDEX_lt c a) (idx_bound_16 c hc))

theorem offset_mod (c : Config) (hc : c.Valid) (a : Nat) : OFFSET c a % 256 = OFFSET c a :=
  Nat.mod_eq_of_lt (lt_of_lt_of_le (OFFSET_lt c a) (off_bound_8 c hc))

theorem size_mod {size : Nat} (hs : size = 1 ∨ size = 2 ∨ size = 4) : size % 256 = size := by
  rcases hs with rfl | rfl | rfl <;> rfl

theorem cache_read_spec (c : Config) (hc : c.Valid) (m : MemSys) (hinv : Inv c m)
    (a size : Nat) (ha : a < 2 ^ 24) (hs : size = 1 ∨ size = 2 ∨ size = 4)
    (hline : OFFSET c a + size ≤ CACHE_LINE_SIZE c) :
    Inv c (cache_read c m a size).1 ∧
      (∀ x, view c (cache_read c m a size).1 x = view c m x) ∧
      (cache_read c m a size).2 = flat_read (view c m) a size := by
  obtain ⟨h1, h2, h3, h4, h5⟩ := locate_spec c hc m hinv a ha
  have hL : 0 < 2 ^ c.OFFSET_BITS := Nat.two_pow_pos _
  rw [CACHE_LINE_SIZE_eq] at hline
  have h256 := off_bound_8 c hc
  refine ⟨h1, h2, ?_⟩
  unfold cache_read flat_read
  simp only [index_mod c hc, offset_mod c hc, size_mod hs]
  rw [read_bytes_eq _ _ _ (by omega)]
  apply List.map_congr_left
  intro i hi
  rw [List.mem_range] at hi
  rw [OFFSET_eq] at hline
  obtain ⟨e1, e2⟩ := add_in_line (2 ^ c.OFFSET_BITS) a i hL (by omega)
  obtain ⟨f1, f2⟩ := same_line_fields c a (a + i) e1
  rw [← h2 (a + i)]
  have hv' : IS_VALID ((locate c m a).1.cache (INDEX c (a + i)) (locate c m a).2) = true := by
    rw [f1]; exact h4
  have ht' : ((locate c m a).1.cache (INDEX c (a + i)) (locate c m a).2).tag = TAG c (a + i) := by
    rw [f1, f2]; exact h5
  rw [view_hit c _ (a + i) _ h3 (h1.nodup _) hv' ht', f1, OFFSET_eq, OFFSET_eq, e2]

/-- Storing new data into a valid line and marking it dirty. -/
theorem inv_view_of_store (c : Config) (m : MemSys) (hinv : Inv c m) (idx w : Nat)
    (hw : w < 2) (hval : IS_VALID (m.cache idx w) = true) (l : Cacheline)
    (hlt : l.tag = (m.cache idx w).tag) (hlv : IS_VALID l = true) (hld : IS_DIRTY l = true) :
    Inv c (m.setLine idx w l) ∧
      ∀ x, view c (m.setLine idx w l) x =
        if INDEX c x = idx ∧ TAG c x = (m.cache idx w).tag then l.data (OFFSET c x)
        else view c m x := by
  have hinv' : Inv c (m.setLine idx w l) := by
    constructor
    · intro i w' hd
      rw [setLine_cache] at hd ⊢
      split_ifs at hd ⊢ with h
      · exact hlv
      · exact hinv.dirty_valid i w' hd
    · intro i w' hv
      rw [setLine_cache] at hv ⊢
      split_ifs at hv ⊢ with h
      · rw [hlt, h.1]
        exact hinv.bound idx w hval
      · exact hinv.bound i w' hv
    · intro i hv0 hv1
      rw [setLine_cache] at hv0 hv1 ⊢
      rw [setLine_cache]
      have a0 : IS_VALID (m.cache i 0) = true := by
        split_ifs at hv0 with h
        · rw [h.1, h.2]; exact hval
        · exact hv0
      have a1 : IS_VALID (m.cache i 1) = true := by
        split_ifs at hv1 with h
        · rw [h.1, h.2]; exact hval
        · exact hv1
      have := hinv.nodup i a0 a1
      split_ifs with h h' h'
      · omega
      · rw [hlt, ← h.1, ← h.2]; exact this
      · rw [hlt, ← h'.1, ← h'.2]; exact this
      · exact this
    · intro i w' hw' hv hnd j hj
      rw [setLine_cache] at hv hnd ⊢
      split_ifs at hv hnd ⊢ with h
      · rw [hld] at hnd; exact absurd hnd (by simp)
      · exact hinv.clean i w' hw' hv hnd j hj
  refine ⟨hinv', ?_⟩
  intro x
  by_cases hx : INDEX c x = idx ∧ TAG c x = (m.cache idx w).tag
  · rw [if_pos hx]
    have e : (m.setLine idx w l).cache (INDEX c x) w = l := by
      rw [setLine_cache, if_pos ⟨hx.1, rfl⟩]
    rw [view_hit c _ x w hw (hinv'.nodup _) (by rw [e]; exact hlv)
      (by rw [e, hlt]; exact hx.2.symm), e]
  · rw [if_neg hx]
    by_cases hhit : ∃ w', w' < 2 ∧ IS_VALID (m.cache (INDEX c x) w') = true ∧
        (m.cache (INDEX c x) w').tag = TAG c x
    · obtain ⟨w', hw', hv', ht'⟩ := hhit
      have hne : ¬ (INDEX c x = idx ∧ w' = w) := by
        rintro ⟨rfl, rfl⟩
        exact hx ⟨rfl, ht'.symm⟩
      have e : (m.setLine idx w l).cache (INDEX c x) w' = m.cache (INDEX c x) w' := by
        rw [setLine_cache, if_neg hne]
      rw [view_hit c m x w' hw' (hinv.nodup _) hv' ht',
        view_hit c _ x w' hw' (hinv'.nodup _) (by rw [e]; exact hv') (by rw [e]; exact ht'), e]
    · have hm : ∀ w', w' < 2 → ¬ (IS_VALID (m.cache (INDEX c x) w') = true ∧
          (m.cache (INDEX c x) w').tag = TAG c x) := fun w' hw' h => hhit ⟨w', hw', h.1, h.2⟩
      have hm' : ∀ w', w' < 2 → ¬ (IS_VALID ((m.setLine idx w l).cache (INDEX c x) w') = true ∧
          ((m.setLine idx w l).cache (INDEX c x) w').tag = TAG c x) := by
        intro w' hw' ⟨hv', ht'⟩
        rw [setLine_cache] at hv' ht'
        split_ifs at hv' ht' with h
        · exact hx ⟨h.1, by rw [← ht', hlt]⟩
        · exact hm w' hw' ⟨hv', ht'⟩
      rw [view_miss c m x hm, view_miss c _ x hm']
      rfl

theorem cache_write_spec (c : Config) (hc : c.Valid) (m : MemSys) (hinv : Inv c m)
    (a : Nat) (ptr : List Nat) (size : Nat) (ha : a < 2 ^ 24)
    (hs : size = 1 ∨ size = 2 ∨ size = 4)
    (hline : OFFSET c a + size ≤ CACHE_LINE_SIZE c) :
    Inv c (cache_write c m a ptr size) ∧
      ∀ x, view c (cache_write c m a ptr size) x = flat_write (view c m) a ptr size x := by
  obtain ⟨h1, h2, h3, h4, h5⟩ := locate_spec c hc m hinv a ha
  have hL : 0 < 2 ^ c.OFFSET_BITS := Nat.two_pow_pos _
  rw [CACHE_LINE_SIZE_eq] at hline
  have h256 := off_bound_8 c hc
  unfold cache_write
  simp only [index_mod c hc, offset_mod c hc, size_mod hs]
  have hst := inv_view_of_store c _ h1 (INDEX c a) _ h3 h4
    (SET_DIRTY { (locate c m a).1.cache (INDEX c a) (locate c m a).2 with
      data := write_bytes size ((locate c m a).1.cache (INDEX c a) (locate c m a).2).data
        (OFFSET c a) ptr })
    rfl (by rw [valid_SET_DIRTY]; exact h4) (dirty_SET_DIRTY _)
  refine ⟨hst.1, ?_⟩
  intro x
  rw [hst.2 x, h5]
  unfold flat_write
  have hr := range_in_line (2 ^ c.OFFSET_BITS) a size x hL (by rw [← OFFSET_eq]; exact hline)
  by_cases hx : INDEX c x = INDEX c a ∧ TAG c x = TAG c a
  · rw [if_pos hx]
    have hdiv := (same_line_iff c a x).1 hx
    show write_bytes size _ (OFFSET c a) ptr (OFFSET c x) = _
    rw [write_bytes_eq _ _ _ _ (by omega)]
    rw [OFFSET_eq, OFFSET_eq]
    by_cases hin : a % 2 ^ c.OFFSET_BITS ≤ x % 2 ^ c.OFFSET_BITS ∧
        x % 2 ^ c.OFFSET_BITS < a % 2 ^ c.OFFSET_BITS + size
    · have hax := hr.1 ⟨hdiv, hin.1, hin.2⟩
      rw [if_pos hin, if_pos hax]
      congr 1
      have := Nat.div_add_mod a (2 ^ c.OFFSET_BITS)
      have := Nat.div_add_mod x (2 ^ c.OFFSET_BITS)
      rw [hdiv] at this
      omega
    · have hax : ¬ (a ≤ x ∧ x < a + size) := fun h => hin (hr.2 h).2
      rw [if_neg hin, if_neg hax, ← h2 x]
      have hv' : IS_VALID ((locate c m a).1.cache (INDEX c x) (locate c m a).2) = true := by
        rw [hx.1]; exact h4
      have ht' : ((locate c m a).1.cache (INDEX c x) (locate c m a).2).tag = TAG c x := by
        rw [hx.1, hx.2]; exact h5
      rw [view_hit c _ x _ h3 (h1.nodup _) hv' ht', hx.1, OFFSET_eq]
  · have hax : ¬ (a ≤ x ∧ x < a + size) := fun h => hx ((same_line_iff c a x).2 (hr.2 h).1)
    rw [if_neg hx, if_neg hax, h2 x]

end TinyRv32


namespace TinyRv32

/-! ## `cache_reset` and `cache_flush` -/

theorem inv_reset (c : Config) (m0 : MemSys) : Inv c (cache_reset m0) := by
  constructor
  · intro idx w h; simp [cache_reset, IS_DIRTY] at h
  · intro idx w h; simp [cache_reset, IS_VALID] at h
  · intro idx h; simp [cache_reset, IS_VALID] at h
  · intro idx w _ h; simp [cache_reset, IS_VALID] at h

theorem view_reset (c : Config) (m0 : MemSys) : view c (cache_reset m0) = m0.psram := by
  funext x
  simp [view, cache_reset, IS_VALID]

theorem line_addr_fields (c : Config) (t i j : Nat) (hi : i < 2 ^ c.INDEX_BITS)
    (hj : j < 2 ^ c.OFFSET_BITS) :
    INDEX c (2 ^ c.OFFSET_BITS * lineNo c t i + j) = i ∧
    TAG c (2 ^ c.OFFSET_BITS * lineNo c t i + j) = t ∧
    OFFSET c (2 ^ c.OFFSET_BITS * lineNo c t i + j) = j := by
  have hL : 0 < 2 ^ c.OFFSET_BITS := Nat.two_pow_pos _
  have hdiv : (2 ^ c.OFFSET_BITS * lineNo c t i + j) / 2 ^ c.OFFSET_BITS = lineNo c t i := by
    rw [Nat.mul_add_div hL, Nat.div_eq_of_lt hj]; rfl
  rw [div_line] at hdiv
  obtain ⟨h1, h2⟩ := lineNo_inj c (INDEX_lt c _) hi hdiv
  refine ⟨h2, h1, ?_⟩
  rw [OFFSET_eq, Nat.mul_add_mod, Nat.mod_eq_of_lt hj]

theorem flush_line_spec (c : Config) (hc : c.Valid) (m : MemSys) (hinv : Inv c m)
    (p : Mem) (idx w x : Nat) :
    flush_line c p (m.cache idx w) idx x =
      if IS_DIRTY (m.cache idx w) = true ∧
          x / 2 ^ c.OFFSET_BITS = lineNo c (m.cache idx w).tag idx
      then (m.cache idx w).data (x % 2 ^ c.OFFSET_BITS) else p x := by
  have hL : 0 < 2 ^ c.OFFSET_BITS := Nat.two_pow_pos _
  unfold flush_line
  by_cases hd : IS_DIRTY (m.cache idx w) = true
  · obtain ⟨hi, ht⟩ := hinv.bound idx w (hinv.dirty_valid idx w hd)
    have him : idx % 65536 = idx := Nat.mod_eq_of_lt (lt_of_lt_of_le hi (idx_bound_16 c hc))
    rw [if_pos hd, him, psram_write_eq, (flush_base_line c hc _ idx hi ht).2,
      CACHE_LINE_SIZE_eq, chip_write_line _ _ _ hL]
    simp [hd]
  · rw [if_neg hd, if_neg (fun h => hd h.1)]

theorem flush_upto_spec (c : Config) (hc : c.Valid) (m : MemSys) (hinv : Inv c m)
    (n x : Nat) :
    cache_flush_upto c m n x = if INDEX c x < n then view c m x else m.psram x := by
  induction n with
  | zero => simp [cache_flush_upto]
  | succ n ih =>
    rw [cache_flush_upto]
    rw [flush_line_spec c hc m hinv, flush_line_spec c hc m hinv, ih]
    have hxdiv : x / 2 ^ c.OFFSET_BITS = lineNo c (TAG c x) (INDEX c x) := div_line c x
    -- a dirty way of set n that covers x is a way that x hits
    have hcov : ∀ w, IS_DIRTY (m.cache n w) = true →
        x / 2 ^ c.OFFSET_BITS = lineNo c (m.cache n w).tag n →
        INDEX c x = n ∧ IS_VALID (m.cache (INDEX c x) w) = true ∧
          (m.cache (INDEX c x) w).tag = TAG c x := by
      intro w hd hx
      have hv := hinv.dirty_valid n w hd
      rw [hxdiv] at hx
      obtain ⟨e1, e2⟩ := lineNo_inj c (INDEX_lt c x) (hinv.bound n w hv).1 hx
      exact ⟨e2, by rw [e2]; exact hv, by rw [e2]; exact e1.symm⟩
    by_cases h1 : IS_DIRTY (m.cache n 1) = true ∧
        x / 2 ^ c.OFFSET_BITS = lineNo c (m.cache n 1).tag n
    · obtain ⟨e, hv, ht⟩ := hcov 1 h1.1 h1.2
      rw [if_pos h1, if_pos (by omega), view_hit c m x 1 (by norm_num) (hinv.nodup _) hv ht,
        e, OFFSET_eq]
    · rw [if_neg h1]
      by_cases h0 : IS_DIRTY (m.cache n 0) = true ∧
          x / 2 ^ c.OFFSET_BITS = lineNo c (m.cache n 0).tag n
      · obtain ⟨e, hv, ht⟩ := hcov 0 h0.1 h0.2
        rw [if_pos h0, if_pos (by omega), view_hit c m x 0 (by norm_num) (hinv.nodup _) hv ht,
          e, OFFSET_eq]
      · rw [if_neg h0]
        by_cases hn : INDEX c x = n
        · rw [if_neg (by omega), if_pos (by omega)]
          -- set n holds no dirty line for x: the PSRAM byte is already the view
          by_cases hhit : ∃ w, w < 2 ∧ IS_VALID (m.cache (INDEX c x) w) = true ∧
              (m.cache (INDEX c x) w).tag = TAG c x
          · obtain ⟨w, hw, hv, ht⟩ := hhit
            rw [view_hit c m x w hw (hinv.nodup _) hv ht]
            have hnd : IS_DIRTY (m.cache (INDEX c x) w) = false := by
              rw [Bool.eq_false_iff]
              intro hd
              have hw' : w = 0 ∨ w = 1 := by omega
              rcases hw' with rfl | rfl
              · exact h0 ⟨by rw [← hn]; exact hd, by rw [hxdiv, ← hn, ht]⟩
              · exact h1 ⟨by rw [← hn]; exact hd, by rw [hxdiv, ← hn, ht]⟩
            rw [hinv.clean _ w hw hv hnd _ (OFFSET_lt c x), ht, OFFSET_eq, ← hxdiv]
            rw [addr_split]
          · rw [view_miss c m x (fun w hw h => hhit ⟨w, hw, h.1, h.2⟩)]
        · by_cases hlt : INDEX c x < n
          · rw [if_pos hlt, if_pos (by omega)]
          · rw [if_neg hlt, if_neg (by omega)]

theorem cache_flush_spec (c : Config) (hc : c.Valid) (m : MemSys) (hinv : Inv c m) :
    Inv c (cache_flush c m) ∧ (∀ x, view c (cache_flush c m) x = view c m x) ∧
      ∀ x, (cache_flush c m).psram x = view c m x := by
  have hp : ∀ x, (cache_flush c m).psram x = view c m x := by
    intro x
    show cache_flush_upto c m (CACHE_SET_SIZE c) x = _
    rw [flush_upto_spec c hc m hinv, CACHE_SET_SIZE_eq, if_pos (INDEX_lt c x)]
  have hcache : ∀ i w, (cache_flush c m).cache i w = m.cache i w := fun _ _ => rfl
  have hinv' : Inv c (cache_flush c m) := by
    constructor
    · intro i w; rw [hcache]; exact hinv.dirty_valid i w
    · intro i w; rw [hcache]; exact hinv.bound i w
    · intro i; rw [hcache, hcache]; exact hinv.nodup i
    · intro i w hw hv hnd j hj
      rw [hcache] at hv hnd ⊢
      rw [hp]
      obtain ⟨f1, f2, f3⟩ := line_addr_fields c (m.cache i w).tag i j (hinv.bound i w hv).1 hj
      rw [view_hit c m _ w hw (hinv.nodup _) (by rw [f1]; exact hv) (by rw [f1, f2]), f1, f3]
  refine ⟨hinv', ?_, hp⟩
  intro x
  by_cases hhit : ∃ w, w < 2 ∧ IS_VALID (m.cache (INDEX c x) w) = true ∧
      (m.cache (INDEX c x) w).tag = TAG c x
  · obtain ⟨w, hw, hv, ht⟩ := hhit
    rw [view_hit c m x w hw (hinv.nodup _) hv ht,
      view_hit c _ x w hw (hinv'.nodup _) (by rw [hcache]; exact hv) (by rw [hcache]; exact ht),
      hcache]
  · have hm : ∀ w, w < 2 → ¬ (IS_VALID (m.cache (INDEX c x) w) = true ∧
        (m.cache (INDEX c x) w).tag = TAG c x) := fun w hw h => hhit ⟨w, hw, h.1, h.2⟩
    rw [view_miss c _ x (by intro w hw; rw [hcache]; exact hm w hw), hp]

/-! ## Sequences of calls -/

theorem cache_step_spec (c : Config) (hc : c.Valid) (m : MemSys) (hinv : Inv c m)
    (op : Op) (hok : op.ok c) :
    Inv c (cache_step c m op).1 ∧
      view c (cache_step c m op).1 = (flat_step (view c m) op).1 ∧
      (cache_step c m op).2 = (flat_step (view c m) op).2 := by
  cases op with
  | read a size =>
    obtain ⟨hs, ha, hl⟩ := hok
    obtain ⟨h1, h2, h3⟩ := cache_read_spec c hc m hinv a size ha hs hl
    exact ⟨h1, funext h2, h3⟩
  | write a ptr size =>
    obtain ⟨hs, ha, hl, _⟩ := hok
    obtain ⟨h1, h2⟩ := cache_write_spec c hc m hinv a ptr size ha hs hl
    exact ⟨h1, funext h2, rfl⟩
  | flush =>
    obtain ⟨h1, h2, _⟩ := cache_flush_spec c hc m hinv
    exact ⟨h1, funext h2, rfl⟩

theorem cache_run_spec (c : Config) (hc : c.Valid) (ops : List Op) :
    ∀ (m : MemSys), Inv c m → (∀ op ∈ ops, op.ok c) →
      Inv c (cache_run c m ops).1 ∧
      view c (cache_run c m ops).1 = (flat_run (view c m) ops).1 ∧
      (cache_run c m ops).2 = (flat_run (view c m) ops).2 := by
  induction ops with
  | nil => intro m hinv _; exact ⟨hinv, rfl, rfl⟩
  | cons op ops ih =>
    intro m hinv hok
    obtain ⟨h1, h2, h3⟩ := cache_step_spec c hc m hinv op (hok op (List.mem_cons_self _ _))
    obtain ⟨g1, g2, g3⟩ := ih (cache_step c m op).1 h1
      (fun o ho => hok o (List.mem_cons_of_mem _ ho))
    simp only [cache_run, flat_run]
    rw [h2] at g2 g3
    exact ⟨g1, g2, by rw [h3, g3]⟩

theorem reachable_inv (c : Config) (hc : c.Valid) (m : MemSys) (h : Reachable c m) :
    Inv c m := by
  obtain ⟨m0, ops, hok, rfl⟩ := h
  exact (cache_run_spec c hc ops _ (inv_reset c m0) hok).1

end TinyRv32


namespace TinyRv32

/-! ## Flat-memory facts used for read-your-writes -/

theorem flat_run_append (mem : Mem) (xs ys : List Op) :
    flat_run mem (xs ++ ys) =
      ((flat_run (flat_run mem xs).1 ys).1,
        (flat_run mem xs).2 ++ (flat_run (flat_run mem xs).1 ys).2) := by
  induction xs generalizing mem with
  | nil => simp [flat_run]
  | cons x xs ih => simp [flat_run, ih]

theorem flat_run_leaves (A S : Nat) (ops : List Op) :
    ∀ (mem : Mem), (∀ op ∈ ops, op.leaves A S) → ∀ x, A ≤ x → x < A + S →
      (flat_run mem ops).1 x = mem x := by
  induction ops with
  | nil => intro mem _ x _ _; rfl
  | cons op ops ih =>
    intro mem h x h1 h2
    have hop := h op (List.mem_cons_self _ _)
    simp only [flat_run]
    rw [ih _ (fun o ho => h o (List.mem_cons_of_mem _ ho)) x h1 h2]
    cases op with
    | read a s => rfl
    | write a p s =>
      simp only [flat_step, flat_write]
      have : ¬ (a ≤ x ∧ x < a + s) := by
        unfold Op.leaves at hop; omega
      rw [if_neg this]
    | flush => rfl

theorem flat_read_write (mem : Mem) (A : Nat) (v : List Nat) (S : Nat) (hv : v.length = S) :
    flat_read (flat_write mem A v S) A S = v := by
  unfold flat_read
  apply List.ext_getElem
  · simp [hv]
  · intro i h1 h2
    simp only [List.getElem_map, List.getElem_range, flat_write]
    have hi : i < S := by simpa using h1
    rw [if_pos ⟨by omega, by omega⟩]
    have : A + i - A = i := by omega
    rw [this, List.getD_eq_getElem?_getD, List.getElem?_eq_getElem h2]
    rfl

theorem flat_read_congr (m1 m2 : Mem) (A S : Nat)
    (h : ∀ x, A ≤ x → x < A + S → m1 x = m2 x) : flat_read m1 A S = flat_read m2 A S := by
  unfold flat_read
  apply List.map_congr_left
  intro i hi
  rw [List.mem_range] at hi
  exact h _ (by omega) (by omega)

/-- C1: the cache with its backing store behaves as a flat memory.  For every valid
configuration, every initial backing store and every sequence of well-formed calls
(sizes 1, 2 or 4, addresses below `2^24`, each access inside one line) issued after
`cache_reset`, the outputs of the `cache_read` calls are those a flat byte array gives
that starts as the backing store and receives the same writes; and a `cache_read(A,S)`
that follows a `cache_write(A,v,S)` with only calls in between that store nothing
into `A .. A+S-1` (they may evict and refill the line) returns `v`. -/
theorem cache_refines_flat_memory (c : Config) (hc : c.Valid) (m0 : MemSys)
    (ops : List Op) (hok : ∀ op ∈ ops, op.ok c) :
    (cache_run c (cache_reset m0) ops).2 = (flat_run m0.psram ops).2 ∧
    ∀ (pre mid : List Op) (A : Nat) (v : List Nat) (S : Nat),
      ops = pre ++ Op.write A v S :: (mid ++ [Op.read A S]) →
      (∀ op ∈ mid, op.leaves A S) →
      (cache_run c (cache_reset m0) ops).2.getLast? = some v := by
  have hrun := cache_run_spec c hc ops (cache_reset m0) (inv_reset c m0) hok
  rw [view_reset] at hrun
  refine ⟨hrun.2.2, ?_⟩
  intro pre mid A v S hops hmid
  rw [hrun.2.2, hops]
  have hw : (Op.write A v S).ok c := hok _ (by rw [hops]; simp)
  have hlen : v.length = S := hw.2.2.2
  rw [flat_run_append]
  simp only [flat_run, flat_step]
  rw [flat_run_append]
  simp only [flat_run, flat_step]
  rw [flat_read_congr _ _ A S (flat_run_leaves A S mid _ hmid), flat_read_write _ _ _ _ hlen]
  rw [List.getLast?_append]
  show (([] : List Nat) :: ((flat_run (flat_write (flat_run m0.psram pre).1 A v S) mid).2
    ++ [v])).getLast?.or _ = some v
  rw [← List.cons_append, List.getLast?_append]
  simp

theorem cache_refines_flat_memory_witness :
    cfg67.Valid ∧ (∀ op ∈ demoOps, op.ok cfg67) ∧
    (cache_run cfg67 (cache_reset demoSys) demoOps).2 = (flat_run demoSys.psram demoOps).2 ∧
    (cache_run cfg67 (cache_reset demoSys) demoOps).2.getLast? =
      some [0xEF, 0xBE, 0xAD, 0xDE] :=
  ⟨by decide, by decide,
    (cache_refines_flat_memory cfg67 (by decide) demoSys demoOps (by decide)).1,
    (cache_refines_flat_memory cfg67 (by decide) demoSys demoOps (by decide)).2
      [] [Op.read 0x2000 4, Op.write 0x4001 [7] 1] 0 [0xEF, 0xBE, 0xAD, 0xDE] 4 rfl
      (by decide)⟩

/-- C2: flush makes the backing store equal to guest-visible memory.  For every valid
configuration and every sequence of well-formed calls issued after `cache_reset`,
`cache_flush` leaves in the backing store, at every address, the byte of the flat
memory obtained by applying the writes in order to the initial backing store; in
particular a single `cache_write(A,v,S)` followed by `cache_flush` leaves `v` at `A`. -/
theorem flush_makes_backing_store_flat (c : Config) (hc : c.Valid) (m0 : MemSys)
    (ops : List Op) (hok : ∀ op ∈ ops, op.ok c) :
    (∀ x, (cache_flush c (cache_run c (cache_reset m0) ops).1).psram x =
      (flat_run m0.psram ops).1 x) ∧
    ∀ (A : Nat) (v : List Nat) (S : Nat), ops = [Op.write A v S] →
      flat_read (cache_flush c (cache_write c (cache_reset m0) A v S)).psram A S = v := by
  have hrun := cache_run_spec c hc ops (cache_reset m0) (inv_reset c m0) hok
  rw [view_reset] at hrun
  have hall : ∀ x, (cache_flush c (cache_run c (cache_reset m0) ops).1).psram x =
      (flat_run m0.psram ops).1 x := by
    intro x
    rw [(cache_flush_spec c hc _ hrun.1).2.2 x, hrun.2.1]
  refine ⟨hall, ?_⟩
  intro A v S hops
  subst hops
  have hw : (Op.write A v S).ok c := hok _ (by simp)
  have e : (cache_flush c (cache_write c (cache_reset m0) A v S)).psram =
      flat_write m0.psram A v S := by
    funext x
    exact hall x
  rw [e, flat_read_write _ _ _ _ hw.2.2.2]

theorem flush_makes_backing_store_flat_witness :
    cfg67.Valid ∧ (∀ op ∈ alternatingOps, op.ok cfg67) ∧
    ∀ x, (cache_flush cfg67 (cache_run cfg67 (cache_reset demoSys) alternatingOps).1).psram x =
      (flat_run demoSys.psram alternatingOps).1 x :=
  ⟨by decide, by decide,
    (flush_makes_backing_store_flat cfg67 (by decide) demoSys alternatingOps (by decide)).1⟩

end TinyRv32


namespace TinyRv32

/-! ## Which way a lookup uses -/

theorem tag_mod (c : Config) (hc : c.Valid) (a : Nat) (ha : a < 2 ^ 24) :
    TAG c a % 65536 = TAG c a :=
  Nat.mod_eq_of_lt (lt_of_lt_of_le (TAG_lt c hc a ha) (tag_bound_16 c hc))

/-- A lookup that misses both ways evicts way 0 when way 0 carries the LRU bit. -/
theorem locate_miss_lru (c : Config) (hc : c.Valid) (m : MemSys) (a : Nat) (ha : a < 2 ^ 24)
    (h0 : ¬ (IS_VALID (m.cache (INDEX c a) 0) = true ∧ (m.cache (INDEX c a) 0).tag = TAG c a))
    (h1 : ¬ (IS_VALID (m.cache (INDEX c a) 1) = true ∧ (m.cache (INDEX c a) 1).tag = TAG c a))
    (hl : IS_LRU (m.cache (INDEX c a) 0) = true) :
    locate c m a =
      (m.setWays (INDEX c a)
        (refill c m.psram (CLEAR_LRU (m.cache (INDEX c a) 0)) (INDEX c a) (TAG c a) a).1
        (SET_LRU (m.cache (INDEX c a) 1))
        (refill c m.psram (CLEAR_LRU (m.cache (INDEX c a) 0)) (INDEX c a) (TAG c a) a).2, 0) := by
  unfold locate
  simp only [index_mod c hc, tag_mod c hc a ha]
  have e0 : (TAG c a == (m.cache (INDEX c a) 0).tag && IS_VALID (m.cache (INDEX c a) 0)) = false := by
    rw [Bool.eq_false_iff]; intro hh
    simp only [Bool.and_eq_true, beq_iff_eq] at hh
    exact h0 ⟨hh.2, hh.1.symm⟩
  have e1 : (TAG c a == (m.cache (INDEX c a) 1).tag && IS_VALID (m.cache (INDEX c a) 1)) = false := by
    rw [Bool.eq_false_iff]; intro hh
    simp only [Bool.and_eq_true, beq_iff_eq] at hh
    exact h1 ⟨hh.2, hh.1.symm⟩
  simp [e0, e1, hl]

/-- A lookup that misses both ways evicts way 1 when way 0 does not carry the LRU bit. -/
theorem locate_miss_nolru (c : Config) (hc : c.Valid) (m : MemSys) (a : Nat)
    (ha : a < 2 ^ 24)
    (h0 : ¬ (IS_VALID (m.cache (INDEX c a) 0) = true ∧ (m.cache (INDEX c a) 0).tag = TAG c a))
    (h1 : ¬ (IS_VALID (m.cache (INDEX c a) 1) = true ∧ (m.cache (INDEX c a) 1).tag = TAG c a))
    (hl : IS_LRU (m.cache (INDEX c a) 0) = false) :
    locate c m a =
      (m.setWays (INDEX c a) (SET_LRU (m.cache (INDEX c a) 0))
        (refill c m.psram (CLEAR_LRU (m.cache (INDEX c a) 1)) (INDEX c a) (TAG c a) a).1
        (refill c m.psram (CLEAR_LRU (m.cache (INDEX c a) 1)) (INDEX c a) (TAG c a) a).2, 1) := by
  unfold locate
  simp only [index_mod c hc, tag_mod c hc a ha]
  have e0 : (TAG c a == (m.cache (INDEX c a) 0).tag && IS_VALID (m.cache (INDEX c a) 0)) = false := by
    rw [Bool.eq_false_iff]; intro hh
    simp only [Bool.and_eq_true, beq_iff_eq] at hh
    exact h0 ⟨hh.2, hh.1.symm⟩
  have e1 : (TAG c a == (m.cache (INDEX c a) 1).tag && IS_VALID (m.cache (INDEX c a) 1)) = false := by
    rw [Bool.eq_false_iff]; intro hh
    simp only [Bool.and_eq_true, beq_iff_eq] at hh
    exact h1 ⟨hh.2, hh.1.symm⟩
  simp [e0, e1, hl]

/-- After any lookup the way it used has its LRU bit clear and holds the tag of the
address as a valid line; the sibling has its LRU bit set; other sets are untouched. -/
theorem locate_lru (c : Config) (hc : c.Valid) (m : MemSys) (a : Nat) (ha : a < 2 ^ 24) :
    (locate c m a).2 < 2 ∧
    IS_VALID ((locate c m a).1.cache (INDEX c a) (locate c m a).2) = true ∧
    ((locate c m a).1.cache (INDEX c a) (locate c m a).2).tag = TAG c a ∧
    IS_LRU ((locate c m a).1.cache (INDEX c a) (locate c m a).2) = false ∧
    IS_LRU ((locate c m a).1.cache (INDEX c a) (1 - (locate c m a).2)) = true := by
  unfold locate
  simp only [index_mod c hc, tag_mod c hc a ha]
  by_cases h0 : (TAG c a == (m.cache (INDEX c a) 0).tag && IS_VALID (m.cache (INDEX c a) 0)) = true
  · rw [if_pos h0]
    simp only [Bool.and_eq_true, beq_iff_eq] at h0
    simp [setWays_cache, h0.2]
    simp [CLEAR_LRU, h0.1]
  · rw [if_neg h0]
    by_cases h1 : (TAG c a == (m.cache (INDEX c a) 1).tag && IS_VALID (m.cache (INDEX c a) 1)) = true
    · rw [if_pos h1]
      simp only [Bool.and_eq_true, beq_iff_eq] at h1
      simp [setWays_cache, h1.2]
      simp [CLEAR_LRU, h1.1]
    · rw [if_neg h1]
      by_cases hl : IS_LRU (m.cache (INDEX c a) 0) = true
      · rw [if_pos hl]
        simp [setWays_cache, refill, SET_VALID]
        exact ⟨by simp [IS_VALID], by simp [IS_LRU]⟩
      · rw [if_neg hl]
        simp [setWays_cache, refill, SET_VALID]
        exact ⟨by simp [IS_VALID], by simp [IS_LRU]⟩

theorem locate_other_set (c : Config) (hc : c.Valid) (m : MemSys) (a idx w : Nat)
    (h : INDEX c a ≠ idx) : (locate c m a).1.cache idx w = m.cache idx w := by
  have h' : ¬ (idx = INDEX c a) := fun e => h e.symm
  unfold locate
  simp only [index_mod c hc]
  split_ifs <;> simp [setWays_cache, h']

theorem step_other_set (c : Config) (hc : c.Valid) (m : MemSys) (op : Op) (idx w : Nat)
    (h : op.avoidsSet c idx) : (cache_step c m op).1.cache idx w = m.cache idx w := by
  cases op with
  | read a s => exact locate_other_set c hc m a idx w h
  | write a p s =>
    have h' : ¬ (idx = INDEX c a) := fun e => h e.symm
    simp only [cache_step, cache_write, index_mod c hc, setLine_cache]
    rw [if_neg (fun e => h' e.1)]
    exact locate_other_set c hc m a idx w h
  | flush => rfl

theorem run_other_set (c : Config) (hc : c.Valid) (ops : List Op) (idx w : Nat) :
    ∀ (m : MemSys), (∀ op ∈ ops, op.avoidsSet c idx) →
      (cache_run c m ops).1.cache idx w = m.cache idx w := by
  induction ops with
  | nil => intro m _; rfl
  | cons op ops ih =>
    intro m h
    simp only [cache_run]
    rw [ih _ (fun o ho => h o (List.mem_cons_of_mem _ ho)),
      step_other_set c hc m op idx w (h op (List.mem_cons_self _ _))]

/-- The state of the accessed set after a `cache_read` or `cache_write` at `a`, in terms
of the lookup: tag and validity of both ways, and the data of the way not used. -/
theorem step_access (c : Config) (hc : c.Valid) (m : MemSys) (op : Op) (a : Nat)
    (h : op.accessAt a) (w : Nat) :
    ((cache_step c m op).1.cache (INDEX c a) w).tag =
        ((locate c m a).1.cache (INDEX c a) w).tag ∧
      IS_VALID ((cache_step c m op).1.cache (INDEX c a) w) =
        IS_VALID ((locate c m a).1.cache (INDEX c a) w) ∧
      IS_LRU ((cache_step c m op).1.cache (INDEX c a) w) =
        IS_LRU ((locate c m a).1.cache (INDEX c a) w) ∧
      (w ≠ (locate c m a).2 → (cache_step c m op).1.cache (INDEX c a) w =
        (locate c m a).1.cache (INDEX c a) w) ∧
      (cache_step c m op).1.psram = (locate c m a).1.psram := by
  cases op with
  | read a' s =>
    have : a' = a := h
    subst this
    exact ⟨rfl, rfl, rfl, fun _ => rfl, rfl⟩
  | write a' p s =>
    have : a' = a := h
    subst this
    simp only [cache_step, cache_write, index_mod c hc, setLine_cache]
    by_cases hw : w = (locate c m a').2
    · subst hw
      simp [SET_DIRTY, IS_VALID_eq, IS_LRU_eq, Nat.testBit_or, tb_2_0, tb_2_2]
      rfl
    · simp [hw]
      rfl
  | flush => exact absurd h (by simp [Op.accessAt])

end TinyRv32


namespace TinyRv32

/-! ## Victim selection -/

theorem refill_flags (c : Config) (psram : Mem) (line : Cacheline) (idx tag a : Nat) :
    IS_VALID (refill c psram line idx tag a).1 = true ∧
    IS_DIRTY (refill c psram line idx tag a).1 = false ∧
    IS_LRU (refill c psram line idx tag a).1 = false ∧
    (refill c psram line idx tag a).1.tag = tag :=
  ⟨by simp [refill], by simp [refill], by simp [refill], by simp [refill, SET_VALID]⟩

end TinyRv32


namespace TinyRv32

theorem ok_addr_lt (c : Config) (op : Op) (a : Nat) (h : op.accessAt a) (hok : op.ok c) :
    a < 2 ^ 24 := by
  cases op with
  | read a' s => have : a' = a := h; subst this; exact hok.2.1
  | write a' p s => have : a' = a := h; subst this; exact hok.2.1
  | flush => exact absurd h (by simp [Op.accessAt])

theorem setWays_way0 (m : MemSys) (i : Nat) (x y : Cacheline) (p : Mem) :
    (m.setWays i x y p).cache i 0 = x := by simp [setWays_cache]

theorem setWays_way1 (m : MemSys) (i : Nat) (x y : Cacheline) (p : Mem) :
    (m.setWays i x y p).cache i 1 = y := by simp [setWays_cache]

/-- The effect of a miss on the PSRAM: the victim's line is written back at its
`flush_base` address when it is dirty, and nothing is written otherwise. -/
theorem refill_psram (c : Config) (hc : c.Valid) (psram : Mem) (line : Cacheline)
    (idx tag a : Nat) (ha : a < 2 ^ 24) (hidx : idx < 2 ^ c.INDEX_BITS)
    (hb : IS_DIRTY line = true →
      line.tag < 2 ^ (ADDR_BITS - c.OFFSET_BITS - c.INDEX_BITS)) :
    (IS_DIRTY line = true → ∀ j, j < CACHE_LINE_SIZE c →
      (refill c psram line idx tag a).2 (flush_base c line idx + j) = line.data j) ∧
    (IS_DIRTY line = false → (refill c psram line idx tag a).2 = psram) := by
  have hL : 0 < 2 ^ c.OFFSET_BITS := Nat.two_pow_pos _
  obtain ⟨_, _, _, _, _, r6⟩ := refill_spec c hc psram line idx tag a ha hidx hb
  constructor
  · intro hd j hj
    rw [CACHE_LINE_SIZE_eq] at hj
    rw [r6, (flush_base_line c hc line idx hidx (hb hd)).1]
    have hdiv : (2 ^ c.OFFSET_BITS * lineNo c line.tag idx + j) / 2 ^ c.OFFSET_BITS
        = lineNo c line.tag idx := by
      rw [Nat.mul_add_div hL, Nat.div_eq_of_lt hj]; rfl
    rw [if_pos ⟨hd, hdiv⟩, Nat.mul_add_mod, Nat.mod_eq_of_lt hj]
  · intro hd
    funext x
    rw [r6, if_neg (by rw [hd]; simp)]

/-- Which way a miss evicts.  Take a reachable state, an access to set `INDEX a2` with
tag `TAG a2`, then any well-formed calls that do not look up the set.  If in the
resulting state both ways of the set are valid, way `w2` holding `TAG a2` and way `w1`
holding another tag, then an access to the set with a third tag makes way `w1` valid
with the new tag, leaves tag and data of way `w2` unchanged, and writes the old line of
way `w1` to the PSRAM at its `flush_base` address when it was dirty (and writes nothing
to the PSRAM when it was clean). -/
theorem lru_victim_ways (c : Config) (hc : c.Valid) (m0 : MemSys)
    (h0 : Reachable c m0) (op2 : Op) (a2 : Nat) (hop2 : op2.accessAt a2) (hok2 : op2.ok c)
    (others : List Op) (hoth : ∀ op ∈ others, op.ok c ∧ op.avoidsSet c (INDEX c a2))
    (m : MemSys) (hm : m = (cache_run c (cache_step c m0 op2).1 others).1)
    (w1 w2 : Nat) (hw1 : w1 < 2) (hw2 : w2 < 2)
    (hv1 : IS_VALID (m.cache (INDEX c a2) w1) = true)
    (hv2 : IS_VALID (m.cache (INDEX c a2) w2) = true)
    (ht2 : (m.cache (INDEX c a2) w2).tag = TAG c a2)
    (ht1 : (m.cache (INDEX c a2) w1).tag ≠ TAG c a2)
    (op3 : Op) (a3 : Nat) (hop3 : op3.accessAt a3) (hok3 : op3.ok c)
    (hi3 : INDEX c a3 = INDEX c a2)
    (ht31 : TAG c a3 ≠ (m.cache (INDEX c a2) w1).tag) (ht32 : TAG c a3 ≠ TAG c a2) :
    IS_VALID ((cache_step c m op3).1.cache (INDEX c a2) w1) = true ∧
    ((cache_step c m op3).1.cache (INDEX c a2) w1).tag = TAG c a3 ∧
    ((cache_step c m op3).1.cache (INDEX c a2) w2).tag = TAG c a2 ∧
    ((cache_step c m op3).1.cache (INDEX c a2) w2).data = (m.cache (INDEX c a2) w2).data ∧
    (IS_DIRTY (m.cache (INDEX c a2) w1) = true → ∀ j, j < CACHE_LINE_SIZE c →
      (cache_step c m op3).1.psram (flush_base c (m.cache (INDEX c a2) w1) (INDEX c a2) + j)
        = (m.cache (INDEX c a2) w1).data j) ∧
    (IS_DIRTY (m.cache (INDEX c a2) w1) = false → (cache_step c m op3).1.psram = m.psram) := by
  have ha2 := ok_addr_lt c op2 a2 hop2 hok2
  have ha3 := ok_addr_lt c op3 a3 hop3 hok3
  -- the invariant holds in `m`
  have hinv0 := reachable_inv c hc m0 h0
  have hinv1 := (cache_step_spec c hc m0 hinv0 op2 hok2).1
  have hinv : Inv c m := by
    rw [hm]; exact (cache_run_spec c hc others _ hinv1 (fun o ho => (hoth o ho).1)).1
  -- the LRU bits of the set in `m` are those the access at `a2` left
  have hset : ∀ w, m.cache (INDEX c a2) w = (cache_step c m0 op2).1.cache (INDEX c a2) w := by
    intro w; rw [hm]; exact run_other_set c hc others _ w _ (fun o ho => (hoth o ho).2)
  obtain ⟨k2, kv, kt, kl, ks⟩ := locate_lru c hc m0 a2 ha2
  have hused := step_access c hc m0 op2 a2 hop2 (locate c m0 a2).2
  have hsib := step_access c hc m0 op2 a2 hop2 (1 - (locate c m0 a2).2)
  rw [← hset] at hused hsib
  rw [kt] at hused
  rw [ks] at hsib
  rw [kl] at hused
  generalize (locate c m0 a2).2 = w at k2 hused hsib
  -- way `w1` is the sibling of the way used, way `w2` is the way used
  have e1 : w1 = 1 - w := by
    have : w1 ≠ w := by
      rintro rfl
      exact ht1 hused.1
    omega
  have e2 : w2 = w := by
    by_contra hne
    have : w2 = w1 := by omega
    rw [this] at ht2
    exact ht1 ht2
  have lru1 : IS_LRU (m.cache (INDEX c a2) w1) = true := by rw [e1]; exact hsib.2.2.1
  have lru2 : IS_LRU (m.cache (INDEX c a2) w2) = false := by rw [e2]; exact hused.2.2.1
  -- the access at `a3` misses both ways
  have hw1' : w1 = 0 ∨ w1 = 1 := by omega
  have hbd : IS_DIRTY (CLEAR_LRU (m.cache (INDEX c a3) w1)) = true →
      (CLEAR_LRU (m.cache (INDEX c a3) w1)).tag <
        2 ^ (ADDR_BITS - c.OFFSET_BITS - c.INDEX_BITS) := by
    intro hd
    rw [dirty_CLEAR_LRU] at hd
    exact (hinv.bound _ _ (hinv.dirty_valid _ _ hd)).2
  have hps := refill_psram c hc m.psram (CLEAR_LRU (m.cache (INDEX c a3) w1)) (INDEX c a3)
    (TAG c a3) a3 ha3 (INDEX_lt c a3) hbd
  have hfl := refill_flags c m.psram (CLEAR_LRU (m.cache (INDEX c a3) w1)) (INDEX c a3)
    (TAG c a3) a3
  rw [dirty_CLEAR_LRU] at hps
  have hfb : flush_base c (CLEAR_LRU (m.cache (INDEX c a3) w1)) (INDEX c a3) =
      flush_base c (m.cache (INDEX c a3) w1) (INDEX c a3) := rfl
  have hdat : (CLEAR_LRU (m.cache (INDEX c a3) w1)).data = (m.cache (INDEX c a3) w1).data := rfl
  rw [hfb, hdat] at hps
  obtain ⟨s1t, s1v, _, _, sp⟩ := step_access c hc m op3 a3 hop3 w1
  obtain ⟨_, _, _, s2e, _⟩ := step_access c hc m op3 a3 hop3 w2
  rw [← hi3] at ht1 ht2 ht31 hv1 hv2 lru1 lru2 ⊢
  rcases hw1' with rfl | rfl
  · -- way 0 carries the LRU bit and is the victim
    have e2' : w2 = 1 := by omega
    subst e2'
    have hloc := locate_miss_lru c hc m a3 ha3 (fun h => ht31 h.2.symm)
      (by rw [ht2]; exact fun h => ht32 h.2.symm) lru1
    rw [hloc] at s1t s1v s2e sp
    rw [setWays_way0] at s1t s1v
    rw [setWays_way1] at s2e
    have s2 := s2e (by norm_num)
    refine ⟨by rw [s1v]; exact hfl.1, by rw [s1t]; exact hfl.2.2.2, ?_, ?_, ?_, ?_⟩
    · rw [s2]; exact ht2
    · rw [s2]; rfl
    · intro hd j hj; rw [sp]; exact hps.1 hd j hj
    · intro hd; rw [sp]; exact hps.2 hd
  · -- way 0 was used last: way 1 is the victim
    have e2' : w2 = 0 := by omega
    subst e2'
    have hloc := locate_miss_nolru c hc m a3 ha3
      (by rw [ht2]; exact fun h => ht32 h.2.symm) (fun h => ht31 h.2.symm) lru2
    rw [hloc] at s1t s1v s2e sp
    rw [setWays_way1] at s1t s1v
    rw [setWays_way0] at s2e
    have s2 := s2e (by norm_num)
    refine ⟨by rw [s1v]; exact hfl.1, by rw [s1t]; exact hfl.2.2.2, ?_, ?_, ?_, ?_⟩
    · rw [s2]; exact ht2
    · rw [s2]; rfl
    · intro hd j hj; rw [sp]; exact hps.1 hd j hj
    · intro hd; rw [sp]; exact hps.2 hd

end TinyRv32


namespace TinyRv32

end TinyRv32


namespace TinyRv32

/-! ## Little-endian words -/

theorem le_bytes_four (v : Nat) :
    le_bytes 4 v = [v % 256, (v >>> 8) % 256, (v >>> 16) % 256, (v >>> 24) % 256] := by
  simp [le_bytes, List.range_succ]

theorem le_bytes_length (n v : Nat) : (le_bytes n v).length = n := by
  simp [le_bytes]

theorem le_value_four (b0 b1 b2 b3 : Nat) :
    le_value [b0, b1, b2, b3] =
      b0 % 256 + 256 * (b1 % 256 + 256 * (b2 % 256 + 256 * (b3 % 256))) := by
  simp [le_value]

theorem le_value_lt_four (bs : List Nat) (h : bs.length = 4) : le_value bs < 4294967296 := by
  match bs, h with
  | [b0, b1, b2, b3], _ =>
    rw [le_value_four]
    have := Nat.mod_lt b0 (show 0 < 256 by norm_num)
    have := Nat.mod_lt b1 (show 0 < 256 by norm_num)
    have := Nat.mod_lt b2 (show 0 < 256 by norm_num)
    have := Nat.mod_lt b3 (show 0 < 256 by norm_num)
    omega

theorem le_bytes_value_four (b0 b1 b2 b3 : Nat) (h0 : b0 < 256) (h1 : b1 < 256)
    (h2 : b2 < 256) (h3 : b3 < 256) :
    le_bytes 4 (le_value [b0, b1, b2, b3]) = [b0, b1, b2, b3] := by
  rw [le_bytes_four, le_value_four]
  simp only [Nat.shiftRight_eq_div_pow]
  norm_num
  refine ⟨?_, ?_, ?_, ?_⟩ <;> omega

theorem le_value_bytes_four (v : Nat) (hv : v < 4294967296) : le_value (le_bytes 4 v) = v := by
  rw [le_bytes_four, le_value_four]
  simp only [Nat.shiftRight_eq_div_pow]
  norm_num
  omega

theorem flat_read_four (mem : Mem) (a : Nat) :
    flat_read mem a 4 = [mem a, mem (a + 1), mem (a + 2), mem (a + 3)] := by
  simp [flat_read, List.range_succ]

/-! ## Aligned words stay inside a line -/

theorem aligned_in_line (c : Config) (hob : 2 ≤ c.OFFSET_BITS) (a : Nat) (ha : a % 4 = 0) :
    OFFSET c a + 4 ≤ CACHE_LINE_SIZE c := by
  rw [OFFSET_eq, CACHE_LINE_SIZE_eq]
  have hd : 4 ∣ 2 ^ c.OFFSET_BITS := by
    have : (4 : Nat) = 2 ^ 2 := by norm_num
    rw [this]
    exact Nat.pow_dvd_pow 2 hob
  obtain ⟨k, hk⟩ := hd
  have h1 : a % 2 ^ c.OFFSET_BITS % 4 = a % 4 := Nat.mod_mod_of_dvd a ⟨k, hk⟩
  have h2 : a % 2 ^ c.OFFSET_BITS < 2 ^ c.OFFSET_BITS := Nat.mod_lt _ (Nat.two_pow_pos _)
  omega

theorem LOAD4_spec (c : Config) (hc : c.Valid) (hob : 2 ≤ c.OFFSET_BITS) (m : MemSys)
    (hinv : Inv c m) (a : Nat) (ha : a < 2 ^ 24) (h4 : a % 4 = 0) :
    Inv c (MINIRV32_LOAD4 c m a).1 ∧
      view c (MINIRV32_LOAD4 c m a).1 = view c m ∧
      (MINIRV32_LOAD4 c m a).2 = le_value (flat_read (view c m) a 4) := by
  have h32 : a % 4294967296 = a := Nat.mod_eq_of_lt (lt_trans ha (by norm_num))
  unfold MINIRV32_LOAD4
  rw [h32]
  obtain ⟨h1, h2, h3⟩ := cache_read_spec c hc m hinv a 4 ha (by norm_num)
    (aligned_in_line c hob a h4)
  exact ⟨h1, funext h2, by show le_value (cache_read c m a 4).2 = _; rw [h3]⟩

theorem STORE4_spec (c : Config) (hc : c.Valid) (hob : 2 ≤ c.OFFSET_BITS) (m : MemSys)
    (hinv : Inv c m) (a v : Nat) (ha : a < 2 ^ 24) (h4 : a % 4 = 0) :
    Inv c (MINIRV32_STORE4 c m a v) ∧
      view c (MINIRV32_STORE4 c m a v) = flat_write (view c m) a (le_bytes 4 v) 4 := by
  have h32 : a % 4294967296 = a := Nat.mod_eq_of_lt (lt_trans ha (by norm_num))
  unfold MINIRV32_STORE4
  rw [h32]
  obtain ⟨h1, h2⟩ := cache_write_spec c hc m hinv a (le_bytes 4 v) 4 ha (by norm_num)
    (aligned_in_line c hob a h4)
  exact ⟨h1, funext h2⟩

end TinyRv32


namespace TinyRv32

/-! ## Block transfer, guest to storage -/

theorem le_roundtrip_getD (mem : Mem) (a k : Nat) (hk : k < 4)
    (hb : ∀ x, a ≤ x → x < a + 4 → mem x < 256) :
    (le_bytes 4 (le_value (flat_read mem a 4))).getD k 0 = mem (a + k) := by
  rw [flat_read_four, le_bytes_value_four _ _ _ _ (hb a (by omega) (by omega))
    (hb (a + 1) (by omega) (by omega)) (hb (a + 2) (by omega) (by omega))
    (hb (a + 3) (by omega) (by omega))]
  have hk' : k = 0 ∨ k = 1 ∨ k = 2 ∨ k = 3 := by omega
  rcases hk' with rfl | rfl | rfl | rfl <;> rfl

theorem blk_fill_spec (c : Config) (hc : c.Valid) (hob : 2 ≤ c.OFFSET_BITS) (n : Nat) :
    ∀ (i : Nat) (vm : VM), Inv c vm.mem → vm.blk_ram_ptr % 4 = 0 →
      vm.blk_ram_ptr + 4 * n ≤ 2 ^ 24 →
      (∀ a, vm.blk_ram_ptr ≤ a → a < vm.blk_ram_ptr + 4 * n → view c vm.mem a < 256) →
      Inv c (blk_fill c n i vm).mem ∧
      view c (blk_fill c n i vm).mem = view c vm.mem ∧
      (blk_fill c n i vm).blk_ram_ptr = vm.blk_ram_ptr + 4 * n ∧
      (∀ j, (blk_fill c n i vm).blk_buf j =
        if 4 * i ≤ j ∧ j < 4 * (i + n) then view c vm.mem (vm.blk_ram_ptr + (j - 4 * i))
        else vm.blk_buf j) ∧
      (blk_fill c n i vm).sto = vm.sto := by
  induction n with
  | zero =>
    intro i vm hinv _ _ _
    refine ⟨hinv, rfl, rfl, ?_, rfl⟩
    intro j
    have : ¬ (4 * i ≤ j ∧ j < 4 * (i + 0)) := by omega
    rw [if_neg this]; rfl
  | succ n ih =>
    intro i vm hinv h4 hle hb
    have ha : vm.blk_ram_ptr < 2 ^ 24 := by omega
    obtain ⟨l1, l2, l3⟩ := LOAD4_spec c hc hob vm.mem hinv vm.blk_ram_ptr ha h4
    have hp : (vm.blk_ram_ptr + 4) % 4294967296 = vm.blk_ram_ptr + 4 :=
      Nat.mod_eq_of_lt (by
        have : (2:Nat) ^ 24 = 16777216 := by norm_num
        omega)
    rw [blk_fill]
    simp only [hp]
    obtain ⟨g1, g2, g3, g4, g5⟩ := ih (i + 1)
      { vm with mem := (MINIRV32_LOAD4 c vm.mem vm.blk_ram_ptr).1
                blk_buf := buf_store vm.blk_buf (4 * i)
                  (le_bytes 4 (MINIRV32_LOAD4 c vm.mem vm.blk_ram_ptr).2)
                blk_ram_ptr := vm.blk_ram_ptr + 4 }
      l1 (by show (vm.blk_ram_ptr + 4) % 4 = 0; omega)
      (by show vm.blk_ram_ptr + 4 + 4 * n ≤ 2 ^ 24; omega)
      (by intro a h1 h2
          show view c (MINIRV32_LOAD4 c vm.mem vm.blk_ram_ptr).1 a < 256
          rw [l2]
          exact hb a (by have : vm.blk_ram_ptr + 4 ≤ a := h1
                         omega)
            (by have : a < vm.blk_ram_ptr + 4 + 4 * n := h2
                omega))
    refine ⟨g1, by rw [g2]; exact l2, by rw [g3]; show vm.blk_ram_ptr + 4 + 4 * n = _; omega,
      ?_, g5⟩
    intro j
    rw [g4 j]
    show (if 4 * (i + 1) ≤ j ∧ j < 4 * (i + 1 + n) then
        view c (MINIRV32_LOAD4 c vm.mem vm.blk_ram_ptr).1 (vm.blk_ram_ptr + 4 + (j - 4 * (i + 1)))
      else buf_store vm.blk_buf (4 * i)
        (le_bytes 4 (MINIRV32_LOAD4 c vm.mem vm.blk_ram_ptr).2) j) = _
    rw [l2, l3]
    by_cases h1 : 4 * (i + 1) ≤ j ∧ j < 4 * (i + 1 + n)
    · rw [if_pos h1, if_pos (by omega)]
      congr 1; omega
    · rw [if_neg h1]
      unfold buf_store
      rw [le_bytes_length]
      by_cases h2 : 4 * i ≤ j ∧ j < 4 * i + 4
      · rw [if_pos h2, if_pos (by omega)]
        exact le_roundtrip_getD _ _ _ (by omega)
          (fun x hx1 hx2 => hb x hx1 (by omega))
      · rw [if_neg h2, if_neg (by omega)]

theorem pf_write_log (s : Storage) (bytes : List Nat) :
    (pf_write s bytes).2.log = s.log ++ [StorageOp.write bytes] := by
  simp only [pf_write, Storage.request]
  split_ifs <;> rfl

theorem pf_lseek_log (s : Storage) (ofs : Nat) :
    (pf_lseek s ofs).2.log = s.log ++ [StorageOp.lseek ofs] := by
  simp only [pf_lseek, Storage.request]
  split_ifs <;> rfl

theorem flat_read_add (mem : Mem) (P a b : Nat) :
    flat_read mem P (a + b) = flat_read mem P a ++ flat_read mem (P + a) b := by
  unfold flat_read
  rw [List.range_add, List.map_append, List.map_map]
  congr 1
  apply List.map_congr_left
  intro i _
  simp [Nat.add_assoc]

theorem flat_read_sectors (mem : Mem) (P k : Nat) :
    (List.range k).flatMap (fun s => flat_read mem (P + 512 * s) 512) =
      flat_read mem P (512 * k) := by
  induction k with
  | zero => simp [flat_read]
  | succ k ih =>
    rw [List.range_succ, List.flatMap_append, ih, Nat.mul_succ, flat_read_add]
    simp

theorem blk_transfer_write_spec (c : Config) (hc : c.Valid) (hob : 2 ≤ c.OFFSET_BITS)
    (value : Nat) (hv : value ≠ 0) (nblocks : Nat) :
    ∀ (vm : VM), Inv c vm.mem → vm.blk_ram_ptr % 4 = 0 →
      vm.blk_ram_ptr + 512 * nblocks ≤ 2 ^ 24 →
      (∀ a, vm.blk_ram_ptr ≤ a → a < vm.blk_ram_ptr + 512 * nblocks →
        view c vm.mem a < 256) →
      Inv c (blk_transfer c value nblocks vm).mem ∧
      view c (blk_transfer c value nblocks vm).mem = view c vm.mem ∧
      (blk_transfer c value nblocks vm).sto.log = vm.sto.log ++
        (List.range nblocks).map (fun s =>
          StorageOp.write (flat_read (view c vm.mem) (vm.blk_ram_ptr + 512 * s) 512)) := by
  induction nblocks with
  | zero => intro vm hinv _ _ _; exact ⟨hinv, rfl, by simp [blk_transfer]⟩
  | succ n ih =>
    intro vm hinv h4 hle hb
    obtain ⟨f1, f2, f3, f4, f5⟩ := blk_fill_spec c hc hob 128 0 vm hinv h4 (by omega)
      (fun a h1 h2 => hb a h1 (by omega))
    rw [blk_transfer, if_pos hv]
    generalize blk_fill c 128 0 vm = vmf at f1 f2 f3 f4 f5 ⊢
    have hbuf : buf_bytes vmf.blk_buf 0 512 =
        flat_read (view c vm.mem) vm.blk_ram_ptr 512 := by
      unfold buf_bytes flat_read
      apply List.map_congr_left
      intro j hj
      rw [List.mem_range] at hj
      rw [f4, if_pos (by omega)]
      congr 1; omega
    obtain ⟨g1, g2, g3⟩ := ih
      { vmf with
        sto := (pf_write vmf.sto (buf_bytes vmf.blk_buf 0 512)).2
        blk_err := (pf_write vmf.sto (buf_bytes vmf.blk_buf 0 512)).1 }
      f1 (by show vmf.blk_ram_ptr % 4 = 0; rw [f3]; omega)
      (by show vmf.blk_ram_ptr + 512 * n ≤ 2 ^ 24; rw [f3]; omega)
      (by intro a h1 h2
          show view c vmf.mem a < 256
          rw [f2]
          have h1' : vmf.blk_ram_ptr ≤ a := h1
          have h2' : a < vmf.blk_ram_ptr + 512 * n := h2
          rw [f3] at h1' h2'
          exact hb a (by omega) (by omega))
    refine ⟨g1, by rw [g2]; exact f2, ?_⟩
    rw [g3]
    show (pf_write vmf.sto (buf_bytes vmf.blk_buf 0 512)).2.log ++
      (List.range n).map (fun s => StorageOp.write
        (flat_read (view c vmf.mem) (vmf.blk_ram_ptr + 512 * s) 512)) = _
    rw [pf_write_log, hbuf, f5, f2, f3, List.range_succ_eq_map, List.map_cons, List.map_map,
      List.append_assoc]
    refine congrArg (fun l => vm.sto.log ++ l) ?_
    rw [List.singleton_append, Nat.mul_zero]
    simp only [Nat.add_zero]
    refine List.cons_eq_cons.mpr ⟨rfl, ?_⟩
    apply List.map_congr_left
    intro s _
    have e : vm.blk_ram_ptr + 4 * 128 + 512 * s = vm.blk_ram_ptr + 512 * (s + 1) := by omega
    simp only [Function.comp, Nat.succ_eq_add_one]
    rw [e]

end TinyRv32


namespace TinyRv32

/-- C5: guest-to-storage block transfer copies guest memory byte for byte.  For a
reachable cache state whose guest-visible RAM holds bytes, a 4-byte-aligned pointer `P`
with `P + N` inside RAM (at most `2^24` bytes), a size `N` that is a multiple of 512,
any offset `O` and any non-zero `value`: the CSR writes `0x151 = 0x80000000 + P`,
`0x152 = O`, `0x153 = N`, `0x154 = value` ask the storage façade for a seek to `O` and
then for exactly `N / 512` writes of the 512 guest-visible bytes from `P + 512 * s` on,
whose concatenation is the guest-visible memory `P .. P+N-1`; guest-visible memory is
unchanged. -/
theorem block_write_transfer_copies_memory (cfg : VmConfig) (hc : cfg.cache.Valid)
    (hob : 2 ≤ cfg.cache.OFFSET_BITS) (hoff : cfg.MINIRV32_RAM_IMAGE_OFFSET = 0x80000000)
    (vm : VM) (hreach : Reachable cfg.cache vm.mem) (P O N value : Nat)
    (hP : P % 4 = 0) (hram : ram_amt cfg ≤ 2 ^ 24) (hPN : P + N ≤ ram_amt cfg)
    (hN : N % 512 = 0) (hO : O < 4294967296)
    (hv : value % 4294967296 ≠ 0)
    (hbytes : ∀ a, a < ram_amt cfg → view cfg.cache vm.mem a < 256) :
    (blk_request cfg vm (0x80000000 + P) O N value).sto.log =
      vm.sto.log ++ StorageOp.lseek O ::
        (List.range (N / 512)).map (fun s =>
          StorageOp.write (flat_read (view cfg.cache vm.mem) (P + 512 * s) 512)) ∧
    (List.range (N / 512)).flatMap (fun s => flat_read (view cfg.cache vm.mem) (P + 512 * s) 512)
      = flat_read (view cfg.cache vm.mem) P N ∧
    view cfg.cache (blk_request cfg vm (0x80000000 + P) O N value).mem =
      view cfg.cache vm.mem := by
  have h24 : (2:Nat) ^ 24 = 16777216 := by norm_num
  have hinv := reachable_inv cfg.cache hc vm.mem hreach
  have e1 : (0x80000000 + P) % 4294967296 = 0x80000000 + P := Nat.mod_eq_of_lt (by omega)
  have e2 : (0x80000000 + P + 4294967296 - 0x80000000 % 4294967296) % 4294967296 = P := by
    omega
  have e3 : O % 4294967296 = O := Nat.mod_eq_of_lt hO
  have e4 : N % 4294967296 = N := Nat.mod_eq_of_lt (by omega)
  have e5 : (N >>> 9) % 4294967296 = N / 512 := by
    rw [Nat.shiftRight_eq_div_pow]
    exact Nat.mod_eq_of_lt (by norm_num; omega)
  have hN' : 512 * (N / 512) = N := by omega
  have hstate : blk_request cfg vm (0x80000000 + P) O N value =
      blk_transfer cfg.cache (value % 4294967296) (N / 512)
        { vm with blk_ram_ptr := P, blk_offs := O, blk_err := (pf_lseek vm.sto O).1
                  sto := (pf_lseek vm.sto O).2, blk_transfer_size := N } := by
    simp only [blk_request, HandleOtherCSRWrite, hoff, e1, e2, e3, e4]
    norm_num
    rw [e5]
  obtain ⟨g1, g2, g3⟩ := blk_transfer_write_spec cfg.cache hc hob (value % 4294967296) hv
    (N / 512)
    { vm with blk_ram_ptr := P, blk_offs := O, blk_err := (pf_lseek vm.sto O).1
              sto := (pf_lseek vm.sto O).2, blk_transfer_size := N }
    hinv hP (by show P + 512 * (N / 512) ≤ 2 ^ 24; omega)
    (by intro a _ h2
        have h2' : a < P + 512 * (N / 512) := h2
        exact hbytes a (by omega))
  rw [hstate]
  refine ⟨?_, ?_, g2⟩
  · rw [g3]
    show (pf_lseek vm.sto O).2.log ++ _ = _
    rw [pf_lseek_log, List.append_assoc]
    rfl
  · rw [flat_read_sectors, hN']

theorem block_write_transfer_copies_memory_witness :
    (blk_request demoCfg demoVM (0x80000000 + 0x1000) 512 1024 1).sto.log =
      demoVM.sto.log ++ StorageOp.lseek 512 ::
        (List.range (1024 / 512)).map (fun s =>
          StorageOp.write (flat_read (view demoCfg.cache demoVM.mem) (0x1000 + 512 * s) 512)) ∧
    (List.range (1024 / 512)).flatMap
        (fun s => flat_read (view demoCfg.cache demoVM.mem) (0x1000 + 512 * s) 512)
      = flat_read (view demoCfg.cache demoVM.mem) 0x1000 1024 ∧
    view demoCfg.cache (blk_request demoCfg demoVM (0x80000000 + 0x1000) 512 1024 1).mem =
      view demoCfg.cache demoVM.mem :=
  block_write_transfer_copies_memory demoCfg (by decide) (by decide) rfl demoVM
    ⟨demoSys, [], by simp, rfl⟩ 0x1000 512 1024 1 (by decide) (by decide) (by decide)
    (by decide) (by decide) (by decide)
    (by intro a _
        show view cfg67 (cache_reset demoSys) a < 256
        rw [view_reset]
        show a % 251 < 256
        omega)

end TinyRv32


namespace TinyRv32

/-! ## Block transfer: the error latch -/

theorem blk_fill_sto (c : Config) (n : Nat) : ∀ (i : Nat) (vm : VM),
    (blk_fill c n i vm).sto = vm.sto := by
  induction n with
  | zero => intro i vm; rfl
  | succ n ih => intro i vm; rw [blk_fill, ih]

theorem blk_drain_sto (c : Config) (n : Nat) : ∀ (i : Nat) (vm : VM),
    (blk_drain c n i vm).sto = vm.sto ∧ (blk_drain c n i vm).blk_err = vm.blk_err := by
  induction n with
  | zero => intro i vm; exact ⟨rfl, rfl⟩
  | succ n ih =>
    intro i vm
    rw [blk_drain]
    exact ih _ _

theorem pf_write_result (s : Storage) (bytes : List Nat) :
    (pf_write s bytes).1 = s.results.headD 0 ∧ (pf_write s bytes).2.results = s.results.tail := by
  simp only [pf_write, Storage.request]
  split_ifs with h
  · exact ⟨h.symm, rfl⟩
  · exact ⟨rfl, rfl⟩

theorem pf_read_result (s : Storage) (btr : Nat) :
    (pf_read s btr).1 = s.results.headD 0 ∧ (pf_read s btr).2.2.results = s.results.tail := by
  simp only [pf_read, Storage.request]
  split_ifs with h
  · exact ⟨h.symm, rfl⟩
  · exact ⟨rfl, rfl⟩

theorem getD_tail (l : List Nat) (k : Nat) : l.tail.getD k 0 = l.getD (k + 1) 0 := by
  cases l <;> simp

theorem blk_transfer_err (c : Config) (value : Nat) (n : Nat) : ∀ (vm : VM), 0 < n →
    (blk_transfer c value n vm).blk_err = vm.sto.results.getD (n - 1) 0 ∧
      (blk_transfer c value n vm).sto.results = vm.sto.results.drop n := by
  induction n with
  | zero => intro vm h; omega
  | succ n ih =>
    intro vm _
    rw [blk_transfer]
    by_cases hv : value ≠ 0
    · rw [if_pos hv]
      generalize hf : blk_fill c 128 0 vm = vmf
      have hs : vmf.sto = vm.sto := by rw [← hf]; exact blk_fill_sto c 128 0 vm
      have w1 : (pf_write vmf.sto (buf_bytes vmf.blk_buf 0 512)).1 = vm.sto.results.headD 0 := by
        rw [(pf_write_result _ _).1, hs]
      have w2 : (pf_write vmf.sto (buf_bytes vmf.blk_buf 0 512)).2.results =
          vm.sto.results.tail := by
        rw [(pf_write_result _ _).2, hs]
      rcases Nat.eq_zero_or_pos n with rfl | hn
      · simp only [blk_transfer]
        refine ⟨?_, ?_⟩
        · show (pf_write vmf.sto (buf_bytes vmf.blk_buf 0 512)).1 = _
          rw [w1]; cases vm.sto.results <;> simp
        · show (pf_write vmf.sto (buf_bytes vmf.blk_buf 0 512)).2.results = _
          rw [w2]; cases vm.sto.results <;> simp
      · obtain ⟨i1, i2⟩ := ih
          { vmf with sto := (pf_write vmf.sto (buf_bytes vmf.blk_buf 0 512)).2
                     blk_err := (pf_write vmf.sto (buf_bytes vmf.blk_buf 0 512)).1 } hn
        rw [i1, i2]
        show (pf_write vmf.sto (buf_bytes vmf.blk_buf 0 512)).2.results.getD (n - 1) 0 = _ ∧
          (pf_write vmf.sto (buf_bytes vmf.blk_buf 0 512)).2.results.drop n = _
        rw [w2, getD_tail]
        have : n - 1 + 1 = n + 1 - 1 := by omega
        rw [this]
        exact ⟨rfl, by rw [List.drop_tail]⟩
    · rw [if_neg hv]
      obtain ⟨w1, w2⟩ := pf_read_result vm.sto 512
      dsimp only
      generalize hd : blk_drain c 128 0
        { vm with sto := (pf_read vm.sto 512).2.2, blk_err := (pf_read vm.sto 512).1
                  blk_buf := buf_store vm.blk_buf 0 (pf_read vm.sto 512).2.1 } = vmd
      have hs := blk_drain_sto c 128 0
        { vm with sto := (pf_read vm.sto 512).2.2, blk_err := (pf_read vm.sto 512).1
                  blk_buf := buf_store vm.blk_buf 0 (pf_read vm.sto 512).2.1 }
      rw [hd] at hs
      obtain ⟨hs1, hs2⟩ := hs
      have hs1' : vmd.sto = (pf_read vm.sto 512).2.2 := hs1
      have hs2' : vmd.blk_err = (pf_read vm.sto 512).1 := hs2
      rcases Nat.eq_zero_or_pos n with rfl | hn
      · simp only [blk_transfer]
        rw [hs1', hs2', w1, w2]
        cases vm.sto.results <;> simp
      · obtain ⟨i1, i2⟩ := ih vmd hn
        rw [i1, i2, hs1', w2, getD_tail]
        have : n - 1 + 1 = n + 1 - 1 := by omega
        rw [this]
        exact ⟨rfl, by rw [List.drop_tail]⟩

/-- Counterexample to C9 as stated (any failed sector is reported): in a transfer of two
sectors whose first storage write fails with code 1 and whose
second succeeds, both sector operations are performed, and the guest then reads 0
from CSR `0x155`: the error of the first sector is not reported. -/
theorem blk_err_lost_when_later_sector_succeeds :
    failVM.sto.results = [1, 0] ∧
    (HandleOtherCSRWrite demoCfg failVM 0x154 1).sto.log.length = 2 ∧
    (HandleOtherCSRWrite demoCfg failVM 0x154 1).sto.results = [] ∧
    (HandleOtherCSRRead (fun _ => 0) (HandleOtherCSRWrite demoCfg failVM 0x154 1) 0x155).1
      = 0 := by
  decide

/-- C9 (amended): block-transfer storage errors.  For a block transfer started by a
write of CSR `0x154` with at least one sector latched, in either direction, each
sector performs one storage operation and its result code is assigned to `blk_err`;
the next guest read of CSR `0x155` returns the result code of the last sector
operation.  It is non-zero exactly when that last operation failed, and it is 0 when
every sector operation succeeded. -/
theorem blk_err_is_last_sector_result (cfg : VmConfig) (custom_csr_read : Nat → Nat)
    (vm : VM) (value : Nat) (h : 0 < (vm.blk_transfer_size >>> 9) % 4294967296) :
    (HandleOtherCSRRead custom_csr_read (HandleOtherCSRWrite cfg vm 0x154 value) 0x155).1 =
      vm.sto.results.getD ((vm.blk_transfer_size >>> 9) % 4294967296 - 1) 0 % 4294967296 ∧
    (HandleOtherCSRWrite cfg vm 0x154 value).sto.results =
      vm.sto.results.drop ((vm.blk_transfer_size >>> 9) % 4294967296) ∧
    ((∀ k, k < (vm.blk_transfer_size >>> 9) % 4294967296 → vm.sto.results.getD k 0 = 0) →
      (HandleOtherCSRRead custom_csr_read (HandleOtherCSRWrite cfg vm 0x154 value) 0x155).1
        = 0) := by
  have hw : HandleOtherCSRWrite cfg vm 0x154 value =
      blk_transfer cfg.cache (value % 4294967296)
        ((vm.blk_transfer_size >>> 9) % 4294967296) vm := by
    simp [HandleOtherCSRWrite]
  obtain ⟨e1, e2⟩ := blk_transfer_err cfg.cache (value % 4294967296) _ vm h
  have hr : ∀ v : VM, (HandleOtherCSRRead custom_csr_read v 0x155).1 =
      v.blk_err % 4294967296 := by
    intro v; simp [HandleOtherCSRRead]
  rw [hw, hr, e1]
  refine ⟨rfl, e2, ?_⟩
  intro hall
  rw [hall _ (by omega)]

theorem blk_err_is_last_sector_result_witness :
    (HandleOtherCSRRead (fun _ => 0) (HandleOtherCSRWrite demoCfg failVM 0x154 0) 0x155).1 =
      failVM.sto.results.getD ((failVM.blk_transfer_size >>> 9) % 4294967296 - 1) 0
        % 4294967296 ∧
    (HandleOtherCSRWrite demoCfg failVM 0x154 0).sto.results =
      failVM.sto.results.drop ((failVM.blk_transfer_size >>> 9) % 4294967296) ∧
    ((∀ k, k < (failVM.blk_transfer_size >>> 9) % 4294967296 →
        failVM.sto.results.getD k 0 = 0) →
      (HandleOtherCSRRead (fun _ => 0) (HandleOtherCSRWrite demoCfg failVM 0x154 0) 0x155).1
        = 0) :=
  blk_err_is_last_sector_result demoCfg (fun _ => 0) failVM 0 (by decide)

end TinyRv32


namespace TinyRv32

/-! ## The execution loop of `start_vm` -/

/-- C7: with a batch that returns the fatal-fault code 3 and no hibernate request
pending, `case 3` sets `instct = 0`, the loop condition `rt < instct + 1 || instct < 0`
fails at the next test (`rt` is `4096` by then), and control reaches the closing
brace of `start_vm`, which has no `return` statement there: the function ends without
a return value, whatever fuel the loop is given, and without any write to the
power-state registry. -/
theorem fatal_fault_reaches_end_without_return (fuel : Nat) :
    (vm_loop demoCfg faultStep (fuel + 2) demoVM 0 (-1) 0).1 = Outcome.noReturn ∧
    (vm_loop demoCfg faultStep (fuel + 2) demoVM 0 (-1) 0).2.sto.log = [] := by
  have h1 : loop_cond 0 (-1) := by decide
  have h2 : ¬ loop_cond ((0 + instrs_per_flip demoCfg) % 18446744073709551616) 0 := by decide
  have hh : demoVM.hibernate_request = 0 := rfl
  rw [vm_loop]
  simp only [h1, not_true_eq_false, if_false, faultStep, hh, ne_eq, not_true_eq_false]
  norm_num
  rw [vm_loop]
  simp only [h2, not_false_eq_true, if_true]
  exact ⟨rfl, rfl⟩

end TinyRv32


namespace TinyRv32

/-! ## The device-tree base address patch -/

theorem word_fields (b0 b1 b2 b3 : Nat) (h0 : b0 < 256) (h1 : b1 < 256) (h2 : b2 < 256) :
    (b0 + 256 * b1 + 65536 * b2 + 16777216 * b3) % 256 = b0 ∧
    (b0 + 256 * b1 + 65536 * b2 + 16777216 * b3) / 256 % 256 = b1 ∧
    (b0 + 256 * b1 + 65536 * b2 + 16777216 * b3) / 65536 % 256 = b2 ∧
    (b0 + 256 * b1 + 65536 * b2 + 16777216 * b3) / 16777216 = b3 := by
  refine ⟨?_, ?_, ?_, ?_⟩ <;> omega

theorem word_split (v : Nat) :
    v = v % 256 + 256 * (v / 256 % 256) + 65536 * (v / 65536 % 256)
      + 16777216 * (v / 16777216) := by
  omega

theorem dtb_be_eq (v : Nat) (hv : v < 4294967296) :
    dtb_be v = v / 16777216 + 256 * (v / 65536 % 256) + 65536 * (v / 256 % 256)
      + 16777216 * (v % 256) := by
  unfold dtb_be
  have m8 : ∀ x : Nat, x &&& 0xff = x % 256 := by
    intro x
    have := Nat.and_pow_two_sub_one_eq_mod x 8
    simpa using this
  rw [m8, m8, m8]
  simp only [Nat.shiftRight_eq_div_pow, Nat.shiftLeft_eq]
  have b3 : v / 2 ^ 24 < 2 ^ 8 := by norm_num; omega
  have b2 : v / 2 ^ 16 % 256 < 256 := Nat.mod_lt _ (by norm_num)
  have b1 : v / 2 ^ 8 % 256 < 256 := Nat.mod_lt _ (by norm_num)
  have b0 : v % 256 < 256 := Nat.mod_lt _ (by norm_num)
  have s1 : v / 2 ^ 24 ||| v / 2 ^ 16 % 256 * 2 ^ 8 =
      2 ^ 8 * (v / 2 ^ 16 % 256) + v / 2 ^ 24 := by
    rw [Nat.or_comm, Nat.mul_comm, Nat.mul_add_lt_is_or b3]
  have s2 : (2 ^ 8 * (v / 2 ^ 16 % 256) + v / 2 ^ 24) ||| v / 2 ^ 8 % 256 * 2 ^ 16 =
      2 ^ 16 * (v / 2 ^ 8 % 256) + (2 ^ 8 * (v / 2 ^ 16 % 256) + v / 2 ^ 24) := by
    rw [Nat.or_comm (2 ^ 8 * (v / 2 ^ 16 % 256) + v / 2 ^ 24), Nat.mul_comm (v / 2 ^ 8 % 256)]
    exact (Nat.mul_add_lt_is_or (by norm_num at b3 ⊢; omega) _).symm
  have s3 : (2 ^ 16 * (v / 2 ^ 8 % 256) + (2 ^ 8 * (v / 2 ^ 16 % 256) + v / 2 ^ 24)) |||
      v % 256 * 2 ^ 24 =
      2 ^ 24 * (v % 256) +
        (2 ^ 16 * (v / 2 ^ 8 % 256) + (2 ^ 8 * (v / 2 ^ 16 % 256) + v / 2 ^ 24)) := by
    rw [Nat.or_comm (2 ^ 16 * (v / 2 ^ 8 % 256) + (2 ^ 8 * (v / 2 ^ 16 % 256) + v / 2 ^ 24)),
      Nat.mul_comm (v % 256)]
    exact (Nat.mul_add_lt_is_or (by norm_num at b3 ⊢; omega) _).symm
  rw [s1, s2, s3]
  norm_num
  omega

theorem dtb_be_lt (v : Nat) : dtb_be v < 4294967296 := by
  unfold dtb_be
  exact Nat.mod_lt _ (by norm_num)

theorem dtb_be_bytes (v : Nat) (hv : v < 4294967296) :
    dtb_be v % 256 = v / 16777216 ∧ dtb_be v / 256 % 256 = v / 65536 % 256 ∧
    dtb_be v / 65536 % 256 = v / 256 % 256 ∧ dtb_be v / 16777216 = v % 256 := by
  rw [dtb_be_eq v hv]
  exact word_fields (v / 16777216) (v / 65536 % 256) (v / 256 % 256) (v % 256)
    (by omega) (Nat.mod_lt _ (by norm_num)) (Nat.mod_lt _ (by norm_num))

theorem dtb_be_involutive (v : Nat) (hv : v < 4294967296) : dtb_be (dtb_be v) = v := by
  obtain ⟨e0, e1, e2, e3⟩ := dtb_be_bytes v hv
  rw [dtb_be_eq (dtb_be v) (dtb_be_lt v), e0, e1, e2, e3]
  have := word_split v
  omega

theorem le_bytes_dtb_be (v : Nat) (hv : v < 4294967296) :
    le_bytes 4 (dtb_be v) =
      [(v >>> 24) % 256, (v >>> 16) % 256, (v >>> 8) % 256, v % 256] := by
  obtain ⟨e0, e1, e2, e3⟩ := dtb_be_bytes v hv
  rw [le_bytes_four]
  simp only [Nat.shiftRight_eq_div_pow]
  norm_num
  have f0 : dtb_be v % 256 = v / 16777216 % 256 := by rw [e0]; omega
  have f3 : dtb_be v / 16777216 % 256 = v % 256 := by rw [e3]; omega
  exact ⟨f0, e1, e2, f3⟩

theorem dtb_patch_ram_spec (c : Config) (hc : c.Valid) (hob : 2 ≤ c.OFFSET_BITS)
    (ram dtb_ptr : Nat) (hram : ram ≤ 2 ^ 24) (k : Nat) :
    ∀ (fuel : Nat) (m : MemSys) (i0 : Nat), Inv c m → i0 % 4 = 0 → i0 + 4 * k < ram →
      k < fuel →
      (∀ j, j < k → le_value (flat_read (view c m) (i0 + 4 * j) 4) ≠ 0x00c0ff03) →
      le_value (flat_read (view c m) (i0 + 4 * k) 4) = 0x00c0ff03 →
      Inv c (dtb_patch_ram c ram dtb_ptr fuel m i0) ∧
      view c (dtb_patch_ram c ram dtb_ptr fuel m i0) =
        flat_write (view c m) (i0 + 4 * k) (le_bytes 4 (dtb_be dtb_ptr)) 4 := by
  have h24 : (2:Nat) ^ 24 = 16777216 := by norm_num
  induction k with
  | zero =>
    intro fuel m i0 hinv h4 hlt hf _ hs
    obtain ⟨f, rfl⟩ : ∃ f, fuel = f + 1 := ⟨fuel - 1, by omega⟩
    have hi0 : i0 < ram := by omega
    obtain ⟨l1, l2, l3⟩ := LOAD4_spec c hc hob m hinv i0 (by omega) h4
    rw [dtb_patch_ram, if_pos hi0]
    simp only [Nat.mul_zero, Nat.add_zero] at hs ⊢
    rw [l3, if_pos hs]
    obtain ⟨s1, s2⟩ := STORE4_spec c hc hob _ l1 i0 (dtb_be dtb_ptr) (by omega) h4
    rw [l2] at s2
    exact ⟨s1, s2⟩
  | succ k ih =>
    intro fuel m i0 hinv h4 hlt hf hne hs
    obtain ⟨f, rfl⟩ : ∃ f, fuel = f + 1 := ⟨fuel - 1, by omega⟩
    have hi0 : i0 < ram := by omega
    obtain ⟨l1, l2, l3⟩ := LOAD4_spec c hc hob m hinv i0 (by omega) h4
    have hne0 := hne 0 (by omega)
    simp only [Nat.mul_zero, Nat.add_zero] at hne0
    rw [dtb_patch_ram, if_pos hi0]
    simp only
    rw [l3, if_neg hne0]
    have hp : (i0 + 4) % 4294967296 = i0 + 4 := Nat.mod_eq_of_lt (by omega)
    rw [hp]
    have e : ∀ j, i0 + 4 + 4 * j = i0 + 4 * (j + 1) := by intro j; omega
    obtain ⟨g1, g2⟩ := ih f (MINIRV32_LOAD4 c m i0).1 (i0 + 4) l1 (by omega)
      (by rw [e]; exact hlt) (by omega)
      (by intro j hj; rw [l2, e]; exact hne (j + 1) (by omega))
      (by rw [l2, e]; exact hs)
    rw [l2, e] at g2
    exact ⟨g1, g2⟩

/-- C10: the DTB base-address patch is the byte reversal of the DTB base.  For a
reachable cache state, `ram_amt` at most `2^24` and `dtb_ptr = ram_amt - DTB_SIZE`
4-byte aligned: when the first word `dtb_ptr + 4j` whose little-endian value is
`0x00C0FF03` is at `i = dtb_ptr + 4k` (below `ram_amt`), the patch loop of the cold
boot stores `dtb_be dtb_ptr` at `i`, so that the four guest-visible bytes at
`i .. i+3` are the bytes of `dtb_ptr` most significant first; applying `dtb_be` twice
gives `dtb_ptr` back; and no guest-visible byte outside `i .. i+3` changes. -/
theorem dtb_patch_is_byte_reversal (cfg : VmConfig) (hc : cfg.cache.Valid)
    (hob : 2 ≤ cfg.cache.OFFSET_BITS) (m : MemSys) (hreach : Reachable cfg.cache m)
    (dtb_ptr k : Nat) (hram : ram_amt cfg ≤ 2 ^ 24)
    (hdtb : dtb_ptr =
      (ram_amt cfg + 4294967296 - cfg.DTB_SIZE % 4294967296) % 4294967296)
    (hal : dtb_ptr % 4 = 0)
    (hi : dtb_ptr + 4 * k < ram_amt cfg)
    (hsent : le_value (flat_read (view cfg.cache m) (dtb_ptr + 4 * k) 4) = 0x00c0ff03)
    (hfirst : ∀ j, j < k →
      le_value (flat_read (view cfg.cache m) (dtb_ptr + 4 * j) 4) ≠ 0x00c0ff03) :
    le_value (flat_read (view cfg.cache
        (dtb_patch_ram cfg.cache (ram_amt cfg) dtb_ptr ((ram_amt cfg - dtb_ptr + 3) / 4)
          m dtb_ptr)) (dtb_ptr + 4 * k) 4) = dtb_be dtb_ptr ∧
    flat_read (view cfg.cache
        (dtb_patch_ram cfg.cache (ram_amt cfg) dtb_ptr ((ram_amt cfg - dtb_ptr + 3) / 4)
          m dtb_ptr)) (dtb_ptr + 4 * k) 4 =
      [(dtb_ptr >>> 24) % 256, (dtb_ptr >>> 16) % 256, (dtb_ptr >>> 8) % 256,
        dtb_ptr % 256] ∧
    dtb_be (dtb_be dtb_ptr) = dtb_ptr ∧
    ∀ x, x < dtb_ptr + 4 * k ∨ dtb_ptr + 4 * k + 4 ≤ x →
      view cfg.cache
        (dtb_patch_ram cfg.cache (ram_amt cfg) dtb_ptr ((ram_amt cfg - dtb_ptr + 3) / 4)
          m dtb_ptr) x = view cfg.cache m x := by
  have h24 : (2:Nat) ^ 24 = 16777216 := by norm_num
  have hinv := reachable_inv cfg.cache hc m hreach
  have hv : dtb_ptr < 4294967296 := by omega
  obtain ⟨_, g2⟩ := dtb_patch_ram_spec cfg.cache hc hob (ram_amt cfg) dtb_ptr hram k
    ((ram_amt cfg - dtb_ptr + 3) / 4) m dtb_ptr hinv hal hi (by omega) hfirst hsent
  rw [g2]
  have hrd := flat_read_write (view cfg.cache m) (dtb_ptr + 4 * k) (le_bytes 4 (dtb_be dtb_ptr)) 4
    (le_bytes_length 4 _)
  refine ⟨?_, ?_, dtb_be_involutive dtb_ptr hv, ?_⟩
  · rw [hrd, le_value_bytes_four _ (dtb_be_lt dtb_ptr)]
  · rw [hrd, le_bytes_dtb_be dtb_ptr hv]
  · intro x hx
    unfold flat_write
    rw [if_neg (by omega)]

theorem dtb_patch_is_byte_reversal_witness :
    le_value (flat_read (view demoCfg.cache
        (dtb_patch_ram demoCfg.cache (ram_amt demoCfg) 0xFFF800
          ((ram_amt demoCfg - 0xFFF800 + 3) / 4) dtbSys 0xFFF800)) (0xFFF800 + 4 * 2) 4)
      = dtb_be 0xFFF800 ∧
    flat_read (view demoCfg.cache
        (dtb_patch_ram demoCfg.cache (ram_amt demoCfg) 0xFFF800
          ((ram_amt demoCfg - 0xFFF800 + 3) / 4) dtbSys 0xFFF800)) (0xFFF800 + 4 * 2) 4 =
      [(0xFFF800 >>> 24) % 256, (0xFFF800 >>> 16) % 256, (0xFFF800 >>> 8) % 256,
        0xFFF800 % 256] ∧
    dtb_be (dtb_be 0xFFF800) = 0xFFF800 ∧
    ∀ x, x < 0xFFF800 + 4 * 2 ∨ 0xFFF800 + 4 * 2 + 4 ≤ x →
      view demoCfg.cache
        (dtb_patch_ram demoCfg.cache (ram_amt demoCfg) 0xFFF800
          ((ram_amt demoCfg - 0xFFF800 + 3) / 4) dtbSys 0xFFF800) x =
        view demoCfg.cache dtbSys x :=
  dtb_patch_is_byte_reversal demoCfg (by decide) (by decide) dtbSys
    ⟨dtbSys, [], by simp, rfl⟩ 0xFFF800 2 (by decide) (by decide) (by decide) (by decide)
    (by decide) (by decide)

end TinyRv32


namespace TinyRv32

/-! ## The storage façade when every request succeeds -/

theorem pf_open_ok (s : Storage) (h : s.results = []) (n : FileName) :
    pf_open s n = (0, { files := s.files, cur := n, pos := 0, results := [],
                        log := s.log ++ [StorageOp.open n] }) := by
  simp [pf_open, Storage.request, h]

theorem pf_lseek_ok (s : Storage) (h : s.results = []) (ofs : Nat) :
    pf_lseek s ofs = (0, { files := s.files, cur := s.cur, pos := ofs, results := [],
                           log := s.log ++ [StorageOp.lseek ofs] }) := by
  simp [pf_lseek, Storage.request, h]

theorem pf_read_ok (s : Storage) (h : s.results = []) (btr : Nat) :
    pf_read s btr = (0, ((s.files s.cur).drop s.pos).take btr,
      { files := s.files, cur := s.cur
        pos := s.pos + (((s.files s.cur).drop s.pos).take btr).length
        results := [], log := s.log ++ [StorageOp.read btr] }) := by
  simp [pf_read, Storage.request, h]

theorem pf_write_ok (s : Storage) (h : s.results = []) (bytes : List Nat) :
    pf_write s bytes = (0,
      { files := fun n => if n = s.cur then
          (s.files s.cur).take s.pos ++ bytes ++ (s.files s.cur).drop (s.pos + bytes.length)
          else s.files n
        cur := s.cur, pos := s.pos + bytes.length, results := []
        log := s.log ++ [StorageOp.write bytes] }) := by
  simp [pf_write, Storage.request, h]

/-- With a storage device that accepts every request, `vm_save_powerstate(state)`
opens the registry, rewinds, writes the one byte and finalizes. -/
theorem vm_save_powerstate_ok (s : Storage) (h : s.results = []) (state : Nat) :
    vm_save_powerstate s state = (0,
      { files := fun n => if n = FileName.STAT then
          [state % 256] ++ (s.files FileName.STAT).drop 1 else s.files n
        cur := FileName.STAT, pos := 1, results := []
        log := s.log ++ [StorageOp.open FileName.STAT, StorageOp.lseek 0,
          StorageOp.write [state % 256], StorageOp.write []] }) := by
  unfold vm_save_powerstate
  rw [pf_open_ok s h]
  simp only [ne_eq, not_true_eq_false, if_false]
  rw [pf_lseek_ok _ rfl]
  simp only
  rw [pf_write_ok _ rfl]
  simp only [ne_eq, not_true_eq_false, if_false]
  rw [pf_write_ok _ rfl]
  simp only [Nat.zero_mod, Prod.mk.injEq, true_and]
  congr 1
  · funext n
    by_cases hn : n = FileName.STAT <;> simp [hn]
  · simp

end TinyRv32


namespace TinyRv32

/-! ## The hibernate path -/

theorem take_overwrite (f B rest : List Nat) (a : Nat) (ha : a ≤ f.length) :
    (f.take a ++ B ++ rest).take (a + B.length) = f.take a ++ B := by
  have hl : (f.take a ++ B).length = a + B.length := by
    rw [List.length_append, List.length_take, Nat.min_eq_left ha]
  rw [← hl, List.take_left']
  rfl

theorem drop_overwrite (f B rest : List Nat) (a k : Nat) (ha : a ≤ f.length) :
    (f.take a ++ B ++ rest).drop (a + B.length + k) = rest.drop k := by
  have hl : (f.take a ++ B).length = a + B.length := by
    rw [List.length_append, List.length_take, Nat.min_eq_left ha]
  rw [← hl, ← List.drop_drop, List.drop_left']
  rfl

theorem flat_read_length (mem : Mem) (a n : Nat) : (flat_read mem a n).length = n := by
  simp [flat_read]

theorem psram_read_chunk (psram : Mem) (addr : Nat) (buf : Nat → Nat) (ha : addr < 2 ^ 24) :
    buf_bytes (psram_access psram addr 512 false buf).2 0 512 = flat_read psram addr 512 := by
  have h24 : (2:Nat) ^ 24 = 16777216 := by norm_num
  have e : (psram_access psram addr 512 false buf).2 = psram_read psram addr buf 512 := rfl
  rw [e, psram_read_eq, Nat.mod_eq_of_lt (by omega)]
  unfold buf_bytes flat_read chip_read
  apply List.map_congr_left
  intro i hi
  rw [List.mem_range] at hi
  rw [Nat.zero_add, if_pos hi]

theorem snapshot_loop_spec (n : Nat) :
    ∀ (vm : VM) (addr : Nat), vm.sto.results = [] → vm.sto.pos = addr →
      addr ≤ (vm.sto.files vm.sto.cur).length → addr + 512 * n ≤ 2 ^ 24 →
      ∃ vm', snapshot_loop n vm addr = some vm' ∧ vm'.mem = vm.mem ∧ vm'.core = vm.core ∧
        vm'.sto =
          { files := fun nm => if nm = vm.sto.cur then
              (vm.sto.files vm.sto.cur).take addr ++ flat_read vm.mem.psram addr (512 * n) ++
                (vm.sto.files vm.sto.cur).drop (addr + 512 * n)
              else vm.sto.files nm
            cur := vm.sto.cur, pos := addr + 512 * n, results := []
            log := vm.sto.log ++ (List.range n).map (fun k =>
              StorageOp.write (flat_read vm.mem.psram (addr + 512 * k) 512)) } := by
  have h24 : (2:Nat) ^ 24 = 16777216 := by norm_num
  induction n with
  | zero =>
    intro vm addr hr hp hlen _
    refine ⟨vm, rfl, rfl, rfl, ?_⟩
    have hf : (fun nm => if nm = vm.sto.cur then
        (vm.sto.files vm.sto.cur).take addr ++ flat_read vm.mem.psram addr (512 * 0) ++
          (vm.sto.files vm.sto.cur).drop (addr + 512 * 0) else vm.sto.files nm) = vm.sto.files := by
      funext nm
      by_cases h : nm = vm.sto.cur
      · rw [if_pos h, h]
        simp [flat_read]
      · rw [if_neg h]
    rw [hf]
    simp only [Nat.mul_zero, Nat.add_zero, List.range_zero, List.map_nil, List.append_nil]
    rw [← hp, ← hr]
  | succ n ih =>
    intro vm addr hr hp hlen hle
    rw [snapshot_loop]
    rw [psram_read_chunk _ _ _ (by omega), pf_write_ok _ hr]
    simp only [ne_eq, not_true_eq_false, if_false]
    have hmod : (addr + 512) % 4294967296 = addr + 512 := Nat.mod_eq_of_lt (by omega)
    have hBl : (flat_read vm.mem.psram addr 512).length = 512 := flat_read_length _ _ _
    rw [hmod, hBl, hp]
    have hlen1 : addr + 512 ≤ ((vm.sto.files vm.sto.cur).take addr ++
        flat_read vm.mem.psram addr 512 ++ (vm.sto.files vm.sto.cur).drop (addr + 512)).length := by
      rw [List.length_append, List.length_append, List.length_take, Nat.min_eq_left hlen, hBl]
      omega
    obtain ⟨vm', h1, h2, h3, h4⟩ := ih
      { vm with
        blk_buf := (psram_access vm.mem.psram addr 512 false vm.blk_buf).2
        sto := { files := fun nm => if nm = vm.sto.cur then
                   (vm.sto.files vm.sto.cur).take addr ++ flat_read vm.mem.psram addr 512 ++
                     (vm.sto.files vm.sto.cur).drop (addr + 512)
                   else vm.sto.files nm
                 cur := vm.sto.cur
                 pos := addr + 512
                 results := []
                 log := vm.sto.log ++ [StorageOp.write (flat_read vm.mem.psram addr 512)] } }
      (addr + 512) rfl rfl
      (by dsimp only; rw [if_pos rfl]; exact hlen1)
      (by omega)
    refine ⟨vm', h1, h2, h3, ?_⟩
    rw [h4]
    dsimp only
    have t := take_overwrite (vm.sto.files vm.sto.cur) (flat_read vm.mem.psram addr 512)
      ((vm.sto.files vm.sto.cur).drop (addr + 512)) addr hlen
    have d := drop_overwrite (vm.sto.files vm.sto.cur) (flat_read vm.mem.psram addr 512)
      ((vm.sto.files vm.sto.cur).drop (addr + 512)) addr (512 * n) hlen
    rw [hBl] at t d
    have e3 : addr + 512 + 512 * n = addr + 512 * (n + 1) := by omega
    have hfile : ((vm.sto.files vm.sto.cur).take addr ++ flat_read vm.mem.psram addr 512 ++
          (vm.sto.files vm.sto.cur).drop (addr + 512)).take (addr + 512) ++
          flat_read vm.mem.psram (addr + 512) (512 * n) ++
          ((vm.sto.files vm.sto.cur).take addr ++ flat_read vm.mem.psram addr 512 ++
            (vm.sto.files vm.sto.cur).drop (addr + 512)).drop (addr + 512 * (n + 1)) =
        (vm.sto.files vm.sto.cur).take addr ++ flat_read vm.mem.psram addr (512 * (n + 1)) ++
          (vm.sto.files vm.sto.cur).drop (addr + 512 * (n + 1)) := by
      rw [e3] at d
      have hfr : flat_read vm.mem.psram addr (512 * (n + 1)) =
          flat_read vm.mem.psram addr 512 ++ flat_read vm.mem.psram (addr + 512) (512 * n) := by
        rw [Nat.mul_succ, Nat.add_comm (512 * n) 512, flat_read_add]
      rw [t, d, List.drop_drop, hfr]
      simp only [List.append_assoc]
      rw [e3]
    have hlog : vm.sto.log ++ [StorageOp.write (flat_read vm.mem.psram addr 512)] ++
          (List.range n).map (fun k =>
            StorageOp.write (flat_read vm.mem.psram (addr + 512 + 512 * k) 512)) =
        vm.sto.log ++ (List.range (n + 1)).map (fun k =>
            StorageOp.write (flat_read vm.mem.psram (addr + 512 * k) 512)) := by
      rw [List.range_succ_eq_map, List.map_cons, List.map_map, List.append_assoc]
      refine congrArg (fun l => vm.sto.log ++ l) ?_
      rw [List.singleton_append, Nat.mul_zero]
      simp only [Nat.add_zero]
      refine List.cons_eq_cons.mpr ⟨rfl, ?_⟩
      apply List.map_congr_left
      intro k _
      have e : addr + 512 + 512 * k = addr + 512 * (k + 1) := by omega
      simp only [Function.comp, Nat.succ_eq_add_one]
      rw [e]
    rw [hlog, e3]
    have hfun : (fun nm => if nm = vm.sto.cur then
          (if vm.sto.cur = vm.sto.cur then
            (vm.sto.files vm.sto.cur).take addr ++ flat_read vm.mem.psram addr 512 ++
              (vm.sto.files vm.sto.cur).drop (addr + 512)
            else vm.sto.files vm.sto.cur).take (addr + 512) ++
          flat_read vm.mem.psram (addr + 512) (512 * n) ++
          (if vm.sto.cur = vm.sto.cur then
            (vm.sto.files vm.sto.cur).take addr ++ flat_read vm.mem.psram addr 512 ++
              (vm.sto.files vm.sto.cur).drop (addr + 512)
            else vm.sto.files vm.sto.cur).drop (addr + 512 * (n + 1))
        else if nm = vm.sto.cur then
          (vm.sto.files vm.sto.cur).take addr ++ flat_read vm.mem.psram addr 512 ++
            (vm.sto.files vm.sto.cur).drop (addr + 512)
          else vm.sto.files nm) =
        (fun nm => if nm = vm.sto.cur then
          (vm.sto.files vm.sto.cur).take addr ++ flat_read vm.mem.psram addr (512 * (n + 1)) ++
            (vm.sto.files vm.sto.cur).drop (addr + 512 * (n + 1))
          else vm.sto.files nm) := by
      funext nm
      by_cases h : nm = vm.sto.cur
      · rw [if_pos h, if_pos h, if_pos rfl]
        exact hfile
      · rw [if_neg h, if_neg h, if_neg h]
    rw [hfun]

end TinyRv32


namespace TinyRv32

theorem hibernate_ok (cfg : VmConfig) (hc : cfg.cache.Valid) (vm : VM)
    (hinv : Inv cfg.cache vm.mem) (hr : vm.sto.results = [])
    (hram : ram_amt cfg ≤ 2 ^ 24) (h512 : ram_amt cfg % 512 = 0) :
    (hibernate cfg vm).1 = Outcome.returned EMU_HIBERNATE ∧
    (hibernate cfg vm).2.sto.files FileName.SNAPSHOT_FILENAME =
      flat_read (view cfg.cache vm.mem) 0 (ram_amt cfg) ++ vm.core ++
        (vm.sto.files FileName.SNAPSHOT_FILENAME).drop (ram_amt cfg + vm.core.length) ∧
    (hibernate cfg vm).2.sto.log =
      vm.sto.log ++ [StorageOp.open FileName.STAT, StorageOp.lseek 0,
          StorageOp.write [EMU_HIBERNATE % 256], StorageOp.write [],
          StorageOp.open FileName.SNAPSHOT_FILENAME, StorageOp.lseek 0] ++
        (List.range (ram_amt cfg / 512)).map (fun k =>
          StorageOp.write (flat_read (view cfg.cache vm.mem) (512 * k) 512)) ++
        [StorageOp.write vm.core, StorageOp.write []] ∧
    (hibernate cfg vm).2.sto.files FileName.STAT =
      [EMU_HIBERNATE % 256] ++ (vm.sto.files FileName.STAT).drop 1 ∧
    (hibernate cfg vm).2.sto.results = [] ∧
    (hibernate cfg vm).2.core = vm.core ∧
    view cfg.cache (hibernate cfg vm).2.mem = view cfg.cache vm.mem := by
  obtain ⟨_, fv, fp⟩ := cache_flush_spec cfg.cache hc vm.mem hinv
  have hps : (cache_flush cfg.cache vm.mem).psram = view cfg.cache vm.mem := funext fp
  have hn : 512 * (ram_amt cfg / 512) = ram_amt cfg := by omega
  unfold hibernate
  rw [vm_save_powerstate_ok _ hr]
  simp only
  rw [pf_open_ok _ rfl]
  simp only [ne_eq, not_true_eq_false, if_false]
  rw [pf_lseek_ok _ rfl]
  simp only
  obtain ⟨vm', h1, h2, h3, h4⟩ := snapshot_loop_spec (ram_amt cfg / 512)
    { vm with
      sto := { files := fun n => if n = FileName.STAT then
                 [EMU_HIBERNATE % 256] ++ (vm.sto.files FileName.STAT).drop 1
                 else vm.sto.files n
               cur := FileName.SNAPSHOT_FILENAME, pos := 0, results := []
               log := vm.sto.log ++ [StorageOp.open FileName.STAT, StorageOp.lseek 0,
                 StorageOp.write [EMU_HIBERNATE % 256], StorageOp.write []] ++
                 [StorageOp.open FileName.SNAPSHOT_FILENAME] ++ [StorageOp.lseek 0] }
      mem := cache_flush cfg.cache vm.mem }
    0 rfl rfl (Nat.zero_le _) (by rw [Nat.zero_add, hn]; exact hram)
  have h2 : vm'.mem = cache_flush cfg.cache vm.mem := h2
  have h3 : vm'.core = vm.core := h3
  rw [h1]
  simp only
  have hres : vm'.sto.results = [] := by rw [h4]
  rw [pf_write_ok _ hres]
  simp only [ne_eq, not_true_eq_false, if_false]
  rw [pf_write_ok _ rfl]
  simp only [ne_eq, not_true_eq_false, if_false]
  have hcur : vm'.sto.cur = FileName.SNAPSHOT_FILENAME := by rw [h4]
  have hpos : vm'.sto.pos = ram_amt cfg := by rw [h4]; show 0 + 512 * (ram_amt cfg / 512) = _; omega
  have hne : FileName.SNAPSHOT_FILENAME ≠ FileName.STAT := by decide
  have hne' : FileName.STAT ≠ FileName.SNAPSHOT_FILENAME := by decide
  have hfile : vm'.sto.files FileName.SNAPSHOT_FILENAME =
      flat_read (view cfg.cache vm.mem) 0 (ram_amt cfg) ++
        (vm.sto.files FileName.SNAPSHOT_FILENAME).drop (ram_amt cfg) := by
    rw [h4]
    dsimp only
    rw [if_pos rfl, if_neg hne, hps, Nat.zero_add, hn]
    simp
  have hstat : vm'.sto.files FileName.STAT =
      [EMU_HIBERNATE % 256] ++ (vm.sto.files FileName.STAT).drop 1 := by
    rw [h4]
    dsimp only
    rw [if_neg hne', if_pos rfl]
  have hlog : vm'.sto.log = vm.sto.log ++ [StorageOp.open FileName.STAT, StorageOp.lseek 0,
          StorageOp.write [EMU_HIBERNATE % 256], StorageOp.write [],
          StorageOp.open FileName.SNAPSHOT_FILENAME, StorageOp.lseek 0] ++
        (List.range (ram_amt cfg / 512)).map (fun k =>
          StorageOp.write (flat_read (view cfg.cache vm.mem) (512 * k) 512)) := by
    rw [h4]
    dsimp only
    rw [hps]
    simp only [Nat.zero_add, List.append_assoc, List.cons_append, List.nil_append]
  have hRl : (flat_read (view cfg.cache vm.mem) 0 (ram_amt cfg)).length = ram_amt cfg :=
    flat_read_length _ _ _
  refine ⟨trivial, ?_, ?_, ?_, trivial, h3, ?_⟩
  · rw [hcur, hpos, hfile, h3]
    simp only [if_true, List.append_nil, List.length_nil, Nat.add_zero, List.take_append_drop]
    have e1 : List.take (ram_amt cfg) (flat_read (view cfg.cache vm.mem) 0 (ram_amt cfg) ++
        List.drop (ram_amt cfg) (vm.sto.files FileName.SNAPSHOT_FILENAME)) =
        flat_read (view cfg.cache vm.mem) 0 (ram_amt cfg) := List.take_left' hRl
    have e2 : List.drop (ram_amt cfg + vm.core.length)
        (flat_read (view cfg.cache vm.mem) 0 (ram_amt cfg) ++
          List.drop (ram_amt cfg) (vm.sto.files FileName.SNAPSHOT_FILENAME)) =
        List.drop (ram_amt cfg + vm.core.length) (vm.sto.files FileName.SNAPSHOT_FILENAME) := by
      rw [← List.drop_drop, List.drop_left' hRl, List.drop_drop, Nat.add_comm]
    rw [e1, e2]
  · dsimp only
    rw [hlog, h3]
    simp only [List.append_assoc, List.cons_append, List.nil_append]
  · dsimp only
    rw [hcur, if_neg hne', if_neg hne']
    exact hstat
  · dsimp only
    rw [h2]
    exact funext fv

end TinyRv32


namespace TinyRv32

/-! ## The resume path -/

theorem getD_chunk (f : List Nat) (p j : Nat) (hj : j < 512) :
    ((f.drop p).take 512).getD j 0 = f.getD (p + j) 0 := by
  rw [List.getD_eq_getElem?_getD, List.getD_eq_getElem?_getD, List.getElem?_take_of_lt hj,
    List.getElem?_drop]

theorem load_chunk_write (psram : Mem) (addr : Nat) (buf : Nat → Nat) (B : List Nat)
    (hB : B.length = 512) (ha : addr < 2 ^ 24) (x : Nat) :
    (psram_access psram addr 512 true (buf_store buf 0 B)).1 x =
      if addr ≤ x ∧ x < addr + 512 then B.getD (x - addr) 0 else psram x := by
  have h24 : (2:Nat) ^ 24 = 16777216 := by norm_num
  have hw : (psram_access psram addr 512 true (buf_store buf 0 B)).1 =
      psram_write psram addr (buf_store buf 0 B) 512 := rfl
  rw [hw, psram_write_eq, Nat.mod_eq_of_lt (by omega)]
  unfold chip_write
  by_cases hx : addr ≤ x ∧ x < addr + 512
  · rw [if_pos hx, if_pos hx]
    unfold buf_store
    rw [hB]
    have h0 : 0 ≤ x - addr ∧ x - addr < 0 + 512 := by omega
    rw [if_pos h0]
    rfl
  · rw [if_neg hx, if_neg hx]

theorem psram_load_loop_spec (n : Nat) :
    ∀ (vm : VM) (addr : Nat), vm.sto.results = [] →
      vm.sto.pos + 512 * n ≤ (vm.sto.files vm.sto.cur).length → addr + 512 * n ≤ 2 ^ 24 →
      ∃ vm', psram_load_loop n vm addr = some vm' ∧ vm'.mem.cache = vm.mem.cache ∧
        vm'.core = vm.core ∧ vm'.hibernate_request = vm.hibernate_request ∧
        (∀ x, vm'.mem.psram x =
          if addr ≤ x ∧ x < addr + 512 * n then
            (vm.sto.files vm.sto.cur).getD (vm.sto.pos + (x - addr)) 0
          else vm.mem.psram x) ∧
        vm'.sto.files = vm.sto.files ∧ vm'.sto.cur = vm.sto.cur ∧
        vm'.sto.pos = vm.sto.pos + 512 * n ∧ vm'.sto.results = [] := by
  have h24 : (2:Nat) ^ 24 = 16777216 := by norm_num
  induction n with
  | zero =>
    intro vm addr hr _ _
    refine ⟨vm, rfl, rfl, rfl, rfl, ?_, rfl, rfl, rfl, hr⟩
    intro x
    rw [if_neg (by omega)]
  | succ n ih =>
    intro vm addr hr hlen hle
    have hbl : (((vm.sto.files vm.sto.cur).drop vm.sto.pos).take 512).length = 512 := by
      rw [List.length_take, List.length_drop]
      omega
    rw [psram_load_loop, pf_read_ok _ hr]
    simp only [hbl, ne_eq, not_true_eq_false, if_false]
    rw [if_neg (by norm_num)]
    have hmod : (addr + 512) % 4294967296 = addr + 512 := Nat.mod_eq_of_lt (by omega)
    rw [hmod]
    obtain ⟨vm', h1, h2, h3, h4, h5, h6, h7, h8, h9⟩ := ih
      { vm with
        sto := { files := vm.sto.files, cur := vm.sto.cur, pos := vm.sto.pos + 512
                 results := [], log := vm.sto.log ++ [StorageOp.read 512] }
        blk_buf := buf_store vm.blk_buf 0 (((vm.sto.files vm.sto.cur).drop vm.sto.pos).take 512)
        mem := { vm.mem with
                 psram := (psram_access vm.mem.psram addr 512 true
                   (buf_store vm.blk_buf 0
                     (((vm.sto.files vm.sto.cur).drop vm.sto.pos).take 512))).1 } }
      (addr + 512) rfl
      (by dsimp only; omega)
      (by omega)
    have h8' : vm'.sto.pos = vm.sto.pos + 512 + 512 * n := h8
    refine ⟨vm', h1, h2, h3, h4, ?_, h6, h7, by rw [h8']; omega, h9⟩
    intro x
    rw [h5 x]
    dsimp only
    rw [load_chunk_write _ _ _ _ hbl (by omega)]
    by_cases hx1 : addr + 512 ≤ x ∧ x < addr + 512 + 512 * n
    · rw [if_pos hx1, if_pos (by omega)]
      have e : vm.sto.pos + 512 + (x - (addr + 512)) = vm.sto.pos + (x - addr) := by omega
      rw [e]
    · rw [if_neg hx1]
      by_cases hx2 : addr ≤ x ∧ x < addr + 512
      · rw [if_pos hx2, if_pos (by omega), getD_chunk _ _ _ (by omega)]
      · rw [if_neg hx2, if_neg (by omega)]

theorem view_of_reset_cache (c : Config) (m m0 : MemSys)
    (h : m.cache = (cache_reset m0).cache) (x : Nat) : view c m x = m.psram x := by
  have : m = cache_reset { cache := m.cache, psram := m.psram } := by
    cases m with
    | mk cache psram =>
      simp only [cache_reset] at h ⊢
      rw [h]
  have e := view_reset c { cache := m.cache, psram := m.psram }
  rw [← this] at e
  rw [e]

theorem start_vm_boot_resume (cfg : VmConfig) (vm : VM) (hr : vm.sto.results = [])
    (hram : ram_amt cfg ≤ 2 ^ 24) (h512 : ram_amt cfg % 512 = 0)
    (hlen : ram_amt cfg + cfg.layout.size ≤
      (vm.sto.files FileName.SNAPSHOT_FILENAME).length) :
    ∃ vm', start_vm_boot cfg vm EMU_HIBERNATE = some vm' ∧
      vm'.mem.cache = (cache_reset vm.mem).cache ∧
      (∀ x, x < ram_amt cfg →
        vm'.mem.psram x = (vm.sto.files FileName.SNAPSHOT_FILENAME).getD x 0) ∧
      vm'.core = ((vm.sto.files FileName.SNAPSHOT_FILENAME).drop (ram_amt cfg)).take
        cfg.layout.size ∧
      vm'.hibernate_request = 0 := by
  have hn : 512 * (ram_amt cfg / 512) = ram_amt cfg := by omega
  unfold start_vm_boot
  have hg : ¬ (EMU_HIBERNATE = EMU_GET_SD) := by decide
  simp only [if_neg hg, decide_True, if_true]
  rw [pf_open_ok _ hr]
  simp only [ne_eq, not_true_eq_false, if_false]
  obtain ⟨vm2, h1, h2, h3, h4, h5, h6, h7, h8, h9⟩ := psram_load_loop_spec (ram_amt cfg / 512)
    { vm with
      mem := cache_reset vm.mem
      hibernate_request := 0
      sto := { files := vm.sto.files, cur := FileName.SNAPSHOT_FILENAME, pos := 0
               results := [], log := vm.sto.log ++ [StorageOp.open FileName.SNAPSHOT_FILENAME] } }
    0 rfl (by dsimp only; omega) (by omega)
  have h2 : vm2.mem.cache = (cache_reset vm.mem).cache := h2
  have h3 : vm2.core = vm.core := h3
  have h4 : vm2.hibernate_request = 0 := h4
  have h6 : vm2.sto.files = vm.sto.files := h6
  have h7 : vm2.sto.cur = FileName.SNAPSHOT_FILENAME := h7
  have h8 : vm2.sto.pos = ram_amt cfg := by
    have h8' : vm2.sto.pos = 0 + 512 * (ram_amt cfg / 512) := h8
    omega
  have h5 : ∀ x, x < ram_amt cfg →
      vm2.mem.psram x = (vm.sto.files FileName.SNAPSHOT_FILENAME).getD x 0 := by
    intro x hx
    rw [h5 x]
    dsimp only
    rw [if_pos (by omega), Nat.zero_add, Nat.sub_zero]
  unfold psram_load_file
  rw [h1]
  simp only
  rw [pf_read_ok _ h9, h6, h7, h8]
  have hcl : (((vm.sto.files FileName.SNAPSHOT_FILENAME).drop (ram_amt cfg)).take
      cfg.layout.size).length = cfg.layout.size := by
    rw [List.length_take, List.length_drop]; omega
  simp only [hcl, ne_eq, not_true_eq_false, if_false]
  rw [vm_save_powerstate_ok _ rfl]
  simp only
  rw [pf_open_ok _ rfl]
  simp only [ne_eq, not_true_eq_false, if_false]
  exact ⟨_, rfl, h2, h5, rfl, h4⟩

end TinyRv32


namespace TinyRv32

/-! ## Snapshot round trip -/

theorem flat_read_sectors_zero (mem : Mem) (k : Nat) :
    (List.range k).flatMap (fun s => flat_read mem (512 * s) 512) = flat_read mem 0 (512 * k) := by
  have h := flat_read_sectors mem 0 k
  simp only [Nat.zero_add] at h
  exact h

theorem flat_read_getD (mem : Mem) (n x : Nat) (hx : x < n) (rest : List Nat) :
    (flat_read mem 0 n ++ rest).getD x 0 = mem x := by
  rw [List.getD_eq_getElem?_getD, List.getElem?_append_left (by rw [flat_read_length]; exact hx)]
  simp [flat_read, hx]

end TinyRv32


namespace TinyRv32

/-! ## The switch on the interpreter's return code -/

theorem le_bytes_succ (n v : Nat) : le_bytes (n + 1) v = v % 256 :: le_bytes n (v / 256) := by
  unfold le_bytes
  rw [List.range_succ_eq_map, List.map_cons, List.map_map]
  refine List.cons_eq_cons.mpr ⟨by simp, ?_⟩
  apply List.map_congr_left
  intro k _
  simp only [Function.comp, Nat.succ_eq_add_one]
  rw [show 8 * (k + 1) = 8 + 8 * k by omega, Nat.shiftRight_add, Nat.shiftRight_eq_div_pow v 8]

theorem le_value_le_bytes (n : Nat) : ∀ v, le_value (le_bytes n v) = v % 256 ^ n := by
  induction n with
  | zero => intro v; simp [le_bytes, le_value, Nat.mod_one]
  | succ n ih =>
    intro v
    rw [le_bytes_succ, le_value, ih, Nat.mod_mod, Nat.pow_succ', Nat.mod_mul]

theorem core_load_store (core : List Nat) (ofs v : Nat) (h : ofs + 8 ≤ core.length) :
    core_load (core_store core ofs 8 v) ofs 8 = v % 18446744073709551616 := by
  unfold core_load core_store
  have hl : (core.take ofs).length = ofs := by
    rw [List.length_take]; omega
  have e1 : List.drop ofs (core.take ofs ++ le_bytes 8 v ++ core.drop (ofs + 8)) =
      le_bytes 8 v ++ core.drop (ofs + 8) := by
    rw [List.append_assoc]
    exact List.drop_left' hl
  have e2 : List.take 8 (le_bytes 8 v ++ core.drop (ofs + 8)) = le_bytes 8 v :=
    List.take_left' (le_bytes_length 8 v)
  rw [e1, e2, le_value_le_bytes]
  norm_num

end TinyRv32


namespace TinyRv32

/-! ## Flags and tags are kept by every call -/

theorem shape_reset (m0 : MemSys) : Shape (cache_reset m0) := by
  constructor
  · intro idx w h; simp [cache_reset, IS_DIRTY] at h
  · intro idx h; simp [cache_reset, IS_VALID] at h
  · intro idx h; simp [cache_reset, IS_LRU] at h

theorem shape_setWays (m : MemSys) (h : Shape m) (i : Nat) (w1 w2 : Cacheline) (p : Mem)
    (d1 : IS_DIRTY w1 = true → IS_VALID w1 = true)
    (d2 : IS_DIRTY w2 = true → IS_VALID w2 = true)
    (nd : ¬ (IS_VALID w1 = true ∧ IS_VALID w2 = true ∧ w1.tag = w2.tag))
    (nl : ¬ (IS_LRU w1 = true ∧ IS_LRU w2 = true)) :
    Shape (m.setWays i w1 w2 p) := by
  constructor
  · intro idx w
    rw [setWays_cache]
    by_cases h0 : idx = i ∧ w = 0
    · rw [if_pos h0]; exact d1
    · rw [if_neg h0]
      by_cases h1 : idx = i ∧ w = 1
      · rw [if_pos h1]; exact d2
      · rw [if_neg h1]; exact h.dirty_valid idx w
  · intro idx
    rw [setWays_cache, setWays_cache]
    by_cases hi : idx = i
    · subst hi; simpa using nd
    · simpa [hi] using h.nodup idx
  · intro idx
    rw [setWays_cache, setWays_cache]
    by_cases hi : idx = i
    · subst hi; simpa using nl
    · simpa [hi] using h.one_lru idx

theorem locate_shape (c : Config) (m : MemSys) (a : Nat) (h : Shape m) :
    Shape (locate c m a).1 := by
  have hd := h.dirty_valid (INDEX c a % 65536)
  have hn := h.nodup (INDEX c a % 65536)
  unfold locate
  simp only []
  by_cases h0 : (TAG c a % 65536 == (m.cache (INDEX c a % 65536) 0).tag &&
      IS_VALID (m.cache (INDEX c a % 65536) 0)) = true
  · rw [if_pos h0]
    simp only [Bool.and_eq_true, beq_iff_eq] at h0
    apply shape_setWays m h
    · simpa using hd 0
    · simpa using hd 1
    · rintro ⟨hv1, hv2, ht⟩
      exact hn ⟨by simpa using hv1, by simpa using hv2, ht⟩
    · simp
  · rw [if_neg h0]
    by_cases h1 : (TAG c a % 65536 == (m.cache (INDEX c a % 65536) 1).tag &&
        IS_VALID (m.cache (INDEX c a % 65536) 1)) = true
    · rw [if_pos h1]
      apply shape_setWays m h
      · simpa using hd 0
      · simpa using hd 1
      · rintro ⟨hv1, hv2, ht⟩
        exact hn ⟨by simpa using hv1, by simpa using hv2, ht⟩
      · simp
    · rw [if_neg h1]
      simp only [Bool.and_eq_true, beq_iff_eq] at h0 h1
      by_cases hl : IS_LRU (m.cache (INDEX c a % 65536) 0) = true
      · rw [if_pos hl]
        apply shape_setWays m h
        · intro _; exact (refill_flags c _ _ _ _ _).1
        · simpa using hd 1
        · rw [(refill_flags c _ _ _ _ _).2.2.2]
          simp only [valid_SET_LRU]
          rintro ⟨_, hv, ht⟩
          exact h1 ⟨by simpa [SET_LRU] using ht, hv⟩
        · rw [(refill_flags c _ _ _ _ _).2.2.1]; simp
      · rw [if_neg hl]
        apply shape_setWays m h
        · simpa using hd 0
        · intro _; exact (refill_flags c _ _ _ _ _).1
        · rw [(refill_flags c _ _ _ _ _).2.2.2]
          simp only [valid_SET_LRU]
          rintro ⟨hv, _, ht⟩
          exact h0 ⟨by simpa [SET_LRU] using ht.symm, hv⟩
        · rw [(refill_flags c _ _ _ _ _).2.2.1]; simp

/-- After any lookup: the way used is 0 or 1, it holds a valid line with the tag of the
address and has its LRU bit clear, the sibling has its LRU bit set, and no other set
changes. -/
theorem locate_used (c : Config) (m : MemSys) (a : Nat) :
    ((locate c m a).2 = 0 ∨ (locate c m a).2 = 1) ∧
    IS_VALID ((locate c m a).1.cache (INDEX c a % 65536) (locate c m a).2) = true ∧
    ((locate c m a).1.cache (INDEX c a % 65536) (locate c m a).2).tag = TAG c a % 65536 ∧
    IS_LRU ((locate c m a).1.cache (INDEX c a % 65536) (locate c m a).2) = false ∧
    IS_LRU ((locate c m a).1.cache (INDEX c a % 65536) (1 - (locate c m a).2)) = true ∧
    ∀ i w, i ≠ INDEX c a % 65536 → (locate c m a).1.cache i w = m.cache i w := by
  unfold locate
  simp only []
  by_cases h0 : (TAG c a % 65536 == (m.cache (INDEX c a % 65536) 0).tag &&
      IS_VALID (m.cache (INDEX c a % 65536) 0)) = true
  · rw [if_pos h0]
    simp only [Bool.and_eq_true, beq_iff_eq] at h0
    refine ⟨Or.inl rfl, ?_, ?_, ?_, ?_, ?_⟩
    · simp [setWays_cache, h0.2]
    · simp [setWays_cache, CLEAR_LRU, h0.1]
    · simp [setWays_cache]
    · simp [setWays_cache]
    · intro i w hi; simp [setWays_cache, hi]
  · rw [if_neg h0]
    by_cases h1 : (TAG c a % 65536 == (m.cache (INDEX c a % 65536) 1).tag &&
        IS_VALID (m.cache (INDEX c a % 65536) 1)) = true
    · rw [if_pos h1]
      simp only [Bool.and_eq_true, beq_iff_eq] at h1
      refine ⟨Or.inr rfl, ?_, ?_, ?_, ?_, ?_⟩
      · simp [setWays_cache, h1.2]
      · simp [setWays_cache, CLEAR_LRU, h1.1]
      · simp [setWays_cache]
      · simp [setWays_cache]
      · intro i w hi; simp [setWays_cache, hi]
    · rw [if_neg h1]
      by_cases hl : IS_LRU (m.cache (INDEX c a % 65536) 0) = true
      · rw [if_pos hl]
        refine ⟨Or.inl rfl, ?_, ?_, ?_, ?_, ?_⟩
        · simp [setWays_cache, (refill_flags c _ _ _ _ _).1]
        · simp [setWays_cache, (refill_flags c _ _ _ _ _).2.2.2]
        · simp [setWays_cache, (refill_flags c _ _ _ _ _).2.2.1]
        · simp [setWays_cache]
        · intro i w hi; simp [setWays_cache, hi]
      · rw [if_neg hl]
        refine ⟨Or.inr rfl, ?_, ?_, ?_, ?_, ?_⟩
        · simp [setWays_cache, (refill_flags c _ _ _ _ _).1]
        · simp [setWays_cache, (refill_flags c _ _ _ _ _).2.2.2]
        · simp [setWays_cache, (refill_flags c _ _ _ _ _).2.2.1]
        · simp [setWays_cache]
        · intro i w hi; simp [setWays_cache, hi]

theorem shape_setLine (m : MemSys) (h : Shape m) (i w : Nat) (l : Cacheline)
    (hv : IS_VALID l = true) (hv0 : IS_VALID (m.cache i w) = true)
    (ht : l.tag = (m.cache i w).tag) (hl : IS_LRU l = IS_LRU (m.cache i w)) :
    Shape (m.setLine i w l) := by
  have key : ∀ idx w', IS_VALID ((m.setLine i w l).cache idx w') = IS_VALID (m.cache idx w') ∧
      ((m.setLine i w l).cache idx w').tag = (m.cache idx w').tag ∧
      IS_LRU ((m.setLine i w l).cache idx w') = IS_LRU (m.cache idx w') := by
    intro idx w'
    rw [setLine_cache]
    by_cases hh : idx = i ∧ w' = w
    · obtain ⟨rfl, rfl⟩ := hh
      simp [hv, hv0, ht, hl]
    · rw [if_neg hh]; exact ⟨rfl, rfl, rfl⟩
  constructor
  · intro idx w' hd
    rw [setLine_cache] at hd ⊢
    by_cases hh : idx = i ∧ w' = w
    · rw [if_pos hh]; exact hv
    · rw [if_neg hh] at hd ⊢; exact h.dirty_valid idx w' hd
  · intro idx
    rw [(key idx 0).1, (key idx 1).1, (key idx 0).2.1, (key idx 1).2.1]
    exact h.nodup idx
  · intro idx
    rw [(key idx 0).2.2, (key idx 1).2.2]
    exact h.one_lru idx

theorem step_shape (c : Config) (m : MemSys) (op : Op) (h : Shape m) :
    Shape (cache_step c m op).1 := by
  cases op with
  | read a s => exact locate_shape c m a h
  | write a p s =>
    obtain ⟨_, u1, _, _, _, _⟩ := locate_used c m a
    show Shape (cache_write c m a p s)
    unfold cache_write
    simp only []
    apply shape_setLine _ (locate_shape c m a h)
    · simpa using u1
    · exact u1
    · rfl
    · rw [lru_SET_DIRTY]; rfl
  | flush =>
    exact ⟨h.dirty_valid, h.nodup, h.one_lru⟩

theorem run_shape (c : Config) (ops : List Op) :
    ∀ (m : MemSys), Shape m → Shape (cache_run c m ops).1 := by
  induction ops with
  | nil => intro m h; exact h
  | cons op ops ih =>
    intro m h
    simp only [cache_run]
    exact ih _ (step_shape c m op h)

end TinyRv32


namespace TinyRv32

/-! ## No duplicate tags, and the LRU flags -/

/-- With no two valid ways of a set holding the same tag, the lookup finds the same
line whichever way it tests first. -/
theorem locate_order (c : Config) (m : MemSys) (h : Shape m) (a : Nat) :
    locate c m a = locate_way1_first c m a := by
  have hn := h.nodup (INDEX c a % 65536)
  unfold locate locate_way1_first
  simp only []
  by_cases h0 : (TAG c a % 65536 == (m.cache (INDEX c a % 65536) 0).tag &&
      IS_VALID (m.cache (INDEX c a % 65536) 0)) = true
  · have h1 : ¬ (TAG c a % 65536 == (m.cache (INDEX c a % 65536) 1).tag &&
        IS_VALID (m.cache (INDEX c a % 65536) 1)) = true := by
      intro h1
      simp only [Bool.and_eq_true, beq_iff_eq] at h0 h1
      exact hn ⟨h0.2, h1.2, by rw [← h0.1, ← h1.1]⟩
    rw [if_pos h0, if_neg h1, if_pos h0]
  · rw [if_neg h0]
    by_cases h1 : (TAG c a % 65536 == (m.cache (INDEX c a % 65536) 1).tag &&
        IS_VALID (m.cache (INDEX c a % 65536) 1)) = true
    · rw [if_pos h1, if_pos h1]
    · rw [if_neg h1, if_neg h1, if_neg h0]

/-- The accessed set after a `cache_read` or `cache_write` at `a`: the way the lookup
used holds the line of `a` and has its LRU bit clear, its sibling has the LRU bit set,
and the other sets are as before. -/
theorem step_used (c : Config) (m : MemSys) (op : Op) (a : Nat) (hop : op.accessAt a) :
    IS_VALID ((cache_step c m op).1.cache (INDEX c a % 65536) (locate c m a).2) = true ∧
    ((cache_step c m op).1.cache (INDEX c a % 65536) (locate c m a).2).tag
      = TAG c a % 65536 ∧
    IS_LRU ((cache_step c m op).1.cache (INDEX c a % 65536) (locate c m a).2) = false ∧
    IS_LRU ((cache_step c m op).1.cache (INDEX c a % 65536) (1 - (locate c m a).2)) = true ∧
    ∀ i w, i ≠ INDEX c a % 65536 → (cache_step c m op).1.cache i w = m.cache i w := by
  obtain ⟨u0, u1, u2, u3, u4, u5⟩ := locate_used c m a
  cases op with
  | read a' s =>
    have : a' = a := hop
    subst this
    exact ⟨u1, u2, u3, u4, u5⟩
  | write a' p s =>
    have : a' = a := hop
    subst this
    have hne : ¬ (1 - (locate c m a').2 = (locate c m a').2) := by
      rcases u0 with e | e <;> rw [e] <;> decide
    simp only [cache_step, cache_write]
    refine ⟨?_, ?_, ?_, ?_, ?_⟩
    · rw [setLine_cache, if_pos ⟨rfl, rfl⟩, valid_SET_DIRTY]; exact u1
    · rw [setLine_cache, if_pos ⟨rfl, rfl⟩]; exact u2
    · rw [setLine_cache, if_pos ⟨rfl, rfl⟩, lru_SET_DIRTY]; exact u3
    · rw [setLine_cache, if_neg (fun e => hne e.2)]; exact u4
    · intro i w hi
      rw [setLine_cache, if_neg (fun e => hi e.1)]
      exact u5 i w hi
  | flush => exact absurd hop (by simp [Op.accessAt])

/-- C12: no duplicate tags in a set.  In every state that a sequence of `cache_read`,
`cache_write` and `cache_flush` calls (each inside its line) produces from
`cache_reset`, no set has both ways valid with the same tag; and the lookup with the
hit test of `cache[index][1]` placed before that of `cache[index][0]` gives for every
address the same way and the same state as the lookup of the code. -/
theorem no_duplicate_tags (c : Config) (m : MemSys) (hm : ReachableInLine c m) :
    (∀ idx, ¬ (IS_VALID (m.cache idx 0) = true ∧ IS_VALID (m.cache idx 1) = true ∧
      (m.cache idx 0).tag = (m.cache idx 1).tag)) ∧
    ∀ addr, locate c m addr = locate_way1_first c m addr := by
  obtain ⟨m0, ops, _, rfl⟩ := hm
  have hs : Shape (cache_run c (cache_reset m0) ops).1 :=
    run_shape c ops _ (shape_reset m0)
  exact ⟨hs.nodup, fun addr => locate_order c _ hs addr⟩

theorem no_duplicate_tags_witness :
    ReachableInLine cfg67 (cache_run cfg67 (cache_reset demoSys) alternatingOps).1 ∧
    ((∀ idx,
      ¬ (IS_VALID ((cache_run cfg67 (cache_reset demoSys) alternatingOps).1.cache idx 0) = true ∧
        IS_VALID ((cache_run cfg67 (cache_reset demoSys) alternatingOps).1.cache idx 1) = true ∧
        ((cache_run cfg67 (cache_reset demoSys) alternatingOps).1.cache idx 0).tag =
          ((cache_run cfg67 (cache_reset demoSys) alternatingOps).1.cache idx 1).tag)) ∧
    ∀ addr, locate cfg67 (cache_run cfg67 (cache_reset demoSys) alternatingOps).1 addr =
      locate_way1_first cfg67 (cache_run cfg67 (cache_reset demoSys) alternatingOps).1 addr) :=
  ⟨⟨demoSys, alternatingOps, by decide, rfl⟩,
    no_duplicate_tags cfg67 _ ⟨demoSys, alternatingOps, by decide, rfl⟩⟩

/-- C13: LRU flag invariant.  In every state `m` that a sequence of `cache_read`,
`cache_write` and `cache_flush` calls (each inside its line) produces from
`cache_reset`, no set has the LRU bit set in both ways; and after a further
`cache_read` or `cache_write` at address `a`, in the set of `a` the way that the lookup
hit or refilled (way 0 or way 1; it holds the line of `a`) has its LRU bit clear and
its sibling has the LRU bit set, so exactly one way of the set carries it, while the
LRU bits of all other sets are as before the call. -/
theorem lru_flag_invariant (c : Config) (m : MemSys) (hm : ReachableInLine c m)
    (op : Op) (a : Nat) (hop : op.accessAt a ∧ op.inLine c) :
    (∀ idx, ¬ (IS_LRU (m.cache idx 0) = true ∧ IS_LRU (m.cache idx 1) = true)) ∧
    ((locate c m a).2 = 0 ∨ (locate c m a).2 = 1) ∧
    IS_VALID ((cache_step c m op).1.cache (INDEX c a % 65536) (locate c m a).2) = true ∧
    ((cache_step c m op).1.cache (INDEX c a % 65536) (locate c m a).2).tag
      = TAG c a % 65536 ∧
    IS_LRU ((cache_step c m op).1.cache (INDEX c a % 65536) (locate c m a).2) = false ∧
    IS_LRU ((cache_step c m op).1.cache (INDEX c a % 65536) (1 - (locate c m a).2)) = true ∧
    ∀ i w, i ≠ INDEX c a % 65536 →
      IS_LRU ((cache_step c m op).1.cache i w) = IS_LRU (m.cache i w) := by
  obtain ⟨m0, ops, _, rfl⟩ := hm
  have hs : Shape (cache_run c (cache_reset m0) ops).1 :=
    run_shape c ops _ (shape_reset m0)
  obtain ⟨s1, s2, s3, s4, s5⟩ :=
    step_used c (cache_run c (cache_reset m0) ops).1 op a hop.1
  exact ⟨hs.one_lru, (locate_used c _ a).1, s1, s2, s3, s4,
    fun i w hi => by rw [s5 i w hi]⟩

theorem lru_flag_invariant_witness :
    ReachableInLine cfg67 s2Second ∧
    (Op.accessAt 0x4000 (Op.write 0x4000 [0x33] 1) ∧
      Op.inLine cfg67 (Op.write 0x4000 [0x33] 1)) ∧
    ((∀ idx, ¬ (IS_LRU (s2Second.cache idx 0) = true ∧ IS_LRU (s2Second.cache idx 1) = true)) ∧
    ((locate cfg67 s2Second 0x4000).2 = 0 ∨ (locate cfg67 s2Second 0x4000).2 = 1) ∧
    IS_VALID ((cache_step cfg67 s2Second (Op.write 0x4000 [0x33] 1)).1.cache
      (INDEX cfg67 0x4000 % 65536) (locate cfg67 s2Second 0x4000).2) = true ∧
    ((cache_step cfg67 s2Second (Op.write 0x4000 [0x33] 1)).1.cache
      (INDEX cfg67 0x4000 % 65536) (locate cfg67 s2Second 0x4000).2).tag
      = TAG cfg67 0x4000 % 65536 ∧
    IS_LRU ((cache_step cfg67 s2Second (Op.write 0x4000 [0x33] 1)).1.cache
      (INDEX cfg67 0x4000 % 65536) (locate cfg67 s2Second 0x4000).2) = false ∧
    IS_LRU ((cache_step cfg67 s2Second (Op.write 0x4000 [0x33] 1)).1.cache
      (INDEX cfg67 0x4000 % 65536) (1 - (locate cfg67 s2Second 0x4000).2)) = true ∧
    ∀ i w, i ≠ INDEX cfg67 0x4000 % 65536 →
      IS_LRU ((cache_step cfg67 s2Second (Op.write 0x4000 [0x33] 1)).1.cache i w) =
        IS_LRU (s2Second.cache i w)) :=
  ⟨⟨demoSys, [Op.write 0 [0x11] 1, Op.write 0x2000 [0x22] 1], by decide, rfl⟩,
    ⟨by decide, by decide⟩,
    lru_flag_invariant cfg67 s2Second
      ⟨demoSys, [Op.write 0 [0x11] 1, Op.write 0x2000 [0x22] 1], by decide, rfl⟩
      (Op.write 0x4000 [0x33] 1) 0x4000 ⟨by decide, by decide⟩⟩

end TinyRv32


namespace TinyRv32

/-! ## Tags of valid lines stay in range -/

theorem bounded_reset (c : Config) (m0 : MemSys) : Bounded c (cache_reset m0) := by
  intro idx w h; simp [cache_reset, IS_VALID] at h

theorem bounded_setWays (c : Config) (m : MemSys) (h : Bounded c m) (i : Nat)
    (w1 w2 : Cacheline) (p : Mem)
    (b1 : IS_VALID w1 = true →
      i < 2 ^ c.INDEX_BITS ∧ w1.tag < 2 ^ (ADDR_BITS - c.OFFSET_BITS - c.INDEX_BITS))
    (b2 : IS_VALID w2 = true →
      i < 2 ^ c.INDEX_BITS ∧ w2.tag < 2 ^ (ADDR_BITS - c.OFFSET_BITS - c.INDEX_BITS)) :
    Bounded c (m.setWays i w1 w2 p) := by
  intro idx w
  rw [setWays_cache]
  by_cases h0 : idx = i ∧ w = 0
  · rw [if_pos h0, h0.1]; exact b1
  · rw [if_neg h0]
    by_cases h1 : idx = i ∧ w = 1
    · rw [if_pos h1, h1.1]; exact b2
    · rw [if_neg h1]; exact h idx w

theorem locate_bounded (c : Config) (hc : c.Valid) (m : MemSys) (a : Nat) (ha : a < 2 ^ 24)
    (h : Bounded c m) : Bounded c (locate c m a).1 := by
  have hb := h (INDEX c a % 65536)
  have hnew : INDEX c a % 65536 < 2 ^ c.INDEX_BITS ∧
      TAG c a % 65536 < 2 ^ (ADDR_BITS - c.OFFSET_BITS - c.INDEX_BITS) := by
    rw [index_mod c hc, tag_mod c hc a ha]
    exact ⟨INDEX_lt c a, TAG_lt c hc a ha⟩
  unfold locate
  simp only []
  split_ifs
  · apply bounded_setWays c m h
    · intro hv; exact hb 0 (by simpa using hv)
    · intro hv; exact hb 1 (by simpa using hv)
  · apply bounded_setWays c m h
    · intro hv; exact hb 0 (by simpa using hv)
    · intro hv; exact hb 1 (by simpa using hv)
  · apply bounded_setWays c m h
    · intro _; rw [(refill_flags c _ _ _ _ _).2.2.2]; exact hnew
    · intro hv; exact hb 1 (by simpa using hv)
  · apply bounded_setWays c m h
    · intro hv; exact hb 0 (by simpa using hv)
    · intro _; rw [(refill_flags c _ _ _ _ _).2.2.2]; exact hnew

theorem step_bounded (c : Config) (hc : c.Valid) (m : MemSys) (op : Op)
    (hop : op.below (2 ^ ADDR_BITS)) (h : Bounded c m) : Bounded c (cache_step c m op).1 := by
  cases op with
  | read a s => exact locate_bounded c hc m a hop h
  | write a p s =>
    have hl := locate_bounded c hc m a hop h
    intro idx w
    simp only [cache_step, cache_write]
    rw [setLine_cache]
    by_cases hh : idx = INDEX c a % 65536 ∧ w = (locate c m a).2
    · rw [if_pos hh, valid_SET_DIRTY]
      intro hv
      have := hl (INDEX c a % 65536) (locate c m a).2 hv
      rw [hh.1]
      exact this
    · rw [if_neg hh]; exact hl idx w
  | flush => exact h

theorem run_bounded (c : Config) (hc : c.Valid) (ops : List Op) :
    ∀ (m : MemSys), (∀ op ∈ ops, op.below (2 ^ ADDR_BITS)) → Bounded c m →
      Bounded c (cache_run c m ops).1 := by
  induction ops with
  | nil => intro m _ h; exact h
  | cons op ops ih =>
    intro m hb h
    simp only [cache_run]
    exact ih _ (fun o ho => hb o (List.mem_cons_of_mem _ ho))
      (step_bounded c hc m op (hb op (List.mem_cons_self _ _)) h)

/-! ## The write commands of `cache_flush` -/

theorem psram_replay_append (p : Mem) (l1 l2 : List PsramWrite) :
    psram_replay p (l1 ++ l2) = psram_replay (psram_replay p l1) l2 := by
  induction l1 generalizing p with
  | nil => rfl
  | cons w ws ih => simp only [List.cons_append, psram_replay]; exact ih _

theorem buf_bytes_length (buf : Nat → Nat) (ofs n : Nat) : (buf_bytes buf ofs n).length = n := by
  simp [buf_bytes]

theorem buf_bytes_getD (buf : Nat → Nat) (n i : Nat) (hi : i < n) :
    (buf_bytes buf 0 n).getD i 0 = buf i := by
  simp [buf_bytes, List.getD_eq_getElem?_getD, List.getElem?_map, List.getElem?_range hi]

/-- The write commands listed for `flush_line` are the writes it performs. -/
theorem flush_line_replay (c : Config) (p : Mem) (line : Cacheline) (index : Nat) :
    flush_line c p line index = psram_replay p (flush_line_writes c line index) := by
  unfold flush_line flush_line_writes
  by_cases hd : IS_DIRTY line = true
  · rw [if_pos hd, if_pos hd]
    simp only [psram_replay, buf_bytes_length]
    rw [psram_write_eq, psram_write_eq]
    funext x
    unfold chip_write
    by_cases hx : flush_base c line (index % 65536) % 16777216 ≤ x ∧
        x < flush_base c line (index % 65536) % 16777216 + CACHE_LINE_SIZE c
    · rw [if_pos hx, if_pos hx]
      exact (buf_bytes_getD line.data (CACHE_LINE_SIZE c) _ (by omega)).symm
    · rw [if_neg hx, if_neg hx]
  · rw [if_neg hd, if_neg hd]; rfl

/-- The write commands listed for the loop of `cache_flush` are the writes it performs. -/
theorem cache_flush_replay (c : Config) (m : MemSys) (n : Nat) :
    cache_flush_upto c m n = psram_replay m.psram (cache_flush_writes_upto c m n) := by
  induction n with
  | zero => rfl
  | succ n ih =>
    simp only [cache_flush_upto, cache_flush_writes_upto]
    rw [psram_replay_append, psram_replay_append, ← ih, ← flush_line_replay,
      ← flush_line_replay]

theorem writeback_addr_eq (c : Config) (tag idx : Nat) (hidx : idx < 2 ^ c.INDEX_BITS) :
    writeback_addr c tag idx = 2 ^ c.OFFSET_BITS * lineNo c tag idx := by
  have hlt : idx * 2 ^ c.OFFSET_BITS < 2 ^ (c.OFFSET_BITS + c.INDEX_BITS) := by
    rw [pow_add, Nat.mul_comm]
    exact Nat.mul_lt_mul_of_pos_left hidx (Nat.two_pow_pos _)
  unfold writeback_addr lineNo
  rw [Nat.shiftLeft_eq, Nat.shiftLeft_eq, Nat.mul_comm tag, ← Nat.mul_add_lt_is_or hlt,
    pow_add]
  ring

theorem flush_line_writes_eq (c : Config) (hc : c.Valid) (m : MemSys) (hs : Shape m)
    (hb : Bounded c m) (idx w : Nat) (hidx : idx < 2 ^ c.INDEX_BITS) :
    flush_line_writes c (m.cache idx w) idx =
      if IS_VALID (m.cache idx w) && IS_DIRTY (m.cache idx w) then
        [⟨writeback_addr c (m.cache idx w).tag idx,
          buf_bytes (m.cache idx w).data 0 (CACHE_LINE_SIZE c)⟩]
      else [] := by
  unfold flush_line_writes
  by_cases hd : IS_DIRTY (m.cache idx w) = true
  · have hv := hs.dirty_valid idx w hd
    have him : idx % 65536 = idx := Nat.mod_eq_of_lt (lt_of_lt_of_le hidx (idx_bound_16 c hc))
    rw [if_pos hd, him, (flush_base_line c hc _ idx hidx (hb idx w hv).2).1,
      writeback_addr_eq c _ idx hidx]
    simp [hv, hd]
  · rw [if_neg hd]
    simp [hd]

theorem cache_flush_writes_upto_eq (c : Config) (hc : c.Valid) (m : MemSys) (hs : Shape m)
    (hb : Bounded c m) (n : Nat) (hn : n ≤ 2 ^ c.INDEX_BITS) :
    cache_flush_writes_upto c m n =
      (List.range n).flatMap fun idx =>
        [0, 1].flatMap fun w =>
          if IS_VALID (m.cache idx w) && IS_DIRTY (m.cache idx w) then
            [⟨writeback_addr c (m.cache idx w).tag idx,
              buf_bytes (m.cache idx w).data 0 (CACHE_LINE_SIZE c)⟩]
          else [] := by
  induction n with
  | zero => rfl
  | succ n ih =>
    rw [cache_flush_writes_upto, ih (by omega), List.range_succ, List.flatMap_append,
      flush_line_writes_eq c hc m hs hb n 0 (by omega),
      flush_line_writes_eq c hc m hs hb n 1 (by omega)]
    simp [List.flatMap, List.append_assoc]

end TinyRv32


namespace TinyRv32

/-! ## What `cache_flush` writes -/

theorem reachable_below_shape (c : Config) (hc : c.Valid) (m : MemSys)
    (hm : ReachableBelow c m) : Shape m ∧ Bounded c m := by
  obtain ⟨m0, ops, hops, rfl⟩ := hm
  exact ⟨run_shape c ops _ (shape_reset m0),
    run_bounded c hc ops _ (fun o ho => (hops o ho).2) (bounded_reset c m0)⟩

theorem writeback_addr_line (c : Config) (hc : c.Valid) (tag idx : Nat)
    (hidx : idx < 2 ^ c.INDEX_BITS)
    (ht : tag < 2 ^ (ADDR_BITS - c.OFFSET_BITS - c.INDEX_BITS)) :
    writeback_addr c tag idx % CACHE_LINE_SIZE c = 0 ∧
    writeback_addr c tag idx < 2 ^ ADDR_BITS ∧
    TAG c (writeback_addr c tag idx) = tag ∧
    INDEX c (writeback_addr c tag idx) = idx ∧
    ∀ a, a < 2 ^ ADDR_BITS → TAG c a = tag → INDEX c a = idx →
      BASE c a = writeback_addr c tag idx := by
  have hL : 0 < 2 ^ c.OFFSET_BITS := Nat.two_pow_pos _
  have hlt := lineNo_lt c hc hidx ht
  have hf := line_addr_fields c tag idx 0 hidx hL
  rw [Nat.add_zero] at hf
  rw [writeback_addr_eq c tag idx hidx, CACHE_LINE_SIZE_eq]
  refine ⟨Nat.mul_mod_right _ _, ?_, hf.2.1, hf.1, ?_⟩
  · show _ < 2 ^ 24
    omega
  · intro a ha htag hidx'
    rw [(BASE_line c hc a ha).1, div_line, htag, hidx']

/-- C14: flush writes back exactly the dirty valid lines and does not touch the cache.
In every state `m` that a sequence of `cache_read`, `cache_write` and `cache_flush`
calls (each inside its line, addresses below `2^24`) produces from `cache_reset`:
the `psram_write` calls that `cache_flush` issues (replaying them gives the PSRAM
that `cache_flush` leaves) are one write of `CACHE_LINE_SIZE` bytes for each line that
is both valid and dirty, at `(tag << (OFFSET_BITS + INDEX_BITS)) | (index <<
OFFSET_BITS)`, and none for any other line; no line is dirty without being valid; for
a valid line that address is line-aligned, below `2^24`, has the tag and the set of
the line, and is `BASE(a)` for every address `a` of the line, which is where the miss
branch reads the line from (after a lookup of `a` the line used has the write-back
address `BASE(a)`); and `cache_flush` leaves tag, data and status of every line as
they were. -/
theorem flush_writes_back_dirty_valid_lines (c : Config) (hc : c.Valid) (m : MemSys)
    (hm : ReachableBelow c m) :
    cache_flush_writes c m = dirty_valid_writes c m ∧
    (cache_flush c m).psram = psram_replay m.psram (cache_flush_writes c m) ∧
    (∀ idx w, IS_DIRTY (m.cache idx w) = true → IS_VALID (m.cache idx w) = true) ∧
    (∀ idx w, IS_VALID (m.cache idx w) = true →
      writeback_addr c (m.cache idx w).tag idx % CACHE_LINE_SIZE c = 0 ∧
      writeback_addr c (m.cache idx w).tag idx < 2 ^ ADDR_BITS ∧
      TAG c (writeback_addr c (m.cache idx w).tag idx) = (m.cache idx w).tag ∧
      INDEX c (writeback_addr c (m.cache idx w).tag idx) = idx ∧
      ∀ a, a < 2 ^ ADDR_BITS → TAG c a = (m.cache idx w).tag → INDEX c a = idx →
        BASE c a = writeback_addr c (m.cache idx w).tag idx) ∧
    (∀ a, a < 2 ^ ADDR_BITS →
      writeback_addr c ((locate c m a).1.cache (INDEX c a) (locate c m a).2).tag (INDEX c a)
        = BASE c a) ∧
    (cache_flush c m).cache = m.cache := by
  obtain ⟨hs, hb⟩ := reachable_below_shape c hc m hm
  refine ⟨?_, ?_, hs.dirty_valid, ?_, ?_, rfl⟩
  · unfold cache_flush_writes dirty_valid_writes
    rw [CACHE_SET_SIZE_eq]
    exact cache_flush_writes_upto_eq c hc m hs hb _ (le_refl _)
  · exact cache_flush_replay c m (CACHE_SET_SIZE c)
  · intro idx w hv
    exact writeback_addr_line c hc _ idx (hb idx w hv).1 (hb idx w hv).2
  · intro a ha
    obtain ⟨_, _, ht, _, _⟩ := locate_lru c hc m a ha
    rw [ht]
    exact ((writeback_addr_line c hc (TAG c a) (INDEX c a) (INDEX_lt c a)
      (TAG_lt c hc a ha)).2.2.2.2 a ha rfl rfl).symm

theorem flush_writes_back_dirty_valid_lines_witness :
    cfg67.Valid ∧
    ReachableBelow cfg67 (cache_run cfg67 (cache_reset demoSys) alternatingOps).1 ∧
    (cache_flush_writes cfg67 (cache_run cfg67 (cache_reset demoSys) alternatingOps).1 =
      dirty_valid_writes cfg67 (cache_run cfg67 (cache_reset demoSys) alternatingOps).1 ∧
    (cache_flush cfg67 (cache_run cfg67 (cache_reset demoSys) alternatingOps).1).psram =
      psram_replay (cache_run cfg67 (cache_reset demoSys) alternatingOps).1.psram
        (cache_flush_writes cfg67 (cache_run cfg67 (cache_reset demoSys) alternatingOps).1) ∧
    (∀ idx w,
      IS_DIRTY ((cache_run cfg67 (cache_reset demoSys) alternatingOps).1.cache idx w) = true →
      IS_VALID ((cache_run cfg67 (cache_reset demoSys) alternatingOps).1.cache idx w) = true) ∧
    (∀ idx w,
      IS_VALID ((cache_run cfg67 (cache_reset demoSys) alternatingOps).1.cache idx w) = true →
      writeback_addr cfg67
        ((cache_run cfg67 (cache_reset demoSys) alternatingOps).1.cache idx w).tag idx
          % CACHE_LINE_SIZE cfg67 = 0 ∧
      writeback_addr cfg67
        ((cache_run cfg67 (cache_reset demoSys) alternatingOps).1.cache idx w).tag idx
          < 2 ^ ADDR_BITS ∧
      TAG cfg67 (writeback_addr cfg67
        ((cache_run cfg67 (cache_reset demoSys) alternatingOps).1.cache idx w).tag idx) =
          ((cache_run cfg67 (cache_reset demoSys) alternatingOps).1.cache idx w).tag ∧
      INDEX cfg67 (writeback_addr cfg67
        ((cache_run cfg67 (cache_reset demoSys) alternatingOps).1.cache idx w).tag idx) = idx ∧
      ∀ a, a < 2 ^ ADDR_BITS →
        TAG cfg67 a =
          ((cache_run cfg67 (cache_reset demoSys) alternatingOps).1.cache idx w).tag →
        INDEX cfg67 a = idx →
        BASE cfg67 a = writeback_addr cfg67
          ((cache_run cfg67 (cache_reset demoSys) alternatingOps).1.cache idx w).tag idx) ∧
    (∀ a, a < 2 ^ ADDR_BITS →
      writeback_addr cfg67
        ((locate cfg67 (cache_run cfg67 (cache_reset demoSys) alternatingOps).1 a).1.cache
          (INDEX cfg67 a)
          (locate cfg67 (cache_run cfg67 (cache_reset demoSys) alternatingOps).1 a).2).tag
        (INDEX cfg67 a) = BASE cfg67 a) ∧
    (cache_flush cfg67 (cache_run cfg67 (cache_reset demoSys) alternatingOps).1).cache =
      (cache_run cfg67 (cache_reset demoSys) alternatingOps).1.cache) :=
  ⟨by decide, ⟨demoSys, alternatingOps, by decide, rfl⟩,
    flush_writes_back_dirty_valid_lines cfg67 (by decide)
      (cache_run cfg67 (cache_reset demoSys) alternatingOps).1
      ⟨demoSys, alternatingOps, by decide, rfl⟩⟩

end TinyRv32


namespace TinyRv32

/-! ## The cache calls of the cold-boot DTB patching -/

theorem cache_run_append (c : Config) (l1 l2 : List Op) :
    ∀ (m : MemSys), (cache_run c m (l1 ++ l2)).1 = (cache_run c (cache_run c m l1).1 l2).1 := by
  induction l1 with
  | nil => intro m; rfl
  | cons op ops ih => intro m; simp only [List.cons_append, cache_run]; exact ih _

/-- Replaying the calls listed for the sentinel scan gives the memory the scan leaves. -/
theorem dtb_patch_ram_calls_run (c : Config) (ram dtb_ptr : Nat) :
    ∀ (fuel : Nat) (m : MemSys) (i : Nat),
      (cache_run c m (dtb_patch_ram_calls c ram dtb_ptr fuel m i)).1 =
        dtb_patch_ram c ram dtb_ptr fuel m i := by
  intro fuel
  induction fuel with
  | zero => intro m i; rfl
  | succ f ih =>
    intro m i
    rw [dtb_patch_ram_calls, dtb_patch_ram]
    by_cases hi : i < ram
    · rw [if_pos hi, if_pos hi]
      simp only [cache_run]
      by_cases hs : (MINIRV32_LOAD4 c m i).2 = 0x00c0ff03
      · rw [if_pos hs, if_pos hs]; rfl
      · rw [if_neg hs, if_neg hs]
        exact ih _ _
    · rw [if_neg hi, if_neg hi]; rfl

/-- Replaying the calls listed for the placeholder scan gives the memory the scan
leaves. -/
theorem cmdline_scan_calls_run (c : Config) (ram : Nat) :
    ∀ (fuel : Nat) (m : MemSys) (ptr : Nat),
      (cache_run c m (cmdline_scan_calls c ram fuel m ptr)).1 =
        (cmdline_scan c ram fuel m ptr).1 := by
  intro fuel
  induction fuel with
  | zero => intro m ptr; rfl
  | succ f ih =>
    intro m ptr
    rw [cmdline_scan_calls, cmdline_scan]
    simp only [cache_run]
    by_cases hs : (MINIRV32_LOAD4 c m ((ptr + 1) % 4294967296)).2 ≠ 0x64636261 ∧
        (ptr + 1) % 4294967296 < ram
    · rw [if_pos hs, if_pos hs]
      have e : (cache_step c m (Op.read ((ptr + 1) % 4294967296 % 4294967296) 4)).1 =
          (MINIRV32_LOAD4 c m ((ptr + 1) % 4294967296)).1 := rfl
      rw [e]
      exact ih _ _
    · rw [if_neg hs, if_neg hs]; rfl

/-- Replaying the calls listed for the command-line stores gives the memory the stores
leave. -/
theorem cmdline_store_calls_run (c : Config) (chars : List Nat) :
    ∀ (m : MemSys) (ptr : Nat),
      (cache_run c m (cmdline_store_calls chars ptr)).1 = cmdline_store c chars m ptr := by
  induction chars with
  | nil => intro m ptr; rfl
  | cons ch rest ih =>
    intro m ptr
    rw [cmdline_store_calls, cmdline_store]
    simp only [cache_run]
    exact ih _ _

/-- The calls listed in `cold_boot_calls` are the cache calls of `cold_boot`: replaying
them on the memory that the load of the DTB file left gives the memory of the machine
that `cold_boot` returns. -/
theorem cold_boot_calls_run (cfg : VmConfig) (vm vm2 : VM) (h : cold_boot cfg vm = some vm2) :
    ∃ vm1,
      psram_load_file cfg { vm with sto := (pf_open vm.sto FileName.DTB_FILENAME).2 }
        ((ram_amt cfg + 4294967296 - cfg.DTB_SIZE % 4294967296) % 4294967296) = some vm1 ∧
      vm2.mem = (cache_run cfg.cache vm1.mem (cold_boot_calls cfg vm1.mem)).1 := by
  unfold cold_boot at h
  simp only [] at h
  by_cases ho : (pf_open vm.sto FileName.DTB_FILENAME).1 ≠ 0
  · rw [if_pos ho] at h; exact absurd h (by simp)
  · rw [if_neg ho] at h
    cases hload : psram_load_file cfg
        { vm with sto := (pf_open vm.sto FileName.DTB_FILENAME).2 }
        ((ram_amt cfg + 4294967296 - cfg.DTB_SIZE % 4294967296) % 4294967296) with
    | none => rw [hload] at h; exact absurd h (by simp)
    | some vm1 =>
      rw [hload] at h
      refine ⟨vm1, rfl, ?_⟩
      injection h with h
      rw [← h]
      unfold cold_boot_calls
      simp only []
      rw [cache_run_append, cache_run_append, dtb_patch_ram_calls_run, cmdline_scan_calls_run,
        cmdline_store_calls_run]

/-- When none of the first `n` words that the placeholder scan reads is the placeholder
(and they lie inside their lines, below `ram_amt`), the scan goes on to read the four
bytes at `ptr + 1 + n`. -/
theorem cmdline_scan_calls_reach (c : Config) (hc : c.Valid) (ram : Nat) (hram : ram ≤ 2 ^ 24)
    (n : Nat) :
    ∀ (fuel : Nat) (m : MemSys) (ptr : Nat), Inv c m → n < fuel → ptr + n < ram →
      (∀ k, k < n → OFFSET c (ptr + 1 + k) + 4 ≤ CACHE_LINE_SIZE c) →
      (∀ k, k < n → le_value (flat_read (view c m) (ptr + 1 + k) 4) ≠ 0x64636261) →
      Op.read (ptr + 1 + n) 4 ∈ cmdline_scan_calls c ram fuel m ptr := by
  have h24 : (2:Nat) ^ 24 = 16777216 := by norm_num
  induction n with
  | zero =>
    intro fuel m ptr _ hf hlt _ _
    obtain ⟨f, rfl⟩ : ∃ f, fuel = f + 1 := ⟨fuel - 1, by omega⟩
    have hp : (ptr + 1) % 4294967296 = ptr + 1 := Nat.mod_eq_of_lt (by omega)
    rw [cmdline_scan_calls]
    simp only [hp, Nat.add_zero]
    exact List.mem_cons_self _ _
  | succ n ih =>
    intro fuel m ptr hinv hf hlt hoff hval
    obtain ⟨f, rfl⟩ : ∃ f, fuel = f + 1 := ⟨fuel - 1, by omega⟩
    have hp : (ptr + 1) % 4294967296 = ptr + 1 := Nat.mod_eq_of_lt (by omega)
    have ho0 := hoff 0 (by omega)
    have hv0 := hval 0 (by omega)
    rw [Nat.add_zero] at ho0 hv0
    obtain ⟨l1, l2, l3⟩ := cache_read_spec c hc m hinv (ptr + 1) 4 (by omega) (by norm_num) ho0
    have hl : (MINIRV32_LOAD4 c m (ptr + 1)).2 = le_value (flat_read (view c m) (ptr + 1) 4) := by
      unfold MINIRV32_LOAD4
      rw [hp]
      show le_value (cache_read c m (ptr + 1) 4).2 = _
      rw [l3]
    have hm1 : (MINIRV32_LOAD4 c m (ptr + 1)).1 = (cache_read c m (ptr + 1) 4).1 := by
      unfold MINIRV32_LOAD4
      rw [hp]
    rw [cmdline_scan_calls]
    simp only [hp]
    rw [if_pos ⟨by rw [hl]; exact hv0, by omega⟩]
    apply List.mem_cons_of_mem
    have e : ∀ k, ptr + 1 + 1 + k = ptr + 1 + (k + 1) := by intro k; omega
    have := ih f (MINIRV32_LOAD4 c m (ptr + 1)).1 (ptr + 1) (by rw [hm1]; exact l1) (by omega)
      (by omega)
      (by intro k hk; rw [e]; exact hoff (k + 1) (by omega))
      (by
        intro k hk
        rw [hm1, funext l2, e]
        exact hval (k + 1) (by omega))
    rw [e] at this
    exact this

end TinyRv32


namespace TinyRv32

/-! ## The placeholder scan of the cold boot reads across a line boundary -/

/-- C11: the cold-boot DTB patching does not respect the no-cross-line precondition of
the cache.  With 64-byte lines, 16 MB of RAM and a 2 KB device tree loaded at
`0xFFF800` (the sentinel in its third word, no placeholder `"abcd"` in its first 64
bytes), the loop `while (MINIRV32_LOAD4(++ptr) != 0x64636261 && ptr < ram_amt)` of
`start_vm` advances `ptr` by one byte per iteration: among the cache calls of the
patching are the 4-byte reads at `0xFFF801` and at `0xFFF83D`; the latter has
`offset = 61`, so `offset + size = 65 > CACHE_LINE_SIZE = 64`, and the copy loop of
`cache_read` reads `line->data[64]`, beyond the last element of the array. -/
theorem cold_boot_scan_reads_across_line :
    Op.read 0xFFF801 4 ∈ cold_boot_calls demoCfg dtbSys ∧
    Op.read 0xFFF83D 4 ∈ cold_boot_calls demoCfg dtbSys ∧
    CACHE_LINE_SIZE demoCfg.cache = 64 ∧
    OFFSET demoCfg.cache 0xFFF83D = 61 ∧
    ¬ (Op.read 0xFFF83D 4).inLine demoCfg.cache ∧
    Op.indexes demoCfg.cache (Op.read 0xFFF83D 4) = [61, 62, 63, 64] := by
  have hinv0 : Inv cfg67 dtbSys := inv_reset cfg67 _
  obtain ⟨g1, g2⟩ := dtb_patch_ram_spec cfg67 (by decide) (by decide) 16777216 0xFFF800
    (by norm_num) 2 ((16777216 - 0xFFF800 + 3) / 4) dtbSys 0xFFF800 hinv0 (by decide)
    (by decide) (by decide) (by decide) (by decide)
  have hoff : ∀ k, k < 60 → OFFSET cfg67 (0xFFF800 + 1 + k) + 4 ≤ CACHE_LINE_SIZE cfg67 := by
    decide
  have hval : ∀ k, k < 60 →
      le_value (flat_read (view cfg67
        (dtb_patch_ram cfg67 16777216 0xFFF800 ((16777216 - 0xFFF800 + 3) / 4) dtbSys
          0xFFF800)) (0xFFF800 + 1 + k) 4) ≠ 0x64636261 := by
    rw [g2]
    decide
  have k0 : Op.read (0xFFF800 + 1 + 0) 4 ∈ cmdline_scan_calls cfg67 16777216
      (16777216 - 0xFFF800 + 1)
      (dtb_patch_ram cfg67 16777216 0xFFF800 ((16777216 - 0xFFF800 + 3) / 4) dtbSys 0xFFF800)
      0xFFF800 :=
    cmdline_scan_calls_reach cfg67 (by decide) 16777216 (by norm_num) 0 _ _ _ g1 (by decide)
      (by decide) (fun k hk => absurd hk (Nat.not_lt_zero k))
      (fun k hk => absurd hk (Nat.not_lt_zero k))
  have k60 : Op.read (0xFFF800 + 1 + 60) 4 ∈ cmdline_scan_calls cfg67 16777216
      (16777216 - 0xFFF800 + 1)
      (dtb_patch_ram cfg67 16777216 0xFFF800 ((16777216 - 0xFFF800 + 3) / 4) dtbSys 0xFFF800)
      0xFFF800 :=
    cmdline_scan_calls_reach cfg67 (by decide) 16777216 (by norm_num) 60 _ _ _ g1 (by decide)
      (by decide) hoff hval
  exact ⟨List.mem_append_left _ (List.mem_append_right _ k0),
    List.mem_append_left _ (List.mem_append_right _ k60),
    by decide, by decide, by decide, by decide⟩

end TinyRv32


namespace TinyRv32

/-! ## LRU victim selection: the line that a miss installs -/

/-- The sibling of the way that a lookup used is the old line with its LRU bit set. -/
theorem locate_sibling (c : Config) (m : MemSys) (a : Nat) :
    (locate c m a).1.cache (INDEX c a % 65536) (1 - (locate c m a).2) =
      SET_LRU (m.cache (INDEX c a % 65536) (1 - (locate c m a).2)) := by
  unfold locate
  simp only []
  split_ifs <;> simp [setWays_cache]

/-- After a lookup that missed both ways, the line used is clean. -/
theorem locate_miss_dirty (c : Config) (m : MemSys) (a : Nat)
    (h0 : ¬ (IS_VALID (m.cache (INDEX c a % 65536) 0) = true ∧
      (m.cache (INDEX c a % 65536) 0).tag = TAG c a % 65536))
    (h1 : ¬ (IS_VALID (m.cache (INDEX c a % 65536) 1) = true ∧
      (m.cache (INDEX c a % 65536) 1).tag = TAG c a % 65536)) :
    IS_DIRTY ((locate c m a).1.cache (INDEX c a % 65536) (locate c m a).2) = false := by
  have e0 : (TAG c a % 65536 == (m.cache (INDEX c a % 65536) 0).tag &&
      IS_VALID (m.cache (INDEX c a % 65536) 0)) = false := by
    rw [Bool.eq_false_iff]; intro hh
    simp only [Bool.and_eq_true, beq_iff_eq] at hh
    exact h0 ⟨hh.2, hh.1.symm⟩
  have e1 : (TAG c a % 65536 == (m.cache (INDEX c a % 65536) 1).tag &&
      IS_VALID (m.cache (INDEX c a % 65536) 1)) = false := by
    rw [Bool.eq_false_iff]; intro hh
    simp only [Bool.and_eq_true, beq_iff_eq] at hh
    exact h1 ⟨hh.2, hh.1.symm⟩
  unfold locate
  simp only [e0, e1]
  by_cases hl : IS_LRU (m.cache (INDEX c a % 65536) 0) = true
  · simp [hl, setWays_cache, (refill_flags c _ _ _ _ _).2.1]
  · simp [hl, setWays_cache, (refill_flags c _ _ _ _ _).2.1]

/-- The addresses of the line of `a`. -/
theorem base_add_fields (c : Config) (hc : c.Valid) (a j : Nat) (ha : a < 2 ^ 24)
    (hj : j < CACHE_LINE_SIZE c) :
    INDEX c (BASE c a + j) = INDEX c a ∧ TAG c (BASE c a + j) = TAG c a ∧
      OFFSET c (BASE c a + j) = j := by
  rw [CACHE_LINE_SIZE_eq] at hj
  rw [(BASE_line c hc a ha).1, div_line]
  exact line_addr_fields c (TAG c a) (INDEX c a) j (INDEX_lt c a) hj

/-- C4: LRU victim selection.  Take a reachable state, an access to set `INDEX a2` with
tag `TAG a2` (the most recent access to that set), then any well-formed calls that do
not look up the set.  If in the resulting state `m` both ways of the set are valid,
way `w2` holding `TAG a2` and way `w1` holding another tag, then an access `op3` to
the set at an address `a3` with a third tag installs its line into way `w1`: afterwards
way `w1` is valid, holds the tag of `a3` and, as data, the `CACHE_LINE_SIZE` bytes that
the PSRAM held from `BASE(a3)` on (with the bytes stored by `op3` when it is a write),
is clean after a read and dirty after a write, and has its LRU bit clear; the old line
of way `w1` is written to the PSRAM at its `flush_base` address when it was dirty (and
nothing is written when it was clean); way `w2` keeps its tag, data, valid and dirty
bit and gets the LRU bit. -/
theorem lru_victim_selection (c : Config) (hc : c.Valid) (m0 : MemSys)
    (h0 : Reachable c m0) (op2 : Op) (a2 : Nat) (hop2 : op2.accessAt a2) (hok2 : op2.ok c)
    (others : List Op) (hoth : ∀ op ∈ others, op.ok c ∧ op.avoidsSet c (INDEX c a2))
    (m : MemSys) (hm : m = (cache_run c (cache_step c m0 op2).1 others).1)
    (w1 w2 : Nat) (hw1 : w1 < 2) (hw2 : w2 < 2)
    (hv1 : IS_VALID (m.cache (INDEX c a2) w1) = true)
    (hv2 : IS_VALID (m.cache (INDEX c a2) w2) = true)
    (ht2 : (m.cache (INDEX c a2) w2).tag = TAG c a2)
    (ht1 : (m.cache (INDEX c a2) w1).tag ≠ TAG c a2)
    (op3 : Op) (a3 : Nat) (hop3 : op3.accessAt a3) (hok3 : op3.ok c)
    (hi3 : INDEX c a3 = INDEX c a2)
    (ht31 : TAG c a3 ≠ (m.cache (INDEX c a2) w1).tag) (ht32 : TAG c a3 ≠ TAG c a2) :
    IS_VALID ((cache_step c m op3).1.cache (INDEX c a2) w1) = true ∧
    ((cache_step c m op3).1.cache (INDEX c a2) w1).tag = TAG c a3 ∧
    (∀ j, j < CACHE_LINE_SIZE c →
      ((cache_step c m op3).1.cache (INDEX c a2) w1).data j =
        (flat_step m.psram op3).1 (BASE c a3 + j)) ∧
    (∀ s, op3 = Op.read a3 s →
      IS_DIRTY ((cache_step c m op3).1.cache (INDEX c a2) w1) = false) ∧
    (∀ p s, op3 = Op.write a3 p s →
      IS_DIRTY ((cache_step c m op3).1.cache (INDEX c a2) w1) = true) ∧
    IS_LRU ((cache_step c m op3).1.cache (INDEX c a2) w1) = false ∧
    ((cache_step c m op3).1.cache (INDEX c a2) w2).tag = TAG c a2 ∧
    ((cache_step c m op3).1.cache (INDEX c a2) w2).data = (m.cache (INDEX c a2) w2).data ∧
    IS_VALID ((cache_step c m op3).1.cache (INDEX c a2) w2) = true ∧
    IS_DIRTY ((cache_step c m op3).1.cache (INDEX c a2) w2) =
      IS_DIRTY (m.cache (INDEX c a2) w2) ∧
    IS_LRU ((cache_step c m op3).1.cache (INDEX c a2) w2) = true ∧
    (IS_DIRTY (m.cache (INDEX c a2) w1) = true → ∀ j, j < CACHE_LINE_SIZE c →
      (cache_step c m op3).1.psram (flush_base c (m.cache (INDEX c a2) w1) (INDEX c a2) + j)
        = (m.cache (INDEX c a2) w1).data j) ∧
    (IS_DIRTY (m.cache (INDEX c a2) w1) = false → (cache_step c m op3).1.psram = m.psram) := by
  obtain ⟨o1, o2, o3, o4, o5, o6⟩ := lru_victim_ways c hc m0 h0 op2 a2 hop2 hok2 others hoth
    m hm w1 w2 hw1 hw2 hv1 hv2 ht2 ht1 op3 a3 hop3 hok3 hi3 ht31 ht32
  have ha2 := ok_addr_lt c op2 a2 hop2 hok2
  have ha3 := ok_addr_lt c op3 a3 hop3 hok3
  have hinv0 := reachable_inv c hc m0 h0
  have hinv1 := (cache_step_spec c hc m0 hinv0 op2 hok2).1
  have hinv : Inv c m := by
    rw [hm]; exact (cache_run_spec c hc others _ hinv1 (fun o ho => (hoth o ho).1)).1
  obtain ⟨hinv', hview, _⟩ := cache_step_spec c hc m hinv op3 hok3
  have hne : w1 ≠ w2 := by
    rintro rfl
    exact ht1 ht2
  -- the way that the lookup of `a3` uses is `w1`
  obtain ⟨u0, _, _, _, _, _⟩ := locate_used c m a3
  obtain ⟨s1, s2, s3, s4, s5⟩ := step_used c m op3 a3 hop3
  have hsib := locate_sibling c m a3
  obtain ⟨_, _, _, x4, _⟩ := step_access c hc m op3 a3 hop3 (1 - (locate c m a3).2)
  rw [index_mod c hc, hi3] at s1 s2 s3 s4 hsib
  rw [hi3] at x4
  rw [tag_mod c hc a3 ha3] at s2
  have hused : (locate c m a3).2 = w1 := by
    by_contra hcon
    have : (locate c m a3).2 = w2 := by omega
    rw [this, o3] at s2
    exact ht32 s2.symm
  have hsibw : 1 - (locate c m a3).2 = w2 := by omega
  have hmiss0 : ∀ w, w < 2 → ¬ (IS_VALID (m.cache (INDEX c a2) w) = true ∧
      (m.cache (INDEX c a2) w).tag = TAG c a3) := by
    intro w hw h
    have : w = w1 ∨ w = w2 := by omega
    rcases this with rfl | rfl
    · exact ht31 h.2.symm
    · rw [ht2] at h; exact ht32 h.2.symm
  have hline2 : (cache_step c m op3).1.cache (INDEX c a2) w2 =
      SET_LRU (m.cache (INDEX c a2) w2) := by
    have := x4 (by omega)
    rw [hsibw] at this hsib
    rw [this, hsib]
  rw [hused] at s3
  refine ⟨o1, o2, ?_, ?_, ?_, s3, o3, o4, ?_, ?_, ?_, o5, o6⟩
  · -- the data of the installed line
    intro j hj
    obtain ⟨f1, f2, f3⟩ := base_add_fields c hc a3 j ha3 hj
    have hv : view c (cache_step c m op3).1 (BASE c a3 + j) =
        ((cache_step c m op3).1.cache (INDEX c a2) w1).data j := by
      rw [view_hit c _ (BASE c a3 + j) w1 hw1 (hinv'.nodup _)
        (by rw [f1, hi3]; exact o1) (by rw [f1, hi3, f2]; exact o2), f1, hi3, f3]
    have hmv : ∀ x, INDEX c x = INDEX c a3 → TAG c x = TAG c a3 → view c m x = m.psram x := by
      intro x hx1 hx2
      apply view_miss
      intro w hw
      rw [hx1, hx2, hi3]
      exact hmiss0 w hw
    rw [← hv, hview]
    cases op3 with
    | read a' s => exact hmv _ f1 f2
    | write a' p s =>
      simp only [flat_step, flat_write]
      rw [hmv _ f1 f2]
    | flush => exact absurd hop3 (by simp [Op.accessAt])
  · intro s hs
    subst hs
    have := locate_miss_dirty c m a3
      (by rw [index_mod c hc, tag_mod c hc a3 ha3, hi3]; exact hmiss0 0 (by norm_num))
      (by rw [index_mod c hc, tag_mod c hc a3 ha3, hi3]; exact hmiss0 1 (by norm_num))
    rw [index_mod c hc, hi3, hused] at this
    exact this
  · intro p s hs
    subst hs
    simp only [cache_step, cache_write]
    rw [setLine_cache, index_mod c hc, hi3, hused, if_pos ⟨rfl, rfl⟩, dirty_SET_DIRTY]
  · rw [hline2, valid_SET_LRU]; exact hv2
  · rw [hline2, dirty_SET_LRU]
  · rw [hline2, lru_SET_LRU]

/-- Scenario S2 of the spec: after the writes to `0x0000` and `0x2000`, the write to
`0x4000` evicts the line of `0x0000` (way 1), fills the way with the line of `0x4000`
and keeps the line of `0x2000` (way 0). -/
theorem lru_victim_selection_witness :
    IS_VALID ((cache_step cfg67 s2Second (Op.write 0x4000 [0x33] 1)).1.cache
        (INDEX cfg67 0x2000) 1) = true ∧
    ((cache_step cfg67 s2Second (Op.write 0x4000 [0x33] 1)).1.cache
        (INDEX cfg67 0x2000) 1).tag = TAG cfg67 0x4000 ∧
    (∀ j, j < CACHE_LINE_SIZE cfg67 →
      ((cache_step cfg67 s2Second (Op.write 0x4000 [0x33] 1)).1.cache
          (INDEX cfg67 0x2000) 1).data j =
        (flat_step s2Second.psram (Op.write 0x4000 [0x33] 1)).1 (BASE cfg67 0x4000 + j)) ∧
    (∀ s, Op.write 0x4000 [0x33] 1 = Op.read 0x4000 s →
      IS_DIRTY ((cache_step cfg67 s2Second (Op.write 0x4000 [0x33] 1)).1.cache
        (INDEX cfg67 0x2000) 1) = false) ∧
    (∀ p s, Op.write 0x4000 [0x33] 1 = Op.write 0x4000 p s →
      IS_DIRTY ((cache_step cfg67 s2Second (Op.write 0x4000 [0x33] 1)).1.cache
        (INDEX cfg67 0x2000) 1) = true) ∧
    IS_LRU ((cache_step cfg67 s2Second (Op.write 0x4000 [0x33] 1)).1.cache
        (INDEX cfg67 0x2000) 1) = false ∧
    ((cache_step cfg67 s2Second (Op.write 0x4000 [0x33] 1)).1.cache
        (INDEX cfg67 0x2000) 0).tag = TAG cfg67 0x2000 ∧
    ((cache_step cfg67 s2Second (Op.write 0x4000 [0x33] 1)).1.cache
        (INDEX cfg67 0x2000) 0).data = (s2Second.cache (INDEX cfg67 0x2000) 0).data ∧
    IS_VALID ((cache_step cfg67 s2Second (Op.write 0x4000 [0x33] 1)).1.cache
        (INDEX cfg67 0x2000) 0) = true ∧
    IS_DIRTY ((cache_step cfg67 s2Second (Op.write 0x4000 [0x33] 1)).1.cache
        (INDEX cfg67 0x2000) 0) = IS_DIRTY (s2Second.cache (INDEX cfg67 0x2000) 0) ∧
    IS_LRU ((cache_step cfg67 s2Second (Op.write 0x4000 [0x33] 1)).1.cache
        (INDEX cfg67 0x2000) 0) = true ∧
    (IS_DIRTY (s2Second.cache (INDEX cfg67 0x2000) 1) = true → ∀ j, j < CACHE_LINE_SIZE cfg67 →
      (cache_step cfg67 s2Second (Op.write 0x4000 [0x33] 1)).1.psram
          (flush_base cfg67 (s2Second.cache (INDEX cfg67 0x2000) 1) (INDEX cfg67 0x2000) + j)
        = (s2Second.cache (INDEX cfg67 0x2000) 1).data j) ∧
    (IS_DIRTY (s2Second.cache (INDEX cfg67 0x2000) 1) = false →
      (cache_step cfg67 s2Second (Op.write 0x4000 [0x33] 1)).1.psram = s2Second.psram) :=
  lru_victim_selection cfg67 (by decide) s2First
    ⟨demoSys, [Op.write 0 [0x11] 1], by decide, rfl⟩
    (Op.write 0x2000 [0x22] 1) 0x2000 (by decide) (by decide) [] (by decide)
    s2Second rfl 1 0 (by decide) (by decide) (by decide) (by decide) (by decide) (by decide)
    (Op.write 0x4000 [0x33] 1) 0x4000 (by decide) (by decide) (by decide) (by decide)
    (by decide)

end TinyRv32


namespace TinyRv32

/-! ## What the resume path does not restore -/

theorem psram_load_loop_latches (n : Nat) :
    ∀ (vm : VM) (addr : Nat) (vm' : VM), psram_load_loop n vm addr = some vm' →
      vm'.blk_ram_ptr = vm.blk_ram_ptr ∧ vm'.blk_offs = vm.blk_offs ∧
      vm'.blk_transfer_size = vm.blk_transfer_size ∧ vm'.blk_err = vm.blk_err := by
  induction n with
  | zero =>
    intro vm addr vm' h
    rw [psram_load_loop] at h
    injection h with h
    subst h
    exact ⟨rfl, rfl, rfl, rfl⟩
  | succ n ih =>
    intro vm addr vm' h
    rw [psram_load_loop] at h
    simp only [] at h
    by_cases h1 : (pf_read vm.sto 512).1 ≠ 0
    · rw [if_pos h1] at h; exact absurd h (by simp)
    · rw [if_neg h1] at h
      by_cases h2 : (pf_read vm.sto 512).2.1.length = 0
      · rw [if_pos h2] at h
        injection h with h
        subst h
        exact ⟨rfl, rfl, rfl, rfl⟩
      · rw [if_neg h2] at h
        have hh := ih _ _ vm' h
        exact hh

/-- The resume path keeps the block-transfer latches of the machine that boots. -/
theorem start_vm_boot_resume_latches (cfg : VmConfig) (vm vm' : VM)
    (h : start_vm_boot cfg vm EMU_HIBERNATE = some vm') :
    vm'.blk_ram_ptr = vm.blk_ram_ptr ∧ vm'.blk_offs = vm.blk_offs ∧
      vm'.blk_transfer_size = vm.blk_transfer_size ∧ vm'.blk_err = vm.blk_err := by
  unfold start_vm_boot at h
  have hg : ¬ (EMU_HIBERNATE = EMU_GET_SD) := by decide
  simp only [if_neg hg, decide_True, if_true] at h
  split at h
  · exact absurd h (by simp)
  · split at h
    · exact absurd h (by simp)
    · rename_i vm2 hload
      have l := psram_load_loop_latches _ _ _ _ hload
      split at h
      · exact absurd h (by simp)
      · rename_i vm3 hl
        split at h
        · exact absurd h (by simp)
        · injection h with h
          subst h
          split_ifs at hl
          injection hl with hl
          subst hl
          exact l

theorem inv_of_reset_cache (c : Config) (m m0 : MemSys)
    (h : m.cache = (cache_reset m0).cache) : Inv c m := by
  have : m = cache_reset { cache := m.cache, psram := m.psram } := by
    cases m with
    | mk cache psram =>
      simp only [cache_reset] at h ⊢
      rw [h]
  rw [this]
  exact inv_reset c _

/-- The storage requests of a block request in the direction guest to storage. -/
theorem blk_request_write_log (cfg : VmConfig) (hc : cfg.cache.Valid)
    (hob : 2 ≤ cfg.cache.OFFSET_BITS) (hoff : cfg.MINIRV32_RAM_IMAGE_OFFSET = 0x80000000)
    (vm : VM) (hinv : Inv cfg.cache vm.mem) (P O N value : Nat)
    (hP : P % 4 = 0) (hram : ram_amt cfg ≤ 2 ^ 24) (hPN : P + N ≤ ram_amt cfg)
    (hN : N % 512 = 0) (hO : O < 4294967296)
    (hv : value % 4294967296 ≠ 0)
    (hbytes : ∀ a, a < ram_amt cfg → view cfg.cache vm.mem a < 256) :
    (blk_request cfg vm (0x80000000 + P) O N value).sto.log =
      vm.sto.log ++ StorageOp.lseek O ::
        (List.range (N / 512)).map (fun s =>
          StorageOp.write (flat_read (view cfg.cache vm.mem) (P + 512 * s) 512)) := by
  have h24 : (2:Nat) ^ 24 = 16777216 := by norm_num
  have e1 : (0x80000000 + P) % 4294967296 = 0x80000000 + P := Nat.mod_eq_of_lt (by omega)
  have e2 : (0x80000000 + P + 4294967296 - 0x80000000 % 4294967296) % 4294967296 = P := by
    omega
  have e3 : O % 4294967296 = O := Nat.mod_eq_of_lt hO
  have e4 : N % 4294967296 = N := Nat.mod_eq_of_lt (by omega)
  have e5 : (N >>> 9) % 4294967296 = N / 512 := by
    rw [Nat.shiftRight_eq_div_pow]
    exact Nat.mod_eq_of_lt (by norm_num; omega)
  have hstate : blk_request cfg vm (0x80000000 + P) O N value =
      blk_transfer cfg.cache (value % 4294967296) (N / 512)
        { vm with blk_ram_ptr := P, blk_offs := O, blk_err := (pf_lseek vm.sto O).1
                  sto := (pf_lseek vm.sto O).2, blk_transfer_size := N } := by
    simp only [blk_request, HandleOtherCSRWrite, hoff, e1, e2, e3, e4]
    norm_num
    rw [e5]
  obtain ⟨_, _, g3⟩ := blk_transfer_write_spec cfg.cache hc hob (value % 4294967296) hv
    (N / 512)
    { vm with blk_ram_ptr := P, blk_offs := O, blk_err := (pf_lseek vm.sto O).1
              sto := (pf_lseek vm.sto O).2, blk_transfer_size := N }
    hinv hP (by show P + 512 * (N / 512) ≤ 2 ^ 24; omega)
    (by intro a _ h2
        have h2' : a < P + 512 * (N / 512) := h2
        exact hbytes a (by omega))
  rw [hstate, g3]
  show (pf_lseek vm.sto O).2.log ++ _ = _
  rw [pf_lseek_log, List.append_assoc]
  rfl

/-- What the resume path restores from the snapshot of a hibernation, and what it
takes from the machine that boots. -/
theorem resume_after_hibernate (cfg : VmConfig) (hc : cfg.cache.Valid) (vm : VM)
    (hinv : Inv cfg.cache vm.mem) (hr : vm.sto.results = [])
    (hram : ram_amt cfg ≤ 2 ^ 24) (h512 : ram_amt cfg % 512 = 0)
    (hcore : vm.core.length = cfg.layout.size) (vm2 : VM)
    (hfile : vm2.sto.files FileName.SNAPSHOT_FILENAME =
      (hibernate cfg vm).2.sto.files FileName.SNAPSHOT_FILENAME)
    (hr2 : vm2.sto.results = []) :
    ∃ vm3, start_vm_boot cfg vm2 EMU_HIBERNATE = some vm3 ∧
      vm3.mem.cache = (cache_reset vm2.mem).cache ∧
      (∀ a, a < ram_amt cfg → vm3.mem.psram a = view cfg.cache vm.mem a) ∧
      (∀ a, a < ram_amt cfg → view cfg.cache vm3.mem a = view cfg.cache vm.mem a) ∧
      vm3.core = vm.core ∧
      vm3.blk_ram_ptr = vm2.blk_ram_ptr ∧ vm3.blk_offs = vm2.blk_offs ∧
      vm3.blk_transfer_size = vm2.blk_transfer_size ∧ vm3.blk_err = vm2.blk_err := by
  obtain ⟨_, k2, _, _, _, _, _⟩ := hibernate_ok cfg hc vm hinv hr hram h512
  have hRl : (flat_read (view cfg.cache vm.mem) 0 (ram_amt cfg)).length = ram_amt cfg :=
    flat_read_length _ _ _
  have hlen : (flat_read (view cfg.cache vm.mem) 0 (ram_amt cfg) ++ vm.core).length =
      ram_amt cfg + cfg.layout.size := by
    rw [List.length_append, hRl, hcore]
  have hflen : ram_amt cfg + cfg.layout.size ≤
      (vm2.sto.files FileName.SNAPSHOT_FILENAME).length := by
    rw [hfile, k2, List.length_append, hlen]
    omega
  obtain ⟨vm3, b1, b2, b3, b4, _⟩ := start_vm_boot_resume cfg vm2 hr2 hram h512 hflen
  obtain ⟨c1, c2, c3, c4⟩ := start_vm_boot_resume_latches cfg vm2 vm3 b1
  have hps : ∀ a, a < ram_amt cfg → vm3.mem.psram a = view cfg.cache vm.mem a := by
    intro a ha
    rw [b3 a ha, hfile, k2, List.append_assoc, flat_read_getD _ _ _ ha]
  have hvw : ∀ a, a < ram_amt cfg → view cfg.cache vm3.mem a = view cfg.cache vm.mem a := by
    intro a ha
    rw [view_of_reset_cache cfg.cache vm3.mem vm2.mem b2 a, hps a ha]
  refine ⟨vm3, b1, b2, hps, hvw, ?_, c1, c2, c3, c4⟩
  have e1 : List.drop (ram_amt cfg) (flat_read (view cfg.cache vm.mem) 0 (ram_amt cfg) ++
      (vm.core ++ List.drop (ram_amt cfg + vm.core.length)
        (vm.sto.files FileName.SNAPSHOT_FILENAME))) =
      vm.core ++ List.drop (ram_amt cfg + vm.core.length)
        (vm.sto.files FileName.SNAPSHOT_FILENAME) := List.drop_left' hRl
  have e2 : List.take cfg.layout.size (vm.core ++ List.drop (ram_amt cfg + vm.core.length)
      (vm.sto.files FileName.SNAPSHOT_FILENAME)) = vm.core := List.take_left' hcore
  rw [b4, hfile, k2, List.append_assoc, e1, e2]

/-- C6 (amended): snapshot round trip.  With `ram_amt` a multiple of 512 (and at most
`2^24`), a reachable cache state, the interpreter state record of `sizeof(state)` bytes
and a storage device that accepts every request: the hibernate path returns
HIBERNATE; its writes to the snapshot file, after the rewind, are `ram_amt / 512`
chunks of the guest-visible RAM in address order, then the state record, then the
finalizing empty write, `ram_amt + sizeof(state)` bytes in all, and they are the first
`ram_amt + sizeof(state)` bytes of the file afterwards.  Booting a machine `vm2` whose
storage holds that snapshot file with prior state HIBERNATE leaves the backing RAM and
the guest-visible RAM below `ram_amt`, and the state record, equal to the
guest-visible RAM and the state record at hibernation.  The block-transfer latches
`blk_ram_ptr`, `blk_offs`, `blk_transfer_size` and `blk_err` are not in the snapshot:
after the resume they are those of the machine `vm2` that boots.  A block request
(CSR `0x151` to `0x154`, direction guest to storage) issued after the resume asks the
storage façade for the same seek and the same writes as the same request issued on the
original machine. -/
theorem snapshot_round_trip (cfg : VmConfig) (hc : cfg.cache.Valid) (vm : VM)
    (hreach : Reachable cfg.cache vm.mem) (hr : vm.sto.results = [])
    (hram : ram_amt cfg ≤ 2 ^ 24) (h512 : ram_amt cfg % 512 = 0)
    (hcore : vm.core.length = cfg.layout.size) (vm2 : VM)
    (hfile : vm2.sto.files FileName.SNAPSHOT_FILENAME =
      (hibernate cfg vm).2.sto.files FileName.SNAPSHOT_FILENAME)
    (hr2 : vm2.sto.results = []) :
    (hibernate cfg vm).1 = Outcome.returned EMU_HIBERNATE ∧
    (hibernate cfg vm).2.sto.log =
      vm.sto.log ++ [StorageOp.open FileName.STAT, StorageOp.lseek 0,
          StorageOp.write [EMU_HIBERNATE % 256], StorageOp.write [],
          StorageOp.open FileName.SNAPSHOT_FILENAME, StorageOp.lseek 0] ++
        (List.range (ram_amt cfg / 512)).map (fun k =>
          StorageOp.write (flat_read (view cfg.cache vm.mem) (512 * k) 512)) ++
        [StorageOp.write vm.core, StorageOp.write []] ∧
    (List.range (ram_amt cfg / 512)).flatMap
        (fun k => flat_read (view cfg.cache vm.mem) (512 * k) 512) ++ vm.core =
      flat_read (view cfg.cache vm.mem) 0 (ram_amt cfg) ++ vm.core ∧
    (flat_read (view cfg.cache vm.mem) 0 (ram_amt cfg) ++ vm.core).length =
      ram_amt cfg + cfg.layout.size ∧
    ((hibernate cfg vm).2.sto.files FileName.SNAPSHOT_FILENAME).take
        (ram_amt cfg + cfg.layout.size) =
      flat_read (view cfg.cache vm.mem) 0 (ram_amt cfg) ++ vm.core ∧
    ∃ vm3, start_vm_boot cfg vm2 EMU_HIBERNATE = some vm3 ∧
      (∀ a, a < ram_amt cfg → vm3.mem.psram a = view cfg.cache vm.mem a) ∧
      (∀ a, a < ram_amt cfg → view cfg.cache vm3.mem a = view cfg.cache vm.mem a) ∧
      vm3.core = vm.core ∧
      vm3.blk_ram_ptr = vm2.blk_ram_ptr ∧ vm3.blk_offs = vm2.blk_offs ∧
      vm3.blk_transfer_size = vm2.blk_transfer_size ∧ vm3.blk_err = vm2.blk_err ∧
      ∀ P O N value, 2 ≤ cfg.cache.OFFSET_BITS →
        cfg.MINIRV32_RAM_IMAGE_OFFSET = 0x80000000 → P % 4 = 0 → P + N ≤ ram_amt cfg →
        N % 512 = 0 → O < 4294967296 → value % 4294967296 ≠ 0 →
        (∀ a, a < ram_amt cfg → view cfg.cache vm.mem a < 256) →
        (blk_request cfg vm3 (0x80000000 + P) O N value).sto.log =
          vm3.sto.log ++ StorageOp.lseek O ::
            (List.range (N / 512)).map (fun s =>
              StorageOp.write (flat_read (view cfg.cache vm.mem) (P + 512 * s) 512)) ∧
        (blk_request cfg vm (0x80000000 + P) O N value).sto.log =
          vm.sto.log ++ StorageOp.lseek O ::
            (List.range (N / 512)).map (fun s =>
              StorageOp.write (flat_read (view cfg.cache vm.mem) (P + 512 * s) 512)) := by
  have hinv := reachable_inv cfg.cache hc vm.mem hreach
  have hn : 512 * (ram_amt cfg / 512) = ram_amt cfg := by omega
  obtain ⟨k1, k2, k3, _, _, _, _⟩ := hibernate_ok cfg hc vm hinv hr hram h512
  have hRl : (flat_read (view cfg.cache vm.mem) 0 (ram_amt cfg)).length = ram_amt cfg :=
    flat_read_length _ _ _
  have hlen : (flat_read (view cfg.cache vm.mem) 0 (ram_amt cfg) ++ vm.core).length =
      ram_amt cfg + cfg.layout.size := by
    rw [List.length_append, hRl, hcore]
  have htake : ((hibernate cfg vm).2.sto.files FileName.SNAPSHOT_FILENAME).take
      (ram_amt cfg + cfg.layout.size) =
      flat_read (view cfg.cache vm.mem) 0 (ram_amt cfg) ++ vm.core := by
    rw [k2, ← hlen, List.take_left']
    rfl
  refine ⟨k1, k3, by rw [flat_read_sectors_zero, hn], hlen, htake, ?_⟩
  obtain ⟨vm3, b1, b2, hps, hvw, hco, c1, c2, c3, c4⟩ :=
    resume_after_hibernate cfg hc vm hinv hr hram h512 hcore vm2 hfile hr2
  refine ⟨vm3, b1, hps, hvw, hco, c1, c2, c3, c4, ?_⟩
  intro P O N value hob hoff hP hPN hN hO hv hbytes
  have hinv3 : Inv cfg.cache vm3.mem := inv_of_reset_cache cfg.cache vm3.mem vm2.mem b2
  have l3 := blk_request_write_log cfg hc hob hoff vm3 hinv3 P O N value hP hram hPN hN hO hv
    (fun a ha => by rw [hvw a ha]; exact hbytes a ha)
  have l0 := blk_request_write_log cfg hc hob hoff vm hinv P O N value hP hram hPN hN hO hv
    hbytes
  refine ⟨?_, l0⟩
  rw [l3]
  refine congrArg (fun l => vm3.sto.log ++ StorageOp.lseek O :: l) ?_
  apply List.map_congr_left
  intro s hs
  rw [List.mem_range] at hs
  have hN' : 512 * (N / 512) = N := by omega
  rw [flat_read_congr (view cfg.cache vm3.mem) (view cfg.cache vm.mem) (P + 512 * s) 512
    (fun x _ h2 => hvw x (by omega))]

theorem rebootedVM_files (cfg : VmConfig) :
    (rebootedVM cfg).sto.files = (hibernate cfg latchVM).2.sto.files := rfl

/-- The cache state of `latchVM` is consistent, and its guest-visible bytes in the
latched sector are those of the backing store. -/
theorem latchVM_inv : Inv cfg67 latchVM.mem ∧
    ∀ a, 4096 ≤ a → a < 4096 + 512 → view cfg67 latchVM.mem a = a % 251 := by
  obtain ⟨h1, h2, _⟩ := cache_run_spec cfg67 (by decide) alternatingOps (cache_reset demoSys)
    (inv_reset cfg67 demoSys) (by decide)
  refine ⟨h1, ?_⟩
  intro a ha1 ha2
  show view cfg67 (cache_run cfg67 (cache_reset demoSys) alternatingOps).1 a = a % 251
  rw [h2, flat_run_leaves 4096 512 alternatingOps _ (by decide) a ha1 ha2, view_reset]
  rfl

/-- Counterexample to C6 as stated (continuing from the restored state is the same as
continuing from the original): `latchVM` hibernates with a block transfer of one
sector latched; the machine that boots from the snapshot after a power cycle has the
same guest-visible RAM and the same state record, but its latch `blk_transfer_size` is
0, not 512.  When the guest then writes the go register (`0x154 := 1`), the original
machine asks the storage for one write of the 512 bytes at guest address 4096, and the
resumed machine for nothing. -/
theorem resume_drops_latched_block_transfer :
    ∃ vm3, start_vm_boot demoCfg (rebootedVM demoCfg) EMU_HIBERNATE = some vm3 ∧
      vm3.core = latchVM.core ∧
      (∀ a, a < ram_amt demoCfg →
        view demoCfg.cache vm3.mem a = view demoCfg.cache latchVM.mem a) ∧
      latchVM.blk_transfer_size = 512 ∧ vm3.blk_transfer_size = 0 ∧
      (HandleOtherCSRWrite demoCfg latchVM 0x154 1).sto.log =
        latchVM.sto.log ++
          [StorageOp.write (flat_read (view demoCfg.cache latchVM.mem) 4096 512)] ∧
      (HandleOtherCSRWrite demoCfg vm3 0x154 1).sto.log = vm3.sto.log := by
  obtain ⟨hinv, hb⟩ := latchVM_inv
  obtain ⟨vm3, b1, _, _, hvw, hco, _, _, c3, _⟩ :=
    resume_after_hibernate demoCfg (by decide) latchVM hinv rfl (by decide) (by decide)
      (by simp [latchVM, demoCfg, upstreamLayout]) (rebootedVM demoCfg)
      (congrFun (rebootedVM_files demoCfg) _) rfl
  have c3' : vm3.blk_transfer_size = 0 := c3
  refine ⟨vm3, b1, hco, hvw, rfl, c3', ?_, ?_⟩
  · have e1 : HandleOtherCSRWrite demoCfg latchVM 0x154 1 = blk_transfer cfg67 1 1 latchVM :=
      rfl
    obtain ⟨_, _, g3⟩ := blk_transfer_write_spec cfg67 (by decide) (by decide) 1 (by decide) 1
      latchVM hinv (by decide) (by decide)
      (fun a h1 h2 => by
        rw [hb a h1 h2]
        omega)
    rw [e1, g3]
    rfl
  · have e2 : HandleOtherCSRWrite demoCfg vm3 0x154 1 =
        blk_transfer cfg67 1 ((vm3.blk_transfer_size >>> 9) % 4294967296) vm3 := rfl
    rw [e2, c3']
    rfl

theorem snapshot_round_trip_witness :
    (hibernate demoCfg latchVM).1 = Outcome.returned EMU_HIBERNATE ∧
    ((hibernate demoCfg latchVM).2.sto.files FileName.SNAPSHOT_FILENAME).take
        (ram_amt demoCfg + demoCfg.layout.size) =
      flat_read (view demoCfg.cache latchVM.mem) 0 (ram_amt demoCfg) ++ latchVM.core ∧
    ∃ vm3, start_vm_boot demoCfg (rebootedVM demoCfg) EMU_HIBERNATE = some vm3 ∧
      (∀ a, a < ram_amt demoCfg → vm3.mem.psram a = view demoCfg.cache latchVM.mem a) ∧
      (∀ a, a < ram_amt demoCfg →
        view demoCfg.cache vm3.mem a = view demoCfg.cache latchVM.mem a) ∧
      vm3.core = latchVM.core ∧
      vm3.blk_ram_ptr = (rebootedVM demoCfg).blk_ram_ptr ∧
      vm3.blk_offs = (rebootedVM demoCfg).blk_offs ∧
      vm3.blk_transfer_size = (rebootedVM demoCfg).blk_transfer_size ∧
      vm3.blk_err = (rebootedVM demoCfg).blk_err ∧
      ∀ P O N value, 2 ≤ demoCfg.cache.OFFSET_BITS →
        demoCfg.MINIRV32_RAM_IMAGE_OFFSET = 0x80000000 → P % 4 = 0 →
        P + N ≤ ram_amt demoCfg → N % 512 = 0 → O < 4294967296 → value % 4294967296 ≠ 0 →
        (∀ a, a < ram_amt demoCfg → view demoCfg.cache latchVM.mem a < 256) →
        (blk_request demoCfg vm3 (0x80000000 + P) O N value).sto.log =
          vm3.sto.log ++ StorageOp.lseek O ::
            (List.range (N / 512)).map (fun s =>
              StorageOp.write (flat_read (view demoCfg.cache latchVM.mem) (P + 512 * s) 512)) ∧
        (blk_request demoCfg latchVM (0x80000000 + P) O N value).sto.log =
          latchVM.sto.log ++ StorageOp.lseek O ::
            (List.range (N / 512)).map (fun s =>
              StorageOp.write (flat_read (view demoCfg.cache latchVM.mem) (P + 512 * s) 512)) :=
  have h := snapshot_round_trip demoCfg (by decide) latchVM
    ⟨demoSys, alternatingOps, by decide, by simp only [latchVM, demoCfg]⟩ rfl (by decide) (by decide)
    (by simp [latchVM, demoCfg, upstreamLayout]) (rebootedVM demoCfg)
    (congrFun (rebootedVM_files demoCfg) _) rfl
  ⟨h.1, h.2.2.2.2.1, h.2.2.2.2.2⟩

end TinyRv32


namespace TinyRv32

/-! ## The switch on the interpreter's return code -/

/-- A registry save whose first request the device rejects changes no file. -/
theorem vm_save_powerstate_rejected (s : Storage) (code : Nat) (h : s.results.headD 0 ≠ 0) :
    (vm_save_powerstate s code).2.files = s.files ∧
      (vm_save_powerstate s code).2.log = s.log ++ [StorageOp.open FileName.STAT] := by
  have e : (pf_open s FileName.STAT).1 ≠ 0 := by
    simp only [pf_open, Storage.request]
    rw [if_neg h]
    exact h
  have e2 : (pf_open s FileName.STAT).2.files = s.files ∧
      (pf_open s FileName.STAT).2.log = s.log ++ [StorageOp.open FileName.STAT] := by
    simp only [pf_open, Storage.request]
    rw [if_neg h]
    exact ⟨rfl, rfl⟩
  unfold vm_save_powerstate
  simp only []
  rw [if_pos e]
  exact e2

/-- Counterexample to C8 as stated, in two of its clauses.  First (for `r = 0` the loop
continues with no write to the registry): a batch that ends normally (return code 0)
after the guest has requested hibernation does not continue the loop: `start_vm`
writes HIBERNATE to the power-state registry and returns HIBERNATE, with one unit of
fuel, where a loop that continued would still be running.  Second (the last
power-state value written before the return equals the returned value): on a machine
whose registry holds RUNNING and whose storage device rejects the coming request, a
batch that returns `0x7777` makes `start_vm` return REBOOT although the only storage
request is the rejected open of the registry, which still holds RUNNING. -/
theorem dispatch_can_hibernate_or_return_unsaved :
    (hibernateStep demoCfg demoVM (loop_elapsed demoCfg demoVM 0) (instrs_per_flip demoCfg)).2
      = 0 ∧
    (vm_loop demoCfg (hibernateStep demoCfg) 1 demoVM 0 (-1) 0).1 =
      Outcome.returned EMU_HIBERNATE ∧
    (vm_loop demoCfg (hibernateStep demoCfg) 1 demoVM 0 (-1) 0).2.sto.files FileName.STAT =
      [EMU_HIBERNATE] ∧
    demoVM.sto.files FileName.STAT = [] ∧
    (rebootStep rejectVM (loop_elapsed demoCfg rejectVM 0) (instrs_per_flip demoCfg)).2
      = 0x7777 ∧
    (vm_loop demoCfg rebootStep 1 rejectVM 0 (-1) 0).1 = Outcome.returned EMU_REBOOT ∧
    (vm_loop demoCfg rebootStep 1 rejectVM 0 (-1) 0).2.sto.log =
      [StorageOp.open FileName.STAT] ∧
    (vm_loop demoCfg rebootStep 1 rejectVM 0 (-1) 0).2.sto.files FileName.STAT =
      [EMU_RUNNING] ∧
    rejectVM.sto.files FileName.STAT = [EMU_RUNNING] := by
  have h1 : loop_cond 0 (-1) := by decide
  have hv : vm_loop demoCfg (hibernateStep demoCfg) 1 demoVM 0 (-1) 0 =
      hibernate demoCfg { demoVM with hibernate_request := 1 } := by
    rw [vm_loop]
    simp only [h1, not_true_eq_false, if_false, hibernateStep]
    simp [HandleOtherCSRWrite]
  obtain ⟨k1, _, _, k4, _⟩ := hibernate_ok demoCfg (by decide)
    { demoVM with hibernate_request := 1 } (inv_reset cfg67 demoSys) rfl (by decide) (by decide)
  have hr : vm_loop demoCfg rebootStep 1 rejectVM 0 (-1) 0 =
      (Outcome.returned EMU_REBOOT,
        { rejectVM with sto := (vm_save_powerstate rejectVM.sto EMU_REBOOT).2 }) := by
    rw [vm_loop]
    simp only [h1, not_true_eq_false, if_false, rebootStep]
    norm_num
  obtain ⟨r1, r2⟩ := vm_save_powerstate_rejected rejectVM.sto EMU_REBOOT (by decide)
  rw [hv, hr]
  refine ⟨rfl, k1, k4, rfl, rfl, rfl, ?_, ?_, rfl⟩
  · show (vm_save_powerstate rejectVM.sto EMU_REBOOT).2.log = _
    rw [r2]; rfl
  · show (vm_save_powerstate rejectVM.sto EMU_REBOOT).2.files FileName.STAT = _
    rw [r1]; rfl

/-- C8 (amended): return-code dispatch persists what it returns.  In an iteration of
the execution loop whose batch returns `r`: if `r = 0x7777` `start_vm` calls
`vm_save_powerstate(EMU_REBOOT)` and returns REBOOT; if `r = 0x5555` it saves and
returns POWEROFF; if `r` is none of 0, 1, 3, `0x5555`, `0x7777` it saves and returns
UNKNOWN; the result of the save is not looked at.  When the storage device accepts
the requests, the save opens the registry, rewinds, writes the returned value as the
last byte written and finalizes; when the device rejects the open of the registry, no
file changes.  For `r = 0` the switch writes nothing and, when no hibernate request is
pending after the batch, the loop continues with the next batch; for `r = 1` likewise,
after adding `instrs_per_flip` to the 64-bit guest cycle counter.  When a hibernate
request is pending after a batch that returned 0 or 1, `start_vm` takes the hibernate
path instead of continuing. -/
theorem return_code_dispatch (cfg : VmConfig) (step : VM → Nat → Nat → VM × Int)
    (fuel : Nat) (vm : VM) (rt : Nat) (instct : Int) (lastTime : Nat)
    (hcond : loop_cond rt instct) :
    ((step vm (loop_elapsed cfg vm lastTime) (instrs_per_flip cfg)).2 = 0x7777 →
      vm_loop cfg step (fuel + 1) vm rt instct lastTime =
        (Outcome.returned EMU_REBOOT,
          { (step vm (loop_elapsed cfg vm lastTime) (instrs_per_flip cfg)).1 with
            sto := (vm_save_powerstate
              (step vm (loop_elapsed cfg vm lastTime) (instrs_per_flip cfg)).1.sto
              EMU_REBOOT).2 })) ∧
    ((step vm (loop_elapsed cfg vm lastTime) (instrs_per_flip cfg)).2 = 0x5555 →
      vm_loop cfg step (fuel + 1) vm rt instct lastTime =
        (Outcome.returned EMU_POWEROFF,
          { (step vm (loop_elapsed cfg vm lastTime) (instrs_per_flip cfg)).1 with
            sto := (vm_save_powerstate
              (step vm (loop_elapsed cfg vm lastTime) (instrs_per_flip cfg)).1.sto
              EMU_POWEROFF).2 })) ∧
    ((step vm (loop_elapsed cfg vm lastTime) (instrs_per_flip cfg)).2 ≠ 0 →
      (step vm (loop_elapsed cfg vm lastTime) (instrs_per_flip cfg)).2 ≠ 1 →
      (step vm (loop_elapsed cfg vm lastTime) (instrs_per_flip cfg)).2 ≠ 3 →
      (step vm (loop_elapsed cfg vm lastTime) (instrs_per_flip cfg)).2 ≠ 0x5555 →
      (step vm (loop_elapsed cfg vm lastTime) (instrs_per_flip cfg)).2 ≠ 0x7777 →
      vm_loop cfg step (fuel + 1) vm rt instct lastTime =
        (Outcome.returned EMU_UNKNOWN,
          { (step vm (loop_elapsed cfg vm lastTime) (instrs_per_flip cfg)).1 with
            sto := (vm_save_powerstate
              (step vm (loop_elapsed cfg vm lastTime) (instrs_per_flip cfg)).1.sto
              EMU_UNKNOWN).2 })) ∧
    (∀ (s : Storage) (code : Nat), s.results = [] → code < 256 →
      (vm_save_powerstate s code).2.log =
        s.log ++ [StorageOp.open FileName.STAT, StorageOp.lseek 0, StorageOp.write [code],
          StorageOp.write []] ∧
      ((vm_save_powerstate s code).2.files FileName.STAT).head? = some code) ∧
    (∀ (s : Storage) (code : Nat), s.results.headD 0 ≠ 0 →
      (vm_save_powerstate s code).2.files = s.files ∧
      (vm_save_powerstate s code).2.log = s.log ++ [StorageOp.open FileName.STAT]) ∧
    ((step vm (loop_elapsed cfg vm lastTime) (instrs_per_flip cfg)).2 = 0 →
      (step vm (loop_elapsed cfg vm lastTime) (instrs_per_flip cfg)).1.hibernate_request ≠ 0 →
      vm_loop cfg step (fuel + 1) vm rt instct lastTime =
        hibernate cfg (step vm (loop_elapsed cfg vm lastTime) (instrs_per_flip cfg)).1) ∧
    ((step vm (loop_elapsed cfg vm lastTime) (instrs_per_flip cfg)).2 = 1 →
      (step vm (loop_elapsed cfg vm lastTime) (instrs_per_flip cfg)).1.hibernate_request ≠ 0 →
      vm_loop cfg step (fuel + 1) vm rt instct lastTime =
        hibernate cfg
          (wfi_case cfg (step vm (loop_elapsed cfg vm lastTime) (instrs_per_flip cfg)).1)) ∧
    ((step vm (loop_elapsed cfg vm lastTime) (instrs_per_flip cfg)).2 = 0 →
      (step vm (loop_elapsed cfg vm lastTime) (instrs_per_flip cfg)).1.hibernate_request = 0 →
      vm_loop cfg step (fuel + 1) vm rt instct lastTime =
        vm_loop cfg step fuel (step vm (loop_elapsed cfg vm lastTime) (instrs_per_flip cfg)).1
          ((rt + instrs_per_flip cfg) % 18446744073709551616) instct
          ((lastTime + loop_elapsed cfg vm lastTime) % 18446744073709551616)) ∧
    ((step vm (loop_elapsed cfg vm lastTime) (instrs_per_flip cfg)).2 = 1 →
      (step vm (loop_elapsed cfg vm lastTime) (instrs_per_flip cfg)).1.hibernate_request = 0 →
      vm_loop cfg step (fuel + 1) vm rt instct lastTime =
        vm_loop cfg step fuel
          (wfi_case cfg (step vm (loop_elapsed cfg vm lastTime) (instrs_per_flip cfg)).1)
          ((rt + instrs_per_flip cfg) % 18446744073709551616) instct
          ((lastTime + loop_elapsed cfg vm lastTime) % 18446744073709551616) ∧
      (wfi_case cfg (step vm (loop_elapsed cfg vm lastTime) (instrs_per_flip cfg)).1).sto =
        (step vm (loop_elapsed cfg vm lastTime) (instrs_per_flip cfg)).1.sto ∧
      (cfg.layout.cyclel + 8 ≤
          (step vm (loop_elapsed cfg vm lastTime) (instrs_per_flip cfg)).1.core.length →
        core_load
          (wfi_case cfg (step vm (loop_elapsed cfg vm lastTime) (instrs_per_flip cfg)).1).core
          cfg.layout.cyclel 8 =
        (core_load (step vm (loop_elapsed cfg vm lastTime) (instrs_per_flip cfg)).1.core
          cfg.layout.cyclel 8 + instrs_per_flip cfg) % 18446744073709551616)) := by
  generalize hs : step vm (loop_elapsed cfg vm lastTime) (instrs_per_flip cfg) = r
  refine ⟨?_, ?_, ?_, ?_, ?_, ?_, ?_, ?_, ?_⟩
  · intro h
    rw [vm_loop]
    simp only [hcond, not_true_eq_false, if_false, hs, h]
    norm_num
  · intro h
    rw [vm_loop]
    simp only [hcond, not_true_eq_false, if_false, hs, h]
    norm_num
  · intro h0 h1 h3 h5 h7
    rw [vm_loop]
    simp only [hcond, not_true_eq_false, if_false, hs, h0, h1, h3, h5, h7]
  · intro s code hr hc
    rw [vm_save_powerstate_ok s hr code, Nat.mod_eq_of_lt hc]
    exact ⟨rfl, by simp⟩
  · intro s code hrej
    exact vm_save_powerstate_rejected s code hrej
  · intro h hh
    rw [vm_loop]
    simp only [hcond, not_true_eq_false, if_false, hs, h]
    simp [hh]
  · intro h hh
    have hw : (wfi_case cfg r.1).hibernate_request ≠ 0 := hh
    rw [vm_loop]
    simp only [hcond, not_true_eq_false, if_false, hs, h]
    simp [hw]
  · intro h hh
    rw [vm_loop]
    simp only [hcond, not_true_eq_false, if_false, hs, h, hh]
    simp
  · intro h hh
    have hw : (wfi_case cfg r.1).hibernate_request = 0 := hh
    refine ⟨?_, rfl, ?_⟩
    · rw [vm_loop]
      simp only [hcond, not_true_eq_false, if_false, hs, h, hw]
      simp
    · intro hl
      have e : (wfi_case cfg r.1).core = core_store r.1.core cfg.layout.cyclel 8
          ((core_load r.1.core cfg.layout.cyclel 8 + instrs_per_flip cfg)
            % 18446744073709551616) := rfl
      rw [e, core_load_store _ _ _ hl, Nat.mod_mod]

theorem return_code_dispatch_witness :
    vm_loop demoCfg rebootStep (0 + 1) demoVM 0 (-1) 0 =
      (Outcome.returned EMU_REBOOT,
        { (rebootStep demoVM (loop_elapsed demoCfg demoVM 0) (instrs_per_flip demoCfg)).1 with
          sto := (vm_save_powerstate
            (rebootStep demoVM (loop_elapsed demoCfg demoVM 0) (instrs_per_flip demoCfg)).1.sto
            EMU_REBOOT).2 }) ∧
    (vm_save_powerstate demoStorage EMU_REBOOT).2.log =
      demoStorage.log ++ [StorageOp.open FileName.STAT, StorageOp.lseek 0,
        StorageOp.write [EMU_REBOOT], StorageOp.write []] ∧
    ((vm_save_powerstate demoStorage EMU_REBOOT).2.files FileName.STAT).head? =
      some EMU_REBOOT ∧
    (vm_save_powerstate rejectVM.sto EMU_REBOOT).2.files = rejectVM.sto.files ∧
    (vm_save_powerstate rejectVM.sto EMU_REBOOT).2.log =
      rejectVM.sto.log ++ [StorageOp.open FileName.STAT] :=
  have h := return_code_dispatch demoCfg rebootStep 0 demoVM 0 (-1) 0 (by decide)
  ⟨h.1 rfl, (h.2.2.2.1 demoStorage EMU_REBOOT rfl (by decide)).1,
    (h.2.2.2.1 demoStorage EMU_REBOOT rfl (by decide)).2,
    h.2.2.2.2.1 rejectVM.sto EMU_REBOOT (by decide)⟩

end TinyRv32
